import Mathlib

/-!
# Elementwise lowering: sub-element packing, deduplication, operand grouping

A shallow embedding of `lib/Conversion/TritonGPUToLLVM/ElementwiseOpToLLVM.h`
(`unpackI32`, `packI32`, `ElementwiseOpConversionBase::maybeDeduplicate` and
`ElementwiseOpConversionBase::matchAndRewrite`) together with the properties
proved about it.

Conventions of the embedding.

* An SSA value handle (`mlir::Value`) is a term of `Value`: the instruction that
  defines it.  Emitting an instruction is building a term; the bit-level
  meaning of a term is `Value.eval`.
* A function that can read out of bounds, divide by zero, cast a null handle
  or run an iterator past its end returns `Run.ub` there; a loop whose source
  form need not terminate takes fuel and returns `Run.timeout` when it runs
  out.
* `unsigned` arithmetic wraps modulo `2 ^ 32`; `int64_t` values are `Int`;
  loop counters of type `int` index sequences of fewer than `2 ^ 31` values.
* Answers of the layout system, the axis analysis and the type converter are
  inputs: they are fields of the types and operations below, or parameters.
-/

namespace Triton

/-! ## Outcomes -/

/-- Outcome of running a piece of the lowering. -/
inductive Run (α : Type) where
  /-- normal return -/
  | ok (a : α)
  /-- undefined behaviour of the source: out-of-bounds read, division by zero,
  `dyn_cast` of a null handle, iterator advanced past the end -/
  | ub
  /-- the fuel given to a loop ran out -/
  | timeout
deriving DecidableEq, Repr

/-! ## Types and layouts -/

/-- An integer or floating-point scalar type.  Only its bit width
(`getIntOrFloatBitWidth`) is observed by the code. -/
structure ScalarTy where
  bitWidth : Nat
deriving DecidableEq, Repr

/-- LLVM-level types built by the code: scalars and `vec_ty(elt, n)`. -/
inductive LType where
  | scalar (elt : ScalarTy)
  | vec (elt : ScalarTy) (n : Nat)
deriving DecidableEq, Repr

/-- The type `i32_ty`, the 32-bit integer type. -/
def i32_ty : LType := .scalar ⟨32⟩

/-- The type `vec_ty(elt, n)`, the vector of `n` elements of type `elt`. -/
def vec_ty (elt : ScalarTy) (n : Nat) : LType := .vec elt n

/-- Layout encodings as far as the code tells them apart.  For a blocked or
slice layout the answers of `getSizePerThread(encoding)` and
`getOrder(encoding)` are carried by the encoding. -/
inductive Attribute where
  | BlockedEncodingAttr (sizePerThread order : List Nat)
  | SliceEncodingAttr (sizePerThread order : List Nat)
  | NvidiaMmaEncodingAttr
  | DotOperandEncodingAttr (parent : Attribute)
  | other (id : Nat)
deriving DecidableEq, Repr

/-- A ranked tensor type: element type, optional encoding, and the answer of
`getElemsPerThread(rtType)`. -/
structure RankedTensorType where
  elementType : ScalarTy
  encoding : Option Attribute
  elemsPerThread : List Nat
deriving DecidableEq, Repr

/-- An `mlir::Type`: null, a ranked tensor, or any other (scalar) type. -/
inductive MlirType where
  | null
  | scalar (t : ScalarTy)
  | tensor (t : RankedTensorType)
deriving DecidableEq, Repr

/-- The type converter, `typeConverter->convertType` on element types. -/
structure LLVMTypeConverter where
  convertType : ScalarTy → ScalarTy

/-- The cast `encoding.dyn_cast<DotOperandEncodingAttr>()` of a non-null
attribute followed by the test
`encoding && encoding.getParent().isa<NvidiaMmaEncodingAttr>()`. -/
def isDotOperandOfNvidiaMma : Attribute → Bool
  | .DotOperandEncodingAttr .NvidiaMmaEncodingAttr => true
  | _ => false

/-! ## Values -/

/-- An SSA value handle, identified with the instruction defining it. -/
inductive Value where
  /-- the null handle, for which `static_cast<bool>(v)` is false -/
  | null
  /-- a value defined outside the code under study -/
  | arg (id : Nat)
  /-- the constant `i32_val(i)` -/
  | i32_val (i : Nat)
  /-- the value `undef(ty)` -/
  | undef (ty : LType)
  /-- the value `bitcast(v, ty)` -/
  | bitcast (v : Value) (ty : LType)
  /-- the value `extract_element(vec, idx)` -/
  | extract_element (vec idx : Value)
  /-- the value `insert_element(vec, elt, idx)` -/
  | insert_element (vec elt idx : Value)
deriving DecidableEq, Repr

/-- The test `static_cast<bool>(v)`. -/
def Value.toBool : Value → Bool
  | .null => false
  | _ => true

/-- Runtime content of a value: a `w`-bit scalar, or a vector of `w`-bit
elements (element 0 first). -/
inductive Bits where
  | int (w : Nat) (n : Nat)
  | vec (w : Nat) (elems : List Nat)
deriving DecidableEq, Repr

/-- The `n` elements of width `w` held by the bit pattern `b`, element 0 in the
least significant bits. -/
def splitBits (w : Nat) (b : Nat) : Nat → List Nat
  | 0 => []
  | n + 1 => b % 2 ^ w :: splitBits w (b / 2 ^ w) n

/-- The bit pattern holding the given elements of width `w`, element 0 in the
least significant bits. -/
def joinBits (w : Nat) : List Nat → Nat
  | [] => 0
  | x :: xs => x + 2 ^ w * joinBits w xs

/-- Modelled from the spec: the macro `bitcast` is defined outside the
sources; it emits the LLVM instruction of that name, which reinterprets the
bits of its operand ("reinterpret each packed 32-bit lane value as a vector of
`32/bitwidth` elements") and is defined when source and target have the same
number of bits.  Element 0 of a vector holds the least significant bits. -/
def bitcastBits : Bits → LType → Option Bits
  | .int w b, .scalar t => if t.bitWidth = w then some (.int w b) else none
  | .int w b, .vec t n =>
    if n * t.bitWidth = w then some (.vec t.bitWidth (splitBits t.bitWidth b n)) else none
  | .vec w es, .scalar t =>
    if es.length * w = t.bitWidth then some (.int t.bitWidth (joinBits w es)) else none
  | .vec w es, .vec t n =>
    if es.length * w = n * t.bitWidth then
      some (.vec t.bitWidth (splitBits t.bitWidth (joinBits w es) n))
    else none

/-- What the surroundings of a value determine at run time: the content of the
values defined elsewhere, and the content an `undef` happens to have. -/
structure Env where
  arg : Nat → Option Bits
  undefElem : Nat → Nat

/-- Modelled from the spec: the macros `i32_val`, `undef`, `bitcast`,
`extract_element` and `insert_element` are defined outside the sources; each
emits the LLVM constant or instruction of that name, and this is the content of
the value it defines.  `none` when the instruction is ill-typed, the index is
not one of the vector, or the value is null. -/
def Value.eval (env : Env) : Value → Option Bits
  | .null => none
  | .arg id => env.arg id
  | .i32_val i => some (.int 32 (i % 2 ^ 32))
  | .undef (.scalar t) => some (.int t.bitWidth (env.undefElem 0 % 2 ^ t.bitWidth))
  | .undef (.vec t n) =>
    some (.vec t.bitWidth ((List.range n).map fun j => env.undefElem j % 2 ^ t.bitWidth))
  | .bitcast v ty =>
    match v.eval env with
    | some b => bitcastBits b ty
    | none => none
  | .extract_element vec idx =>
    match vec.eval env, idx.eval env with
    | some (.vec w es), some (.int _ i) => (es[i]?).map (Bits.int w)
    | _, _ => none
  | .insert_element vec elt idx =>
    match vec.eval env, elt.eval env, idx.eval env with
    | some (.vec w es), some (.int w1 x), some (.int _ i) =>
      if w1 = w ∧ i < es.length then some (.vec w (es.set i x)) else none
    | _, _, _ => none

/-! ## `unpackI32` -/

/-- Body of the loop of `unpackI32` for one input value `v`: the values pushed
onto `outValues`. -/
def unpackI32.body (typeConverter : LLVMTypeConverter) (elementType : ScalarTy)
    (v : Value) : Run (List Value) :=
  let eltType := typeConverter.convertType elementType
  if eltType.bitWidth = 0 then .ub
  else
    let vecType := vec_ty eltType (32 / eltType.bitWidth)
    let vec := Value.bitcast v vecType
    .ok ((List.range (32 / eltType.bitWidth)).map fun i =>
      Value.extract_element vec (Value.i32_val i))

/-- The loop `for (auto v : inValues)` of `unpackI32`, with `outValues` as
accumulator. -/
def unpackI32.loop (typeConverter : LLVMTypeConverter) (elementType : ScalarTy) :
    List Value → List Value → Run (List Value)
  | [], outValues => .ok outValues
  | v :: rest, outValues =>
    match unpackI32.body typeConverter elementType v with
    | .ok es => unpackI32.loop typeConverter elementType rest (outValues ++ es)
    | .ub => .ub
    | .timeout => .timeout

/-- The function `unpackI32(inValues, srcTy, rewriter, loc, typeConverter)`.
The casts `srcTy.dyn_cast` and `getEncoding().dyn_cast` require a non-null
type and a non-null attribute (`maybeDeduplicate` tests both for null before
it casts). -/
def unpackI32 (inValues : List Value) (srcTy : MlirType)
    (typeConverter : LLVMTypeConverter) : Run (List Value) :=
  match srcTy with
  | .null => .ub
  | .scalar _ => .ok inValues
  | .tensor tensorTy =>
    match tensorTy.encoding with
    | none => .ub
    | some encoding =>
      if !isDotOperandOfNvidiaMma encoding then .ok inValues
      else unpackI32.loop typeConverter tensorTy.elementType inValues []

/-! ## `packI32` -/

/-- The inner loop `for (int j = 0; j < vecWidth; j++)` of `packI32`, from
`j` on with `n` iterations left: `vec = insert_element(vec, inValues[i + j],
i32_val(j))`. -/
def packI32.inner (inValues : List Value) (i : Nat) : Nat → Nat → Value → Run Value
  | 0, _, vec => .ok vec
  | n + 1, j, vec =>
    match inValues[i + j]? with
    | some x => packI32.inner inValues i n (j + 1) (Value.insert_element vec x (Value.i32_val j))
    | none => .ub

/-- The outer loop `for (int i = 0; i < inValues.size(); i += vecWidth)` of
`packI32`, from `i` on with `outValues` as accumulator. -/
def packI32.loop (inValues : List Value) (eltType : ScalarTy) (vecWidth : Nat) :
    Nat → Nat → List Value → Run (List Value)
  | 0, _, _ => .timeout
  | fuel + 1, i, outValues =>
    if i < inValues.length then
      match packI32.inner inValues i vecWidth 0 (Value.undef (vec_ty eltType vecWidth)) with
      | .ok vec =>
        packI32.loop inValues eltType vecWidth fuel (i + vecWidth)
          (outValues ++ [Value.bitcast vec i32_ty])
      | .ub => .ub
      | .timeout => .timeout
    else .ok outValues

/-- The function `packI32(inValues, srcTy, rewriter, loc, typeConverter)`; the
outer loop runs on `fuel`.  The two casts are as in `unpackI32`. -/
def packI32 (fuel : Nat) (inValues : List Value) (srcTy : MlirType)
    (typeConverter : LLVMTypeConverter) : Run (List Value) :=
  match srcTy with
  | .null => .ub
  | .scalar _ => .ok inValues
  | .tensor tensorTy =>
    match tensorTy.encoding with
    | none => .ub
    | some encoding =>
      if !isDotOperandOfNvidiaMma encoding then .ok inValues
      else
        let eltType := typeConverter.convertType tensorTy.elementType
        if eltType.bitWidth = 0 then .ub
        else
          let vecWidth := 32 / eltType.bitWidth
          packI32.loop inValues eltType vecWidth fuel 0 []

/-! ## `maybeDeduplicate` -/

/-- The axis analysis result for a value: its per-dimension constancy
(`getConstancy()`, a vector of `int64_t`). -/
structure AxisInfo where
  constancy : List Int
deriving DecidableEq, Repr

/-- The operation being lowered, as far as the code inspects it. -/
structure SourceOp where
  /-- answer of `isMemoryEffectFree(op)` -/
  isMemoryEffectFree : Bool
  /-- types of `op->getResults()` -/
  results : List MlirType
  /-- answer of `axisAnalysisPass.getAxisInfo(result)` for the first result;
  `none` is the null pointer -/
  axisInfo : Option AxisInfo
  /-- the operands: `op->getOperand(i).getType()` paired with the lowered
  operand `adaptor.getOperands()[i]` -/
  operands : List (MlirType × Value)

/-- The tests `encoding.dyn_cast<BlockedEncodingAttr>()` and
`encoding.dyn_cast<SliceEncodingAttr>()`: true when one of them succeeds. -/
def Attribute.isBlockedOrSlice : Attribute → Bool
  | .BlockedEncodingAttr _ _ => true
  | .SliceEncodingAttr _ _ => true
  | _ => false

/-- The query `getSizePerThread(encoding)`, used on blocked and slice layouts. -/
def getSizePerThread : Attribute → List Nat
  | .BlockedEncodingAttr sizePerThread _ => sizePerThread
  | .SliceEncodingAttr sizePerThread _ => sizePerThread
  | _ => []

/-- The query `getOrder(encoding)`, used on blocked and slice layouts. -/
def getOrder : Attribute → List Nat
  | .BlockedEncodingAttr _ order => order
  | .SliceEncodingAttr _ order => order
  | _ => []

/-- The query `getElemsPerThread(rtType)`. -/
def getElemsPerThread (rtType : RankedTensorType) : List Nat := rtType.elemsPerThread

/-- Modelled from the spec: the helper `product<unsigned>` is declared outside
the sources; it multiplies the entries in `unsigned` arithmetic. -/
def product (xs : List Nat) : Nat :=
  xs.foldl (fun acc x => acc * x % 2 ^ 32) 1

/-- Modelled from the spec: the helper `applyPermutation(vec, permutation)` is
declared outside the sources; entry `i` of its result is
`vec[permutation[i]]`, an out-of-bounds read when the index is not one of
`vec`. -/
def applyPermutation {α : Type} (vec : List α) : List Nat → Run (List α)
  | [] => .ok []
  | i :: rest =>
    match vec[i]?, applyPermutation vec rest with
    | some x, .ok ret => .ok (x :: ret)
    | none, _ => .ub
    | _, .ub => .ub
    | _, .timeout => .timeout

/-- The loop `for (int i = 0; i < rank; ++i)` over the three vectors of length
`rank`.  `.ok none` is the early `return resultVals`; `.ok (some (c, h))` is
the normal exit with the clamped `constancy` and `hasConstancy`. -/
def maybeDeduplicate.clamp :
    List Nat → List Nat → List Int → Bool → Run (Option (List Int × Bool))
  | e :: elemsPerThread, s :: sizePerThread, c :: constancy, hasConstancy =>
    -- if (constancy[i] > sizePerThread[i])
    if c > (s : Int) ∧ s = 0 then .ub
    else if c > (s : Int) ∧ c.tmod (s : Int) ≠ 0 then .ok none
    else
      let c1 : Int := if c > (s : Int) then (s : Int) else c
      if e < 1 ∨ c1 < 1 then .ok none
      else if ¬ ((e : Int).tmod c1 = 0 ∨ c1.tmod (e : Int) = 0) then .ok none
      else
        match maybeDeduplicate.clamp elemsPerThread sizePerThread constancy
            (if c1 > 1 then true else hasConstancy) with
        | .ok (some (cs, h)) => .ok (some (c1 :: cs, h))
        | .ok none => .ok none
        | .ub => .ub
        | .timeout => .timeout
  | _, _, _, hasConstancy => .ok (some ([], hasConstancy))

/-- The vector `strides`: `strides[0] = 1` and
`strides[i] = strides[i - 1] * elemsPerThread[i - 1]` in `unsigned`
arithmetic; `s` is the stride of the first entry of the list. -/
def maybeDeduplicate.strides (s : Nat) : List Nat → List Nat
  | [] => []
  | e :: elemsPerThread => s :: maybeDeduplicate.strides (s * e % 2 ^ 32) elemsPerThread

/-- The loop `for (int j = 0; j < rank; ++j)` computing `dedup_idx` from
`orig_idx`, over `elemsPerThread`, `constancy` and `strides`.  Every entry of
`elemsPerThread` and `constancy` is at least 1 here. -/
def maybeDeduplicate.dedupIdx : List Nat → List Int → List Nat → Nat → Int → Int
  | e :: elemsPerThread, c :: constancy, s :: strides, orig_idx, dedup_idx =>
    let coord_j : Int := ((orig_idx % e : Nat) : Int)
    maybeDeduplicate.dedupIdx elemsPerThread constancy strides (orig_idx / e)
      (dedup_idx + (coord_j.tdiv c * c) * (s : Int))
  | _, _, _, _, dedup_idx => dedup_idx

/-- The loop `for (int i = 0; i < resultVals.size(); ++i)`, over the indices
still to visit: pushes `resultVals[dedup_idx]`. -/
def maybeDeduplicate.loop (resultVals : List Value) (elemsPerThread : List Nat)
    (constancy : List Int) (strides : List Nat) : List Nat → Run (List Value)
  | [] => .ok []
  | i :: rest =>
    let dedup_idx := maybeDeduplicate.dedupIdx elemsPerThread constancy strides i 0
    if dedup_idx < 0 then .ub
    else
      match resultVals[dedup_idx.toNat]?,
          maybeDeduplicate.loop resultVals elemsPerThread constancy strides rest with
      | some v, .ok out => .ok (v :: out)
      | none, _ => .ub
      | _, .ub => .ub
      | _, .timeout => .timeout

/-- Lines 165 to 173 of `maybeDeduplicate`: when `rank > 1`, `elemsPerThread`
and `constancy` are reordered by the axis order.  `.ok none` is the early
`return resultVals`. -/
def maybeDeduplicate.permute (encoding : Attribute) (elemsPerThread : List Nat)
    (constancy : List Int) : Run (Option (List Nat × List Int)) :=
  let rank := elemsPerThread.length
  if rank > 1 then
    let order := getOrder encoding
    if rank ≠ order.length then .ok none
    else
      match applyPermutation elemsPerThread order, applyPermutation constancy order with
      | .ok es, .ok cs => .ok (some (es, cs))
      | .timeout, _ => .timeout
      | .ok _, .timeout => .timeout
      | _, _ => .ub
  else .ok (some (elemsPerThread, constancy))

/-- Lines 99 to 173 of `maybeDeduplicate`.  `.ok none` is an early
`return resultVals`; `.ok (some (e, c))` is reaching line 175 with
`elemsPerThread = e` and `constancy = c`. -/
def maybeDeduplicate.gates (op : SourceOp) (resultVals : List Value) :
    Run (Option (List Nat × List Int)) :=
  if !op.isMemoryEffectFree then .ok none
  else if op.results.length = 0 ∨ op.results.length > 1 then .ok none
  else
    match op.results.head? with
    | some (.tensor rtType) =>
      match rtType.encoding with
      | none => .ok none
      | some encoding =>
        if !encoding.isBlockedOrSlice then .ok none
        else
          let elemsPerThread := getElemsPerThread rtType
          let rank := elemsPerThread.length
          if product elemsPerThread ≠ resultVals.length then .ok none
          else
            match op.axisInfo with
            | none => .ok none
            | some axisInfo =>
              let sizePerThread := getSizePerThread encoding
              if rank ≠ sizePerThread.length then .ok none
              else
                let constancy := axisInfo.constancy
                if rank ≠ constancy.length then .ok none
                else
                  match maybeDeduplicate.clamp elemsPerThread sizePerThread constancy false with
                  | .ok (some (constancy, hasConstancy)) =>
                    if !hasConstancy then .ok none
                    else maybeDeduplicate.permute encoding elemsPerThread constancy
                  | .ok none => .ok none
                  | .ub => .ub
                  | .timeout => .timeout
    | _ => .ok none

/-- The method `maybeDeduplicate(op, resultVals)`: the gates, then lines 175 to
195. -/
def maybeDeduplicate (op : SourceOp) (resultVals : List Value) : Run (List Value) :=
  match maybeDeduplicate.gates op resultVals with
  | .ok (some (elemsPerThread, constancy)) =>
    maybeDeduplicate.loop resultVals elemsPerThread constancy
      (maybeDeduplicate.strides 1 elemsPerThread) (List.range resultVals.length)
  | .ok none => .ok resultVals
  | .ub => .ub
  | .timeout => .timeout

/-- The coordinates `coord_j` that the loop over `j` (lines 187 to 191)
computes from `orig_idx = i`, first dimension of the list first. -/
def coords : List Nat → Nat → List Nat
  | e :: elemsPerThread, i => i % e :: coords elemsPerThread (i / e)
  | [], _ => []

/-- The index `dedup_idx` of lines 185 to 191 as a natural number, for
constancies that are natural numbers and strides that do not wrap: each
coordinate is rounded down to a multiple of its constancy, and the
coordinates are recomposed with the radices `elemsPerThread`. -/
def representative : List Nat → List Nat → Nat → Nat
  | e :: elemsPerThread, c :: constancy, i =>
    i % e / c * c + e * representative elemsPerThread constancy (i / e)
  | _, _, _ => 0

/-! ## `matchAndRewrite` -/

/-- What `matchAndRewrite` returns: `failure()`, or `success()` after
`rewriter.replaceOp(op, view)`. -/
inductive LogicalResult where
  | failure
  | success (view : Value)
deriving DecidableEq, Repr

/-- The lowering pattern: the concrete callback `createDestOps`, which runs on
the rewriter state `σ` and sees the window `MultipleOperandsRange(it, end)`
(its other arguments are the same in every call), and the helpers defined
outside the sources. -/
structure Pattern (σ : Type) where
  typeConverter : LLVMTypeConverter
  createDestOps : σ → List (List Value) → List Value × σ
  /-- the helper `unpackLLElements(loc, operand, rewriter)` -/
  unpackLLElements : Value → List Value
  /-- the helper `packLLElements(loc, typeConverter, resultVals, rewriter, resultTy)` -/
  packLLElements : List Value → MlirType → Value
  /-- the helper `reorderValues(resultVals, argTy, resultTy)` -/
  reorderValues : List Value → MlirType → MlirType → List Value

/-- The call `allOperands.resize(n)`. -/
def matchAndRewrite.resize (allOperands : List (List Value)) (n : Nat) : List (List Value) :=
  allOperands.take n ++ List.replicate (n - allOperands.length) []

/-- The loop `for (auto v : llvm::enumerate(subOperands))
allOperands[v.index()].push_back(v.value())`. -/
def matchAndRewrite.pushEach : List (List Value) → List Value → List (List Value)
  | g :: allOperands, v :: subOperands =>
    (g ++ [v]) :: matchAndRewrite.pushEach allOperands subOperands
  | allOperands, _ => allOperands

/-- The loop `for (auto operand : adaptor.getOperands())`, over the operands
still to visit, with `allOperands` as accumulator. -/
def matchAndRewrite.operandLoop {σ : Type} (P : Pattern σ) (op : SourceOp) :
    List (MlirType × Value) → List (List Value) → Run (List (List Value))
  | [], allOperands => .ok allOperands
  | operand :: rest, allOperands =>
    match op.operands.head? with
    | none => .ub
    | some (argTy, _) =>
      match unpackI32 (P.unpackLLElements operand.2) argTy P.typeConverter with
      | .ok subOperands =>
        matchAndRewrite.operandLoop P op rest
          (matchAndRewrite.pushEach
            (matchAndRewrite.resize allOperands subOperands.length) subOperands)
      | .ub => .ub
      | .timeout => .timeout

/-- The operand groups handed to the loop over `createDestOps`: the result of
the operand loop, with one empty group pushed when there is none. -/
def matchAndRewrite.groups {σ : Type} (P : Pattern σ) (op : SourceOp) :
    Run (List (List Value)) :=
  match matchAndRewrite.operandLoop P op op.operands [] with
  | .ok allOperands => if allOperands.length = 0 then .ok [[]] else .ok allOperands
  | .ub => .ub
  | .timeout => .timeout

/-- The loop `for (auto it = allOperands.begin(); it != end;)`: `window` is the
range from `it` to `end`.  `.ok none` is `return failure()`.  Each turn
consumes at least one group, so fuel equal to the number of groups is
enough. -/
def matchAndRewrite.destLoop {σ : Type} (P : Pattern σ) :
    Nat → σ → List (List Value) → List Value → Run (Option (List Value))
  | _, _, [], resultVals => .ok (some resultVals)
  | 0, _, _ :: _, _ => .timeout
  | fuel + 1, st, g :: gs, resultVals =>
    let curr := (P.createDestOps st (g :: gs)).1
    if curr.length = 0 then .ok none
    else if curr.any (fun v => !v.toBool) then .ok none
    else if (g :: gs).length < curr.length then .ub
    else
      matchAndRewrite.destLoop P fuel (P.createDestOps st (g :: gs)).2
        ((g :: gs).drop curr.length) (resultVals ++ curr)

/-- Lines 232 to 235 of `matchAndRewrite`: `reorderValues` is applied when the
op has operands, with the type of operand 0. -/
def matchAndRewrite.reorder {σ : Type} (P : Pattern σ) (op : SourceOp)
    (resultTy : MlirType) (resultVals : List Value) : List Value :=
  match op.operands.head? with
  | some (argTy, _) => P.reorderValues resultVals argTy resultTy
  | none => resultVals

/-- Lines 232 to 243 of `matchAndRewrite`: reorder, deduplicate, pack, replace
the op.  `packI32` gets fuel for one turn more than there are values, which is
enough whenever its loop terminates. -/
def matchAndRewrite.finish {σ : Type} (P : Pattern σ) (op : SourceOp)
    (resultTy : MlirType) (resultVals : List Value) : Run LogicalResult :=
  match maybeDeduplicate op (matchAndRewrite.reorder P op resultTy resultVals) with
  | .ok resultVals =>
    match packI32 (resultVals.length + 1) resultVals resultTy P.typeConverter with
    | .ok resultVals => .ok (.success (P.packLLElements resultVals resultTy))
    | .ub => .ub
    | .timeout => .timeout
  | .ub => .ub
  | .timeout => .timeout

/-- The method `matchAndRewrite(op, adaptor, rewriter)`, started in rewriter
state `st`; `op.getType()` is the type of the first result. -/
def matchAndRewrite {σ : Type} (P : Pattern σ) (op : SourceOp) (st : σ) : Run LogicalResult :=
  let resultTy := op.results.headD .null
  match matchAndRewrite.groups P op with
  | .ok allOperands =>
    match matchAndRewrite.destLoop P allOperands.length st allOperands [] with
    | .ok (some resultVals) => matchAndRewrite.finish P op resultTy resultVals
    | .ok none => .ok .failure
    | .ub => .ub
    | .timeout => .timeout
  | .ub => .ub
  | .timeout => .timeout

/-- The invocations of `createDestOps` made by the loop of lines 220 to 231, in
order: the window `MultipleOperandsRange(it, end)` passed and the result
returned.  The last entry is the invocation after which the loop stops. -/
def matchAndRewrite.calls {σ : Type} (P : Pattern σ) :
    Nat → σ → List (List Value) → List (List (List Value) × List Value)
  | _, _, [] => []
  | 0, _, _ :: _ => []
  | fuel + 1, st, g :: gs =>
    let curr := (P.createDestOps st (g :: gs)).1
    (g :: gs, curr) ::
      (if curr.length = 0 then []
      else if curr.any (fun v => !v.toBool) then []
      else if (g :: gs).length < curr.length then []
      else
        matchAndRewrite.calls P fuel (P.createDestOps st (g :: gs)).2
          ((g :: gs).drop curr.length))

/-- The invocations of `createDestOps` made by `matchAndRewrite` started in
rewriter state `st`. -/
def matchAndRewrite.trace {σ : Type} (P : Pattern σ) (op : SourceOp) (st : σ) :
    List (List (List Value) × List Value) :=
  match matchAndRewrite.groups P op with
  | .ok allOperands => matchAndRewrite.calls P allOperands.length st allOperands
  | _ => []

/-- The tensor type on which lines 16 to 21 of `unpackI32` (and 40 to 45 of
`packI32`) do not return early: a ranked tensor whose encoding is a dot-operand
encoding with an NVIDIA MMA parent. -/
def subElementTensor : MlirType → Option RankedTensorType
  | .tensor tensorTy =>
    match tensorTy.encoding with
    | some encoding => if isDotOperandOfNvidiaMma encoding then some tensorTy else none
    | none => none
  | _ => none

/-- The types on which lines 16 to 21 of `unpackI32` (and 40 to 45 of
`packI32`) return `inValues`: a non-tensor type, and a ranked tensor whose
encoding is not a dot-operand encoding with an NVIDIA MMA parent. -/
def passesThrough : MlirType → Bool
  | .scalar _ => true
  | .tensor tensorTy =>
    match tensorTy.encoding with
    | some encoding => !isDotOperandOfNvidiaMma encoding
    | none => false
  | .null => false

/-! ## Concrete inputs used in the examples -/

/-- The type converter that leaves element types as they are. -/
def idConverter : LLVMTypeConverter := ⟨id⟩

/-- A tensor type with dot-operand encoding, NVIDIA MMA parent and elements of
`w` bits. -/
def dotOpMmaTy (w : Nat) : MlirType :=
  .tensor ⟨⟨w⟩, some (.DotOperandEncodingAttr .NvidiaMmaEncodingAttr), []⟩

/-- A tensor type with a rank-1 blocked encoding and elements of `w` bits. -/
def blockedTy (w : Nat) : MlirType :=
  .tensor ⟨⟨w⟩, some (.BlockedEncodingAttr [1] [0]), [1]⟩

/-- A run-time environment in which the value `arg id` is the 32-bit pattern
`id`. -/
def laneEnv : Env := ⟨fun id => some (.int 32 (id % 2 ^ 32)), fun _ => 0⟩

/-- A memory-effect-free op with one result of rank-1 blocked layout: 8
elements per thread, `sizePerThread = [s]`, constancy `[c]`. -/
def blocked8 (c : Int) (s : Nat) : SourceOp :=
  { isMemoryEffectFree := true,
    results := [.tensor ⟨⟨32⟩, some (.BlockedEncodingAttr [s] [0]), [8]⟩],
    axisInfo := some ⟨[c]⟩,
    operands := [] }

/-- Eight distinct values, `arg 0` to `arg 7`. -/
def args8 : List Value := (List.range 8).map Value.arg

/-- A pattern whose `createDestOps` returns `result` at every call; the struct
of operand `arg 0` unpacks to one value and that of any other operand to two. -/
def constPattern (result : List Value) : Pattern Unit :=
  { typeConverter := idConverter,
    createDestOps := fun st _ => (result, st),
    unpackLLElements := fun v =>
      match v with
      | .arg 0 => [.arg 10]
      | _ => [.arg 20, .arg 21],
    packLLElements := fun vals _ => vals.headD .null,
    reorderValues := fun vals _ _ => vals }

/-- An op with one result and the two operands `arg 0` and `arg 1`, all of a
blocked tensor type; no axis information. -/
def binaryOp : SourceOp :=
  { isMemoryEffectFree := true,
    results := [blockedTy 32],
    axisInfo := none,
    operands := [(blockedTy 32, .arg 0), (blockedTy 32, .arg 1)] }

/-- An op with one result and the one operand `arg 1`, of a blocked tensor
type; no axis information. -/
def unaryOp : SourceOp :=
  { isMemoryEffectFree := true,
    results := [blockedTy 32],
    axisInfo := none,
    operands := [(blockedTy 32, .arg 1)] }

/-- A run-time environment in which the value `arg id` is the 16-bit pattern
`id`. -/
def halfEnv : Env := ⟨fun id => some (.int 16 (id % 2 ^ 16)), fun _ => 0⟩

/-- A memory-effect-free op with one result of rank-2 blocked layout:
`elemsPerThread = [2, 4]`, `sizePerThread = [2, 4]`, constancy `[1, 4]`, and
the given axis order. -/
def blocked2x4 (order : List Nat) : SourceOp :=
  { isMemoryEffectFree := true,
    results := [.tensor ⟨⟨32⟩, some (.BlockedEncodingAttr [2, 4] order), [2, 4]⟩],
    axisInfo := some ⟨[1, 4]⟩,
    operands := [] }

/-- The indices `dedup_idx` at which line 192 reads `resultVals`, for `i` from 0
up to `resultVals.size()`, in that order. -/
def maybeDeduplicate.sourceIndices (resultVals : List Value) (elemsPerThread : List Nat)
    (constancy : List Int) : List Nat :=
  (List.range resultVals.length).map fun i =>
    (maybeDeduplicate.dedupIdx elemsPerThread constancy
      (maybeDeduplicate.strides 1 elemsPerThread) i 0).toNat

/-- A pattern whose `createDestOps` returns `result` at every call and whose
operands are structs without elements: `unpackLLElements` returns nothing. -/
def emptyStructPattern (result : List Value) : Pattern Unit :=
  { typeConverter := idConverter,
    createDestOps := fun st _ => (result, st),
    unpackLLElements := fun _ => [],
    packLLElements := fun vals _ => vals.headD .null,
    reorderValues := fun vals _ _ => vals }

/-- An op whose operand `arg 0` has a dot-operand type with 16-bit elements
and whose operand `arg 1` has a blocked type with 16-bit elements.  With
`constPattern` the first is lowered to one value and the second to two, so
that each holds two elements when unpacked by its own type. -/
def dotThenBlockedOp : SourceOp :=
  { isMemoryEffectFree := true,
    results := [blockedTy 16],
    axisInfo := none,
    operands := [(dotOpMmaTy 16, .arg 0), (blockedTy 16, .arg 1)] }

/-- An op whose operand `arg 1` has a blocked type with 16-bit elements and
whose operand `arg 0` has a dot-operand type with 16-bit elements.  With
`constPattern` the first is lowered to two values and the second to one, so
that each holds two elements when unpacked by its own type. -/
def blockedThenDotOp : SourceOp :=
  { isMemoryEffectFree := true,
    results := [blockedTy 16],
    axisInfo := none,
    operands := [(blockedTy 16, .arg 1), (dotOpMmaTy 16, .arg 0)] }

/-- The op `op` with the type of every operand replaced by `argTy`. -/
def retypeOperands (op : SourceOp) (argTy : MlirType) : SourceOp :=
  { op with operands := op.operands.map fun operand => (argTy, operand.2) }

/-- An op whose one operand `arg 1` and whose result have a dot-operand type
with 64-bit elements. -/
def wideOp : SourceOp :=
  { isMemoryEffectFree := true,
    results := [dotOpMmaTy 64],
    axisInfo := none,
    operands := [(dotOpMmaTy 64, .arg 1)] }

/-- An op whose one operand `arg 0` has a blocked type and whose result has a
dot-operand type with 16-bit elements.  With `constPattern` the operand is
lowered to one value. -/
def oddOp : SourceOp :=
  { isMemoryEffectFree := true,
    results := [dotOpMmaTy 16],
    axisInfo := none,
    operands := [(blockedTy 16, .arg 0)] }

/-! ## Facts about `unpackI32` -/

theorem unpackI32_passthrough (xs : List Value) (T : MlirType) (tc : LLVMTypeConverter)
    (h : passesThrough T = true) : unpackI32 xs T tc = .ok xs := by
  cases T with
  | null => simp [passesThrough] at h
  | scalar t => rfl
  | tensor t =>
    simp only [passesThrough] at h
    simp only [unpackI32]
    cases henc : t.encoding with
    | none => simp [henc] at h
    | some enc =>
      rw [henc] at h
      simp only [] at h ⊢
      rw [if_pos h]

theorem packI32_passthrough (fuel : Nat) (xs : List Value) (T : MlirType)
    (tc : LLVMTypeConverter) (h : passesThrough T = true) :
    packI32 fuel xs T tc = .ok xs := by
  cases T with
  | null => simp [passesThrough] at h
  | scalar t => rfl
  | tensor t =>
    simp only [passesThrough] at h
    simp only [packI32]
    cases henc : t.encoding with
    | none => simp [henc] at h
    | some enc =>
      rw [henc] at h
      simp only [] at h ⊢
      rw [if_pos h]

theorem subElementTensor_some {T : MlirType} {rt : RankedTensorType}
    (h : subElementTensor T = some rt) :
    T = .tensor rt ∧ ∃ enc, rt.encoding = some enc ∧ isDotOperandOfNvidiaMma enc = true := by
  cases T with
  | null => simp [subElementTensor] at h
  | scalar t => simp [subElementTensor] at h
  | tensor t =>
    simp only [subElementTensor] at h
    cases henc : t.encoding with
    | none => simp [henc] at h
    | some enc =>
      rw [henc] at h
      simp only [] at h
      by_cases hd : isDotOperandOfNvidiaMma enc = true
      · rw [if_pos hd] at h
        simp only [Option.some.injEq] at h
        subst h
        exact ⟨rfl, enc, henc, hd⟩
      · rw [if_neg hd] at h
        cases h

theorem unpackI32_loop_eq (tc : LLVMTypeConverter) (elt : ScalarTy)
    (hw : (tc.convertType elt).bitWidth ≠ 0) (xs out : List Value) :
    unpackI32.loop tc elt xs out =
      .ok (out ++ xs.flatMap fun v =>
        (List.range (32 / (tc.convertType elt).bitWidth)).map fun i =>
          Value.extract_element
            (Value.bitcast v (vec_ty (tc.convertType elt) (32 / (tc.convertType elt).bitWidth)))
            (Value.i32_val i)) := by
  induction xs generalizing out with
  | nil => simp [unpackI32.loop]
  | cons v rest ih =>
    simp only [unpackI32.loop, unpackI32.body, hw, if_false, ih, List.flatMap_cons,
      List.append_assoc]

theorem getElem?_flatMap_of_length {α β : Type} (f : α → List β) (k : Nat)
    (hf : ∀ x, (f x).length = k) (xs : List α) (m j : Nat) (hj : j < k) :
    (xs.flatMap f)[m * k + j]? = (xs[m]?).bind fun x => (f x)[j]? := by
  induction xs generalizing m with
  | nil => simp
  | cons x rest ih =>
    cases m with
    | zero =>
      simp only [List.flatMap_cons, Nat.zero_mul, Nat.zero_add, List.getElem?_cons_zero,
        Option.some_bind]
      rw [List.getElem?_append_left (by rw [hf]; exact hj)]
    | succ m =>
      simp only [List.flatMap_cons, List.getElem?_cons_succ]
      rw [List.getElem?_append_right (by rw [hf]; nlinarith)]
      rw [hf, show (m + 1) * k + j - k = m * k + j by
        rw [Nat.add_mul, Nat.one_mul]; omega]
      exact ih m

theorem length_flatMap_of_length {α β : Type} (f : α → List β) (k : Nat)
    (hf : ∀ x, (f x).length = k) (xs : List α) :
    (xs.flatMap f).length = xs.length * k := by
  induction xs with
  | nil => simp
  | cons x rest ih =>
    simp only [List.flatMap_cons, List.length_append, hf, ih, List.length_cons]
    rw [Nat.add_mul, Nat.one_mul, Nat.add_comm]

/-- On the dot-operand/MMA layout with a non-zero element width, `unpackI32`
returns `32 / w` values per input value: entry `m * (32 / w) + j` is
`extract_element(bitcast(xs[m], vec_ty(eltType, 32 / w)), i32_val(j))`. -/
theorem unpackI32_subElement (xs : List Value) (T : MlirType) (tc : LLVMTypeConverter)
    (rt : RankedTensorType) (h : subElementTensor T = some rt)
    (hw : (tc.convertType rt.elementType).bitWidth ≠ 0) :
    ∃ out, unpackI32 xs T tc = .ok out ∧
      out.length = xs.length * (32 / (tc.convertType rt.elementType).bitWidth) ∧
      ∀ m j, j < 32 / (tc.convertType rt.elementType).bitWidth →
        out[m * (32 / (tc.convertType rt.elementType).bitWidth) + j]? =
          (xs[m]?).map fun v =>
            Value.extract_element
              (Value.bitcast v (vec_ty (tc.convertType rt.elementType)
                (32 / (tc.convertType rt.elementType).bitWidth)))
              (Value.i32_val j) := by
  obtain ⟨hT, enc, henc, hdot⟩ := subElementTensor_some h
  subst hT
  have e : unpackI32 xs (.tensor rt) tc = unpackI32.loop tc rt.elementType xs [] := by
    simp [unpackI32, henc, hdot]
  rw [e, unpackI32_loop_eq tc rt.elementType hw]
  refine ⟨_, rfl, ?_, ?_⟩
  · rw [List.nil_append, length_flatMap_of_length _
      (32 / (tc.convertType rt.elementType).bitWidth) (fun x => by simp)]
  · intro m j hj
    rw [List.nil_append, getElem?_flatMap_of_length _
      (32 / (tc.convertType rt.elementType).bitWidth) (fun x => by simp) xs m j hj]
    cases hx : xs[m]? with
    | none => simp
    | some v => simp [List.getElem?_range hj]

/-! ## Facts about `packI32` -/

theorem packI32_inner_ok (ys : List Value) (i : Nat) :
    ∀ (n j : Nat) (vec : Value), i + j + n ≤ ys.length →
      ∃ v, packI32.inner ys i n j vec = .ok v := by
  intro n
  induction n with
  | zero => intro j vec _; exact ⟨vec, rfl⟩
  | succ n ih =>
    intro j vec h
    have hlt : i + j < ys.length := by omega
    simp only [packI32.inner, List.getElem?_eq_getElem hlt]
    exact ih (j + 1) _ (by omega)

theorem packI32_inner_eval (env : Env) (w : Nat) (ys : List Value) (i : Nat) (y : Nat → Nat) :
    ∀ (n j : Nat) (vec : Value) (es : List Nat),
      vec.eval env = some (.vec w es) → es.length = j + n → j + n ≤ 2 ^ 32 →
      (∀ t, j ≤ t → t < j + n → (ys[i + t]?).bind (Value.eval env) = some (.int w (y t))) →
      ∃ v es1, packI32.inner ys i n j vec = .ok v ∧ v.eval env = some (.vec w es1) ∧
        es1.length = es.length ∧
        ∀ p, es1[p]? = if j ≤ p ∧ p < j + n then some (y p) else es[p]? := by
  intro n
  induction n with
  | zero =>
    intro j vec es hv _ _ _
    refine ⟨vec, es, rfl, hv, rfl, fun p => ?_⟩
    have : ¬ (j ≤ p ∧ p < j + 0) := by omega
    rw [if_neg this]
  | succ n ih =>
    intro j vec es hv hlen hbound hy
    have hyj := hy j (Nat.le_refl j) (by omega)
    cases hx : ys[i + j]? with
    | none => simp [hx] at hyj
    | some x =>
      rw [hx, Option.some_bind] at hyj
      have hjlt : j < es.length := by omega
      have hmod : j % 4294967296 = j := Nat.mod_eq_of_lt (by omega)
      have hv1 : (Value.insert_element vec x (Value.i32_val j)).eval env =
          some (.vec w (es.set j (y j))) := by
        simp [Value.eval, hv, hyj, hmod, hjlt]
      obtain ⟨v, es1, hrun, hev, hl, hget⟩ :=
        ih (j + 1) _ (es.set j (y j)) hv1 (by simp; omega) (by omega)
          (fun t h1 h2 => hy t (by omega) (by omega))
      refine ⟨v, es1, ?_, hev, by simpa using hl, fun p => ?_⟩
      · simp only [packI32.inner, hx]
        exact hrun
      · rw [hget p, List.getElem?_set]
        by_cases hp : j = p
        · subst hp
          have h1 : ¬ (j + 1 ≤ j ∧ j < j + 1 + n) := by omega
          have h2 : j ≤ j ∧ j < j + (n + 1) := by omega
          simp [h1, h2, hjlt]
        · by_cases hq : j + 1 ≤ p ∧ p < j + 1 + n
          · have h2 : j ≤ p ∧ p < j + (n + 1) := by omega
            simp [hq, h2]
          · have h2 : ¬ (j ≤ p ∧ p < j + (n + 1)) := by omega
            simp [hq, h2, hp]

theorem packI32_loop_eq (ys : List Value) (et : ScalarTy) (k : Nat) (hk : 0 < k) (m : Nat)
    (hlen : ys.length = m * k) :
    ∀ (fuel c : Nat) (out : List Value), c ≤ m → m - c < fuel →
      ∃ outs, packI32.loop ys et k fuel (c * k) out = .ok (out ++ outs) ∧
        outs.length = m - c ∧
        ∀ t, t < m - c → ∃ vec,
          packI32.inner ys ((c + t) * k) k 0 (Value.undef (vec_ty et k)) = .ok vec ∧
          outs[t]? = some (Value.bitcast vec i32_ty) := by
  intro fuel
  induction fuel with
  | zero => intro c out _ h; omega
  | succ fuel ih =>
    intro c out hc hf
    by_cases hcm : c < m
    · have hlt : c * k < ys.length := by rw [hlen]; exact Nat.mul_lt_mul_of_pos_right hcm hk
      have hin : c * k + 0 + k ≤ ys.length := by
        rw [hlen]
        have : (c + 1) * k ≤ m * k := Nat.mul_le_mul_right k hcm
        rw [Nat.add_mul, Nat.one_mul] at this
        omega
      obtain ⟨vec, hvec⟩ := packI32_inner_ok ys (c * k) k 0 (Value.undef (vec_ty et k)) hin
      obtain ⟨outs, hrun, hl, hget⟩ :=
        ih (c + 1) (out ++ [Value.bitcast vec i32_ty]) hcm (by omega)
      refine ⟨Value.bitcast vec i32_ty :: outs, ?_, by simp [hl]; omega, fun t ht => ?_⟩
      · simp only [packI32.loop, hlt, if_true, hvec]
        rw [show c * k + k = (c + 1) * k by rw [Nat.add_mul, Nat.one_mul], hrun]
        simp
      · cases t with
        | zero => exact ⟨vec, by simpa using hvec, by simp⟩
        | succ t =>
          obtain ⟨v, h1, h2⟩ := hget t (by omega)
          refine ⟨v, ?_, by simpa using h2⟩
          rw [show c + (t + 1) = c + 1 + t by omega]
          exact h1
    · have hceq : c = m := by omega
      subst hceq
      refine ⟨[], ?_, by simp, fun t ht => by omega⟩
      simp [packI32.loop, hlen]

theorem joinBits_splitBits (w : Nat) : ∀ (n b : Nat),
    joinBits w (splitBits w b n) = b % 2 ^ (w * n) := by
  intro n
  induction n with
  | zero => intro b; simp [splitBits, joinBits, Nat.mod_one]
  | succ n ih =>
    intro b
    simp only [splitBits, joinBits, ih]
    rw [Nat.mul_succ, Nat.pow_add, Nat.mul_comm (2 ^ (w * n)) (2 ^ w), Nat.mod_mul]

theorem length_splitBits (w : Nat) : ∀ (n b : Nat), (splitBits w b n).length = n := by
  intro n
  induction n with
  | zero => intro b; rfl
  | succ n ih => intro b; simp [splitBits, ih]

theorem packI32_loop_zero_width (ys : List Value) (et : ScalarTy) (i : Nat)
    (hi : i < ys.length) :
    ∀ (fuel : Nat) (out : List Value), packI32.loop ys et 0 fuel i out = .timeout := by
  intro fuel
  induction fuel with
  | zero => intro out; rfl
  | succ fuel ih =>
    intro out
    simp only [packI32.loop, hi, if_true, packI32.inner, Nat.add_zero]
    exact ih _

theorem map_getD_range (l : List Nat) :
    (List.range l.length).map (fun j => l.getD j 0) = l := by
  apply List.ext_getElem?
  intro n
  by_cases hn : n < l.length
  · simp [List.getElem?_range hn, List.getElem?_eq_getElem hn, List.getD_eq_getElem?_getD]
  · have h1 : l.length ≤ n := by omega
    rw [List.getElem?_eq_none h1, List.getElem?_eq_none (by simpa using h1)]

theorem getD_splitBits (w : Nat) : ∀ (n b j : Nat), j < n →
    (splitBits w b n).getD j 0 = b / 2 ^ (w * j) % 2 ^ w := by
  intro n
  induction n with
  | zero => intro b j h; omega
  | succ n ih =>
    intro b j h
    cases j with
    | zero => simp [splitBits]
    | succ j =>
      simp only [splitBits, List.getD_cons_succ]
      rw [ih (b / 2 ^ w) j (by omega), Nat.div_div_eq_div_mul, Nat.mul_succ, Nat.pow_add,
        Nat.mul_comm (2 ^ (w * j)) (2 ^ w)]

theorem eval_extract_bitcast (env : Env) (v : Value) (b : Nat) (et : ScalarTy) (k j : Nat)
    (hv : v.eval env = some (.int 32 b)) (hk : k * et.bitWidth = 32) (hj : j < k) :
    (Value.extract_element (Value.bitcast v (vec_ty et k)) (Value.i32_val j)).eval env =
      some (.int et.bitWidth ((splitBits et.bitWidth b k).getD j 0)) := by
  have hk32 : k ≤ 32 := by
    rcases Nat.eq_zero_or_pos et.bitWidth with h0 | h0
    · rw [h0] at hk; omega
    · calc k = k * 1 := (Nat.mul_one k).symm
        _ ≤ k * et.bitWidth := Nat.mul_le_mul_left k h0
        _ = 32 := hk
  have hmod : j % 4294967296 = j := Nat.mod_eq_of_lt (by omega)
  have hlen : j < (splitBits et.bitWidth b k).length := by rw [length_splitBits]; exact hj
  simp [Value.eval, hv, vec_ty, bitcastBits, hk, hmod, List.getElem?_eq_getElem hlen,
    List.getD_eq_getElem?_getD]

theorem packI32_chunks (fuel : Nat) (ys : List Value) (T : MlirType)
    (tc : LLVMTypeConverter) (rt : RankedTensorType) (w : Nat)
    (h : subElementTensor T = some rt)
    (hw : (tc.convertType rt.elementType).bitWidth = w) (hw0 : 0 < w)
    (hlen : 32 / w ∣ ys.length) (hfuel : ys.length / (32 / w) < fuel) :
    ∃ out, packI32 fuel ys T tc = .ok out ∧ out.length = ys.length / (32 / w) ∧
      ∀ m, m < out.length → ∃ vec, out[m]? = some (Value.bitcast vec i32_ty) ∧
        ∀ (env : Env) (y : Nat → Nat),
          (∀ j, j < 32 / w →
            (ys[m * (32 / w) + j]?).bind (Value.eval env) = some (.int w (y j))) →
          vec.eval env = some (.vec w ((List.range (32 / w)).map y)) ∧
          (32 / w * w = 32 →
            (Value.bitcast vec i32_ty).eval env =
              some (.int 32 (joinBits w ((List.range (32 / w)).map y)))) := by
  obtain ⟨hT, enc, henc, hdot⟩ := subElementTensor_some h
  subst hT
  have hw1 : (tc.convertType rt.elementType).bitWidth ≠ 0 := by omega
  have e : packI32 fuel ys (.tensor rt) tc =
      packI32.loop ys (tc.convertType rt.elementType) (32 / w) fuel 0 [] := by
    subst hw
    simp [packI32, henc, hdot, hw1]
  rw [e]
  rcases Nat.eq_zero_or_pos (32 / w) with hk | hk
  · rw [hk] at hlen ⊢
    have hys : ys.length = 0 := Nat.eq_zero_of_zero_dvd hlen
    cases fuel with
    | zero => exact absurd hfuel (Nat.not_lt_zero _)
    | succ fuel =>
      refine ⟨[], by simp [packI32.loop, hys], by simp [hys], fun m hm => ?_⟩
      simp at hm
  · obtain ⟨n, hn⟩ := hlen
    have hn1 : ys.length = n * (32 / w) := by rw [hn, Nat.mul_comm]
    have hdiv : ys.length / (32 / w) = n := by rw [hn1, Nat.mul_div_cancel _ hk]
    obtain ⟨outs, hrun, hl, hget⟩ :=
      packI32_loop_eq ys (tc.convertType rt.elementType) (32 / w) hk n hn1 fuel 0 []
        (Nat.zero_le _) (by omega)
    rw [Nat.zero_mul, List.nil_append] at hrun
    refine ⟨outs, hrun, by rw [hl, hdiv]; rfl, fun m hm => ?_⟩
    obtain ⟨vec, hvec, hm1⟩ := hget m (by omega)
    rw [Nat.zero_add] at hvec
    refine ⟨vec, hm1, fun env y hy => ?_⟩
    have hund : (Value.undef (vec_ty (tc.convertType rt.elementType) (32 / w))).eval env =
        some (.vec w ((List.range (32 / w)).map fun j => env.undefElem j % 2 ^ w)) := by
      simp [Value.eval, vec_ty, hw]
    have hk32 : 32 / w ≤ 32 := Nat.div_le_self 32 w
    obtain ⟨v, es1, hrun1, hev, hl1, hget1⟩ :=
      packI32_inner_eval env w ys (m * (32 / w)) y (32 / w) 0 _ _ hund (by simp) (by omega)
        (fun t _ h2 => hy t (by omega))
    rw [hvec] at hrun1
    injection hrun1 with hvv
    subst hvv
    have hes : es1 = (List.range (32 / w)).map y := by
      apply List.ext_getElem?
      intro p
      rw [hget1 p]
      by_cases hp : p < 32 / w
      · have : 0 ≤ p ∧ p < 0 + 32 / w := by omega
        rw [if_pos this, List.getElem?_map, List.getElem?_range hp]
        rfl
      · have : ¬ (0 ≤ p ∧ p < 0 + 32 / w) := by omega
        rw [if_neg this, List.getElem?_eq_none (by simp; omega),
          List.getElem?_eq_none (by simp; omega)]
    subst hes
    refine ⟨hev, fun h32 => ?_⟩
    simp [Value.eval, hev, bitcastBits, i32_ty, h32]

/-- Claim C4 (chunked packing).  On the dot-operand/MMA layout with a non-zero
element width `w` and `k = 32 / w`, for every input `ys` whose length is a
multiple of `k` and enough fuel for `|ys| / k` turns, `packI32` returns (no read
is out of bounds) exactly `|ys| / k` values; the `m`-th is
`bitcast(vec, i32_ty)` where, whenever the values `ys[m * k + j]` hold `w`-bit
contents `y j`, `vec` holds the vector of the `y j` for `j < k`, and the
bitcast holds their 32-bit pattern when `k * w = 32`. -/
theorem packI32_chunked (fuel : Nat) (ys : List Value) (T : MlirType)
    (tc : LLVMTypeConverter) (rt : RankedTensorType) (w : Nat)
    (h : subElementTensor T = some rt)
    (hw : (tc.convertType rt.elementType).bitWidth = w) (hw0 : 0 < w)
    (hlen : 32 / w ∣ ys.length) (hfuel : ys.length / (32 / w) < fuel) :
    ∃ out, packI32 fuel ys T tc = .ok out ∧ out.length = ys.length / (32 / w) ∧
      ∀ m, m < out.length → ∃ vec, out[m]? = some (Value.bitcast vec i32_ty) ∧
        ∀ (env : Env) (y : Nat → Nat),
          (∀ j, j < 32 / w →
            (ys[m * (32 / w) + j]?).bind (Value.eval env) = some (.int w (y j))) →
          vec.eval env = some (.vec w ((List.range (32 / w)).map y)) ∧
          (32 / w * w = 32 →
            (Value.bitcast vec i32_ty).eval env =
              some (.int 32 (joinBits w ((List.range (32 / w)).map y)))) :=
  packI32_chunks fuel ys T tc rt w h hw hw0 hlen hfuel

/-- Witness for claim C4: four 16-bit values are packed into two lane values, with
fuel for three turns; under `halfEnv` the second one holds `2 + 2 ^ 16 * 3`. -/
theorem packI32_chunked_witness :
    ∃ out, packI32 3 [.arg 0, .arg 1, .arg 2, .arg 3] (dotOpMmaTy 16) idConverter = .ok out ∧
      out.length = 2 ∧
      (out[1]?).bind (Value.eval halfEnv) = some (.int 32 (2 + 2 ^ 16 * 3)) := by
  obtain ⟨out, hrun, hlen, hget⟩ :=
    packI32_chunked 3 [.arg 0, .arg 1, .arg 2, .arg 3] (dotOpMmaTy 16) idConverter
      ⟨⟨16⟩, some (.DotOperandEncodingAttr .NvidiaMmaEncodingAttr), []⟩ 16 rfl rfl
      (by decide) (by decide) (by decide)
  have hlen2 : out.length = 2 := hlen
  obtain ⟨vec, hvec, hsem⟩ := hget 1 (by omega)
  have h := (hsem halfEnv (fun j => 2 + j) (by
    intro j hj
    have hj2 : j < 2 := hj
    interval_cases j <;> rfl)).2 (by decide)
  refine ⟨out, hrun, hlen2, ?_⟩
  rw [hvec, Option.some_bind, h]
  rfl

/-- Claim C1 (round trip), as amended.  On every type that is not a
dot-operand/MMA tensor, `unpackI32` and `packI32` return their input unchanged.
On a dot-operand/MMA tensor whose element width `w` divides 32 (8 and 16
among them), `unpackI32` returns, and `packI32` of its result, given fuel for
`|xs| + 1` turns, returns a sequence of the length of `xs` whose `m`-th value
holds the same 32 bits as `xs[m]`. -/
theorem packI32_unpackI32_roundtrip (xs : List Value) (T : MlirType)
    (tc : LLVMTypeConverter) :
    (passesThrough T = true →
      unpackI32 xs T tc = .ok xs ∧ ∀ fuel, packI32 fuel xs T tc = .ok xs) ∧
    (∀ rt w, subElementTensor T = some rt →
      (tc.convertType rt.elementType).bitWidth = w → 0 < w → w ∣ 32 →
      ∃ us, unpackI32 xs T tc = .ok us ∧
        ∀ fuel, xs.length < fuel →
          ∃ out, packI32 fuel us T tc = .ok out ∧ out.length = xs.length ∧
            ∀ (env : Env) (m b : Nat),
              (xs[m]?).bind (Value.eval env) = some (.int 32 b) → b < 2 ^ 32 →
              (out[m]?).bind (Value.eval env) = some (.int 32 b)) := by
  refine ⟨fun h => ⟨unpackI32_passthrough xs T tc h,
    fun fuel => packI32_passthrough fuel xs T tc h⟩, ?_⟩
  intro rt w h hw hw0 hdvd
  have hk : 32 / w * w = 32 := Nat.div_mul_cancel hdvd
  have hkpos : 0 < 32 / w := by
    rcases Nat.eq_zero_or_pos (32 / w) with h0 | h0
    · rw [h0] at hk; omega
    · exact h0
  obtain ⟨us, hus, hlen, hget⟩ := unpackI32_subElement xs T tc rt h (by omega)
  rw [hw] at hlen hget
  refine ⟨us, hus, fun fuel hfuel => ?_⟩
  obtain ⟨out, hout, hol, hom⟩ := packI32_chunks fuel us T tc rt w h hw hw0
    (by rw [hlen]; exact Dvd.intro_left _ rfl)
    (by rw [hlen, Nat.mul_div_cancel _ hkpos]; exact hfuel)
  rw [hlen, Nat.mul_div_cancel _ hkpos] at hol
  refine ⟨out, hout, hol, fun env m b hx hb => ?_⟩
  cases hxm : xs[m]? with
  | none => simp [hxm] at hx
  | some v =>
    rw [hxm, Option.some_bind] at hx
    have hm : m < xs.length := by
      by_contra hcon
      rw [List.getElem?_eq_none (by omega)] at hxm
      cases hxm
    obtain ⟨vec, hvec, hsem⟩ := hom m (by omega)
    have hkw : 32 / w * (tc.convertType rt.elementType).bitWidth = 32 := by rw [hw]; exact hk
    have h1 := (hsem env (fun j => (splitBits w b (32 / w)).getD j 0) (by
      intro j hj
      rw [hget m j hj, hxm, Option.map_some', Option.some_bind,
        eval_extract_bitcast env v b _ (32 / w) j hx hkw hj, hw])).2 hk
    rw [hvec, Option.some_bind, h1]
    have h2 := map_getD_range (splitBits w b (32 / w))
    rw [length_splitBits] at h2
    rw [h2, joinBits_splitBits, Nat.mul_comm, hk, Nat.mod_eq_of_lt hb]

/-- Witness for claim C1: two lane values round-trip through a dot-operand/MMA
tensor type of 8-bit elements, and through a blocked tensor type. -/
theorem packI32_unpackI32_roundtrip_witness :
    (∃ us out, unpackI32 [.arg 5, .arg 7] (dotOpMmaTy 8) idConverter = .ok us ∧
      us.length = 8 ∧ packI32 3 us (dotOpMmaTy 8) idConverter = .ok out ∧ out.length = 2 ∧
      (out[1]?).bind (Value.eval laneEnv) = some (.int 32 7)) ∧
    (unpackI32 [.arg 5, .arg 7] (blockedTy 16) idConverter = .ok [.arg 5, .arg 7] ∧
      ∀ fuel, packI32 fuel [.arg 5, .arg 7] (blockedTy 16) idConverter =
        .ok [.arg 5, .arg 7]) := by
  refine ⟨?_, (packI32_unpackI32_roundtrip [.arg 5, .arg 7] (blockedTy 16) idConverter).1 rfl⟩
  obtain ⟨us, hus, hpack⟩ :=
    (packI32_unpackI32_roundtrip [.arg 5, .arg 7] (dotOpMmaTy 8) idConverter).2
      ⟨⟨8⟩, some (.DotOperandEncodingAttr .NvidiaMmaEncodingAttr), []⟩ 8 rfl rfl
      (by decide) (by decide)
  obtain ⟨out, hout, hlen, hval⟩ := hpack 3 (by decide)
  have hus8 : us.length = 8 := by
    have h2 : unpackI32 [.arg 5, .arg 7] (dotOpMmaTy 8) idConverter =
        .ok (([Value.arg 5, Value.arg 7] : List Value).flatMap fun v =>
          (List.range 4).map fun i =>
            Value.extract_element (Value.bitcast v (vec_ty ⟨8⟩ 4)) (Value.i32_val i)) := by
      decide
    rw [h2] at hus
    injection hus with h3
    rw [← h3]
    rfl
  exact ⟨us, out, hus, hus8, hout, hlen, hval laneEnv 1 7 rfl (by decide)⟩

/-- Counterexample to claim C1 as stated.  On a dot-operand/MMA tensor of 64-bit
elements the round trip of one lane value returns the empty sequence; on one of
32-bit elements, which the claim counts with the pass-through types,
`unpackI32` does not return its input unchanged. -/
theorem packI32_unpackI32_roundtrip_counterexample :
    (unpackI32 [.arg 0] (dotOpMmaTy 64) idConverter = .ok [] ∧
      ∀ fuel, packI32 (fuel + 1) [] (dotOpMmaTy 64) idConverter = .ok []) ∧
    unpackI32 [.arg 0] (dotOpMmaTy 32) idConverter ≠ .ok [.arg 0] := by
  refine ⟨⟨by decide, fun fuel => ?_⟩, by decide⟩
  simp [packI32, dotOpMmaTy, isDotOperandOfNvidiaMma, idConverter, packI32.loop]

/-- Claim C2 (length of `unpackI32`), as amended.  On every type that is not a
dot-operand/MMA tensor the output is the input.  On a dot-operand/MMA tensor
with element width `w` from 1 to 32 the output has length `|xs| * (32 / w)`
(which is `|xs|` for `w = 32`), entry `m * (32 / w) + j` is
`extract_element(bitcast(xs[m], vec_ty(eltType, 32 / w)), i32_val(j))`, and
when `32 / w * w = 32` it holds bits `w * j` to `w * j + w - 1` of the 32-bit
content of `xs[m]`. -/
theorem unpackI32_length (xs : List Value) (T : MlirType) (tc : LLVMTypeConverter) :
    (passesThrough T = true → unpackI32 xs T tc = .ok xs) ∧
    (∀ rt w, subElementTensor T = some rt →
      (tc.convertType rt.elementType).bitWidth = w → 0 < w → w ≤ 32 →
      ∃ out, unpackI32 xs T tc = .ok out ∧ out.length = xs.length * (32 / w) ∧
        ∀ m j, j < 32 / w →
          out[m * (32 / w) + j]? = (xs[m]?).map (fun v =>
            Value.extract_element
              (Value.bitcast v (vec_ty (tc.convertType rt.elementType) (32 / w)))
              (Value.i32_val j)) ∧
          ∀ (env : Env) (b : Nat),
            (xs[m]?).bind (Value.eval env) = some (.int 32 b) → 32 / w * w = 32 →
            (out[m * (32 / w) + j]?).bind (Value.eval env) =
              some (.int w (b / 2 ^ (w * j) % 2 ^ w))) := by
  refine ⟨unpackI32_passthrough xs T tc, ?_⟩
  intro rt w h hw hw0 _
  obtain ⟨out, hout, hlen, hget⟩ := unpackI32_subElement xs T tc rt h (by omega)
  rw [hw] at hlen hget
  refine ⟨out, hout, hlen, fun m j hj => ⟨hget m j hj, fun env b hx hk => ?_⟩⟩
  cases hxm : xs[m]? with
  | none => simp [hxm] at hx
  | some v =>
    rw [hxm, Option.some_bind] at hx
    rw [hget m j hj, hxm, Option.map_some', Option.some_bind,
      eval_extract_bitcast env v b _ (32 / w) j hx (by rw [hw]; exact hk) hj, hw,
      getD_splitBits w (32 / w) b j hj]

/-- Witness for claim C2: two lane values unpacked at 16-bit elements give four
values, the last being the upper half of the second; at 32-bit elements they
give two; on a blocked tensor type they come back unchanged. -/
theorem unpackI32_length_witness :
    (∃ out, unpackI32 [.arg 5, .arg 70000] (dotOpMmaTy 16) idConverter = .ok out ∧
      out.length = 4 ∧ (out[3]?).bind (Value.eval laneEnv) = some (.int 16 1)) ∧
    (∃ out, unpackI32 [.arg 5, .arg 70000] (dotOpMmaTy 32) idConverter = .ok out ∧
      out.length = 2) ∧
    unpackI32 [.arg 5, .arg 70000] (blockedTy 16) idConverter = .ok [.arg 5, .arg 70000] := by
  refine ⟨?_, ?_, (unpackI32_length [.arg 5, .arg 70000] (blockedTy 16) idConverter).1 rfl⟩
  · obtain ⟨out, hout, hlen, hget⟩ :=
      (unpackI32_length [.arg 5, .arg 70000] (dotOpMmaTy 16) idConverter).2
        ⟨⟨16⟩, some (.DotOperandEncodingAttr .NvidiaMmaEncodingAttr), []⟩ 16 rfl rfl
        (by decide) (by decide)
    exact ⟨out, hout, hlen, (hget 1 1 (by decide)).2 laneEnv 70000 rfl (by decide)⟩
  · obtain ⟨out, hout, hlen, _⟩ :=
      (unpackI32_length [.arg 5, .arg 70000] (dotOpMmaTy 32) idConverter).2
        ⟨⟨32⟩, some (.DotOperandEncodingAttr .NvidiaMmaEncodingAttr), []⟩ 32 rfl rfl
        (by decide) (by decide)
    exact ⟨out, hout, hlen⟩

/-- Counterexample to claim C2 as stated: a dot-operand/MMA tensor of 64-bit
elements is not on the claim's sub-element path, and `unpackI32` of one value
returns no value. -/
theorem unpackI32_length_counterexample :
    ∃ out, unpackI32 [.arg 0] (dotOpMmaTy 64) idConverter = .ok out ∧
      out.length ≠ [Value.arg 0].length :=
  ⟨[], by decide, by decide⟩

theorem mem_unpackI32_subElement (xs : List Value) (T : MlirType) (tc : LLVMTypeConverter)
    (rt : RankedTensorType) (h : subElementTensor T = some rt)
    (hw : (tc.convertType rt.elementType).bitWidth ≠ 0) :
    ∃ out, unpackI32 xs T tc = .ok out ∧
      ∀ v, v ∈ out → ∃ x j, x ∈ xs ∧ j < 32 / (tc.convertType rt.elementType).bitWidth ∧
        v = Value.extract_element
          (Value.bitcast x (vec_ty (tc.convertType rt.elementType)
            (32 / (tc.convertType rt.elementType).bitWidth)))
          (Value.i32_val j) := by
  obtain ⟨hT, enc, henc, hdot⟩ := subElementTensor_some h
  subst hT
  have e : unpackI32 xs (.tensor rt) tc = unpackI32.loop tc rt.elementType xs [] := by
    simp [unpackI32, henc, hdot]
  rw [e, unpackI32_loop_eq tc rt.elementType hw]
  refine ⟨_, rfl, fun v hv => ?_⟩
  simp only [List.nil_append, List.mem_flatMap, List.mem_map, List.mem_range] at hv
  obtain ⟨x, hx, j, hj, hvj⟩ := hv
  exact ⟨x, j, hx, hj, hvj.symm⟩

/-- Claim C3 (sub-element gate), as amended.  `unpackI32` and `packI32` return
their input unchanged on every type that is not a tensor with dot-operand
encoding and NVIDIA MMA parent.  On such a tensor they take the sub-element
path for every element width `w` from 1 to 32, 32 included: every value
`unpackI32` returns is an `extract_element` of a `bitcast` of an input value,
`32 / w` of them per input value, and every value `packI32` returns (on an
input whose length is a multiple of `32 / w`) is a `bitcast` to `i32_ty`, one
per `32 / w` input values. -/
theorem subElement_gate (xs : List Value) (T : MlirType) (tc : LLVMTypeConverter) :
    (passesThrough T = true →
      unpackI32 xs T tc = .ok xs ∧ ∀ fuel, packI32 fuel xs T tc = .ok xs) ∧
    (∀ rt w, subElementTensor T = some rt →
      (tc.convertType rt.elementType).bitWidth = w → 0 < w → w ≤ 32 →
      (∃ out, unpackI32 xs T tc = .ok out ∧ out.length = xs.length * (32 / w) ∧
        ∀ v, v ∈ out → ∃ x j, x ∈ xs ∧ j < 32 / w ∧
          v = Value.extract_element
            (Value.bitcast x (vec_ty (tc.convertType rt.elementType) (32 / w)))
            (Value.i32_val j)) ∧
      (32 / w ∣ xs.length → ∀ fuel, xs.length / (32 / w) < fuel →
        ∃ out, packI32 fuel xs T tc = .ok out ∧ out.length = xs.length / (32 / w) ∧
          ∀ v, v ∈ out → ∃ vec, v = Value.bitcast vec i32_ty)) := by
  refine ⟨fun h => ⟨unpackI32_passthrough xs T tc h,
    fun fuel => packI32_passthrough fuel xs T tc h⟩, ?_⟩
  intro rt w h hw hw0 _
  refine ⟨?_, fun hdvd fuel hfuel => ?_⟩
  · obtain ⟨out, hout, hlen, _⟩ := unpackI32_subElement xs T tc rt h (by omega)
    obtain ⟨out1, hout1, hmem⟩ := mem_unpackI32_subElement xs T tc rt h (by omega)
    rw [hout] at hout1
    injection hout1 with heq
    subst heq
    rw [hw] at hlen hmem
    exact ⟨out, hout, hlen, hmem⟩
  · obtain ⟨out, hout, hlen, hget⟩ := packI32_chunks fuel xs T tc rt w h hw hw0 hdvd hfuel
    refine ⟨out, hout, hlen, fun v hv => ?_⟩
    obtain ⟨n, hn, hvn⟩ := List.getElem_of_mem hv
    obtain ⟨vec, hvec, _⟩ := hget n hn
    rw [List.getElem?_eq_getElem hn, hvn] at hvec
    injection hvec with hv1
    exact ⟨vec, hv1⟩

/-- Witness for claim C3: on a blocked tensor type both functions return their
input; on a dot-operand/MMA tensor of 32-bit elements `unpackI32` returns one
`extract_element` per value and `packI32` one `bitcast` per value. -/
theorem subElement_gate_witness :
    (unpackI32 [.arg 1, .arg 2] (blockedTy 8) idConverter = .ok [.arg 1, .arg 2] ∧
      ∀ fuel, packI32 fuel [.arg 1, .arg 2] (blockedTy 8) idConverter = .ok [.arg 1, .arg 2]) ∧
    (∃ out, unpackI32 [.arg 1, .arg 2] (dotOpMmaTy 32) idConverter = .ok out ∧
      out.length = 2 ∧
      ∀ v, v ∈ out → ∃ x j, x ∈ [Value.arg 1, Value.arg 2] ∧ j < 1 ∧
        v = Value.extract_element (Value.bitcast x (vec_ty ⟨32⟩ 1)) (Value.i32_val j)) ∧
    (∃ out, packI32 3 [.arg 1, .arg 2] (dotOpMmaTy 32) idConverter = .ok out ∧
      out.length = 2 ∧ ∀ v, v ∈ out → ∃ vec, v = Value.bitcast vec i32_ty) := by
  have h := (subElement_gate [.arg 1, .arg 2] (dotOpMmaTy 32) idConverter).2
    ⟨⟨32⟩, some (.DotOperandEncodingAttr .NvidiaMmaEncodingAttr), []⟩ 32 rfl rfl
    (by decide) (by decide)
  exact ⟨(subElement_gate [.arg 1, .arg 2] (blockedTy 8) idConverter).1 rfl, h.1,
    h.2 (by decide) 3 (by decide)⟩

/-- Counterexample to claim C3 as stated.  On a dot-operand/MMA tensor of 32-bit
elements neither function returns its input unchanged; on one of 64-bit
elements `unpackI32` returns no value and `packI32` of a non-empty input does
not return, whatever the fuel. -/
theorem subElement_gate_counterexample :
    (unpackI32 [.arg 0] (dotOpMmaTy 32) idConverter =
        .ok [.extract_element (.bitcast (.arg 0) (vec_ty ⟨32⟩ 1)) (.i32_val 0)] ∧
      packI32 2 [.arg 0] (dotOpMmaTy 32) idConverter =
        .ok [.bitcast (.insert_element (.undef (vec_ty ⟨32⟩ 1)) (.arg 0) (.i32_val 0)) i32_ty]) ∧
    (unpackI32 [.arg 0] (dotOpMmaTy 64) idConverter = .ok [] ∧
      ∀ fuel, packI32 fuel [.arg 0] (dotOpMmaTy 64) idConverter = .timeout) := by
  refine ⟨⟨by decide, by decide⟩, by decide, fun fuel => ?_⟩
  have e : packI32 fuel [.arg 0] (dotOpMmaTy 64) idConverter =
      packI32.loop [.arg 0] ⟨64⟩ 0 fuel 0 [] := by
    simp [packI32, dotOpMmaTy, isDotOperandOfNvidiaMma, idConverter]
  rw [e]
  exact packI32_loop_zero_width _ _ 0 (by decide) fuel []

/-! ## Facts about `maybeDeduplicate` -/

theorem clamp_cons (e : Nat) (es : List Nat) (s : Nat) (ss : List Nat) (k : Int)
    (ks : List Int) (h : Bool) (c' : List Int) (h' : Bool)
    (hrun : maybeDeduplicate.clamp (e :: es) (s :: ss) (k :: ks) h = .ok (some (c', h'))) :
    ∃ cs, c' = (if k > (s : Int) then (s : Int) else k) :: cs ∧
      ¬ (k > (s : Int) ∧ s = 0) ∧ ¬ (k > (s : Int) ∧ k.tmod (s : Int) ≠ 0) ∧
      1 ≤ e ∧ 1 ≤ (if k > (s : Int) then (s : Int) else k) ∧
      ((e : Int).tmod (if k > (s : Int) then (s : Int) else k) = 0 ∨
        (if k > (s : Int) then (s : Int) else k).tmod (e : Int) = 0) ∧
      maybeDeduplicate.clamp es ss ks
        (if (if k > (s : Int) then (s : Int) else k) > 1 then true else h) =
          .ok (some (cs, h')) := by
  rw [maybeDeduplicate.clamp] at hrun
  by_cases h1 : k > (s : Int) ∧ s = 0
  · rw [if_pos h1] at hrun
    cases hrun
  rw [if_neg h1] at hrun
  by_cases h2 : k > (s : Int) ∧ k.tmod (s : Int) ≠ 0
  · rw [if_pos h2] at hrun
    cases hrun
  rw [if_neg h2] at hrun
  simp only [] at hrun
  generalize (if k > (s : Int) then (s : Int) else k) = c1 at hrun ⊢
  by_cases h3 : e < 1 ∨ c1 < 1
  · rw [if_pos h3] at hrun
    cases hrun
  rw [if_neg h3] at hrun
  by_cases h4 : ¬ ((e : Int).tmod c1 = 0 ∨ c1.tmod (e : Int) = 0)
  · rw [if_pos h4] at hrun
    cases hrun
  rw [if_neg h4] at hrun
  cases hrec : maybeDeduplicate.clamp es ss ks (if c1 > 1 then true else h) with
  | ok r =>
    rw [hrec] at hrun
    cases r with
    | none => cases hrun
    | some p =>
      obtain ⟨cs, hh⟩ := p
      simp only [Run.ok.injEq, Option.some.injEq, Prod.mk.injEq] at hrun
      obtain ⟨hc, hh'⟩ := hrun
      subst hc hh'
      exact ⟨cs, rfl, h1, h2, by omega, by omega, not_not.mp h4, rfl⟩
  | ub => rw [hrec] at hrun; cases hrun
  | timeout => rw [hrec] at hrun; cases hrun

theorem clamp_no_fault : ∀ (e s : List Nat) (c : List Int) (h : Bool),
    (∀ x ∈ s, x ≠ 0) →
    maybeDeduplicate.clamp e s c h = .ok none ∨
      ∃ c' h', maybeDeduplicate.clamp e s c h = .ok (some (c', h')) := by
  intro e
  induction e with
  | nil => intro s c h _; exact Or.inr ⟨[], h, by simp [maybeDeduplicate.clamp]⟩
  | cons e es ih =>
    intro s c h hs
    cases s with
    | nil => exact Or.inr ⟨[], h, by simp [maybeDeduplicate.clamp]⟩
    | cons s ss =>
      cases c with
      | nil => exact Or.inr ⟨[], h, by simp [maybeDeduplicate.clamp]⟩
      | cons k ks =>
        have hs0 : s ≠ 0 := hs s (List.mem_cons_self _ _)
        rw [maybeDeduplicate.clamp]
        have h1 : ¬ (k > (s : Int) ∧ s = 0) := fun hh => hs0 hh.2
        rw [if_neg h1]
        by_cases h2 : k > (s : Int) ∧ k.tmod (s : Int) ≠ 0
        · rw [if_pos h2]; exact Or.inl rfl
        rw [if_neg h2]
        simp only []
        generalize (if k > (s : Int) then (s : Int) else k) = c1
        by_cases h3 : e < 1 ∨ c1 < 1
        · rw [if_pos h3]; exact Or.inl rfl
        rw [if_neg h3]
        by_cases h4 : ¬ ((e : Int).tmod c1 = 0 ∨ c1.tmod (e : Int) = 0)
        · rw [if_pos h4]; exact Or.inl rfl
        rw [if_neg h4]
        rcases ih ss ks (if c1 > 1 then true else h)
          (fun x hx => hs x (List.mem_cons_of_mem _ hx)) with hr | ⟨cs, hh, hr⟩
        · rw [hr]; exact Or.inl rfl
        · rw [hr]; exact Or.inr ⟨c1 :: cs, hh, rfl⟩

theorem clamp_facts : ∀ (e s : List Nat) (c : List Int) (h : Bool) (c' : List Int) (h' : Bool),
    maybeDeduplicate.clamp e s c h = .ok (some (c', h')) →
    e.length = s.length → e.length = c.length →
    c'.length = e.length ∧ (∀ x ∈ e, 1 ≤ x) ∧ (∀ x ∈ c', 1 ≤ x) ∧
      (h' = true ↔ (h = true ∨ ∃ x ∈ c', 1 < x)) ∧
      c' = List.zipWith (fun (k : Int) (s : Nat) => if k > (s : Int) then (s : Int) else k) c s ∧
      List.Forall₂ (fun (e : Nat) (k : Int) => k ∣ (e : Int) ∨ (e : Int) ∣ k) e c' ∧
      List.Forall₂ (fun (k : Int) (s : Nat) => k ≤ (s : Int) ∨ (s : Int) ∣ k) c s := by
  intro e
  induction e with
  | nil =>
    intro s c h c' h' hrun hl1 hl2
    have hs : s = [] := List.length_eq_zero.mp hl1.symm
    have hc : c = [] := List.length_eq_zero.mp hl2.symm
    subst hs hc
    simp only [maybeDeduplicate.clamp, Run.ok.injEq, Option.some.injEq, Prod.mk.injEq] at hrun
    obtain ⟨h1, h2⟩ := hrun
    subst h1 h2
    simp
  | cons e es ih =>
    intro s c h c' h' hrun hl1 hl2
    cases s with
    | nil => simp at hl1
    | cons s ss =>
      cases c with
      | nil => simp at hl2
      | cons k ks =>
        obtain ⟨cs, hc', h1, h2, he, hc1, hdiv, hrec⟩ := clamp_cons e es s ss k ks h c' h' hrun
        obtain ⟨g1, g2, g3, g4, g5, g6, g7⟩ := ih ss ks _ cs h' hrec
          (by simpa using hl1) (by simpa using hl2)
        subst hc'
        refine ⟨by simp [g1], ?_, ?_, ?_, ?_, ?_, ?_⟩
        · intro x hx
          rcases List.mem_cons.mp hx with hx | hx
          · omega
          · exact g2 x hx
        · intro x hx
          rcases List.mem_cons.mp hx with hx | hx
          · rw [hx]; exact hc1
          · exact g3 x hx
        · rw [g4]
          by_cases hgt : (if k > (s : Int) then (s : Int) else k) > 1
          · simp only [hgt, if_true, true_or, true_iff]
            exact Or.inr ⟨_, List.mem_cons_self _ _, hgt⟩
          · simp only [hgt, if_false]
            constructor
            · rintro (hh | ⟨x, hx, hx1⟩)
              · exact Or.inl hh
              · exact Or.inr ⟨x, List.mem_cons_of_mem _ hx, hx1⟩
            · rintro (hh | ⟨x, hx, hx1⟩)
              · exact Or.inl hh
              · rcases List.mem_cons.mp hx with hx | hx
                · rw [hx] at hx1; exact absurd hx1 hgt
                · exact Or.inr ⟨x, hx, hx1⟩
        · rw [List.zipWith_cons_cons, ← g5]
        · refine List.Forall₂.cons ?_ g6
          rcases hdiv with hd | hd
          · exact Or.inl (Int.dvd_iff_tmod_eq_zero.mpr hd)
          · exact Or.inr (Int.dvd_iff_tmod_eq_zero.mpr hd)
        · refine List.Forall₂.cons ?_ g7
          by_cases hks : k > (s : Int)
          · right
            have : k.tmod (s : Int) = 0 := by
              by_contra hne
              exact h2 ⟨hks, hne⟩
            exact Int.dvd_iff_tmod_eq_zero.mpr this
          · left; omega

theorem applyPermutation_facts {α : Type} (vec : List α) : ∀ (order : List Nat) (r : List α),
    applyPermutation vec order = .ok r →
    r.length = order.length ∧ (∀ x ∈ r, x ∈ vec) ∧
      ∀ n : Nat, r[n]? = (order[n]?).bind fun (i : Nat) => vec[i]? := by
  intro order
  induction order with
  | nil =>
    intro r hr
    simp only [applyPermutation, Run.ok.injEq] at hr
    subst hr
    simp
  | cons i rest ih =>
    intro r hr
    rw [applyPermutation] at hr
    cases hrec : applyPermutation vec rest with
    | ok ret =>
      cases hv : vec[i]? with
      | none => rw [hv, hrec] at hr; cases hr
      | some x =>
        rw [hv, hrec] at hr
        simp only [Run.ok.injEq] at hr
        subst hr
        obtain ⟨g1, g2, g3⟩ := ih ret hrec
        refine ⟨by simp [g1], ?_, ?_⟩
        · intro y hy
          rcases List.mem_cons.mp hy with hy | hy
          · rw [hy]; exact List.mem_iff_getElem?.mpr ⟨i, hv⟩
          · exact g2 y hy
        · intro n
          cases n with
          | zero => simp [hv]
          | succ n => simpa using g3 n
    | ub => cases hv : vec[i]? <;> rw [hv, hrec] at hr <;> cases hr
    | timeout => cases hv : vec[i]? <;> rw [hv, hrec] at hr <;> cases hr

theorem product_lt (xs : List Nat) : product xs < 2 ^ 32 := by
  unfold product
  have : ∀ (l : List Nat) (a : Nat), a < 2 ^ 32 →
      l.foldl (fun acc x => acc * x % 2 ^ 32) a < 2 ^ 32 := by
    intro l
    induction l with
    | nil => intro a ha; exact ha
    | cons x l ih => intro a _; exact ih _ (Nat.mod_lt _ (by norm_num))
  exact this xs 1 (by norm_num)

theorem representative_le : ∀ (es cn : List Nat) (i : Nat), representative es cn i ≤ i := by
  intro es
  induction es with
  | nil => intro cn i; simp [representative]
  | cons e es ih =>
    intro cn i
    cases cn with
    | nil => simp [representative]
    | cons c cn =>
      simp only [representative]
      have h1 : i % e / c * c ≤ i % e := Nat.div_mul_le_self _ _
      have h2 : e * representative es cn (i / e) ≤ e * (i / e) := Nat.mul_le_mul_left e (ih cn (i / e))
      have h3 : e * (i / e) + i % e = i := Nat.div_add_mod i e
      omega

theorem dedupIdx_eq : ∀ (es cn : List Nat) (s S orig : Nat) (acc : Int),
    es.length = cn.length → (∀ c ∈ cn, 1 ≤ c) → s = S % 2 ^ 32 → orig * S < 2 ^ 32 →
    maybeDeduplicate.dedupIdx es (cn.map Nat.cast) (maybeDeduplicate.strides s es) orig acc =
      acc + (S : Int) * (representative es cn orig : Nat) := by
  intro es
  induction es with
  | nil =>
    intro cn s S orig acc _ _ _ _
    simp [maybeDeduplicate.dedupIdx, representative]
  | cons e es ih =>
    intro cn s S orig acc hl hc hs hb
    cases cn with
    | nil => simp at hl
    | cons c cn =>
      have hc1 : 1 ≤ c := hc c (List.mem_cons_self _ _)
      have hle : orig / e * (S * e) ≤ orig * S := by
        calc orig / e * (S * e) = (orig / e * e) * S := by ring
          _ ≤ orig * S := Nat.mul_le_mul_right S (Nat.div_mul_le_self orig e)
      simp only [List.map_cons, maybeDeduplicate.strides, maybeDeduplicate.dedupIdx,
        representative]
      rw [ih cn (s * e % 2 ^ 32) (S * e) (orig / e) _ (by simpa using hl)
        (fun x hx => hc x (List.mem_cons_of_mem _ hx))
        (by rw [hs, Nat.mod_mul_mod]) (by omega)]
      rw [← Int.ofNat_tdiv]
      have key : (((orig % e / c : Nat) : Int) * (c : Int)) * (s : Int) =
          (S : Int) * ((orig % e / c * c : Nat) : Int) := by
        by_cases hz : orig % e / c * c = 0
        · have : ((orig % e / c : Nat) : Int) * (c : Int) = ((orig % e / c * c : Nat) : Int) := by
            push_cast; ring
          rw [this, hz]; simp
        · have horig : 1 ≤ orig := by
            by_contra hcon
            have : orig = 0 := by omega
            subst this
            simp at hz
          have hS : S < 2 ^ 32 := by
            calc S = 1 * S := (Nat.one_mul S).symm
              _ ≤ orig * S := Nat.mul_le_mul_right S horig
              _ < 2 ^ 32 := hb
          rw [hs, Nat.mod_eq_of_lt hS]
          push_cast
          ring
      rw [key]
      push_cast
      ring

theorem loop_eq (vals : List Value) (es : List Nat) (cs : List Int) (st : List Nat)
    (f : Nat → Nat) : ∀ (idxs : List Nat),
    (∀ i ∈ idxs, maybeDeduplicate.dedupIdx es cs st i 0 = (f i : Int) ∧ f i < vals.length) →
    ∃ out, maybeDeduplicate.loop vals es cs st idxs = .ok out ∧ out.length = idxs.length ∧
      ∀ n : Nat, out[n]? = (idxs[n]?).bind fun (i : Nat) => vals[f i]? := by
  intro idxs
  induction idxs with
  | nil => intro _; exact ⟨[], rfl, rfl, fun n => by simp⟩
  | cons i rest ih =>
    intro h
    obtain ⟨hi, hlt⟩ := h i (List.mem_cons_self _ _)
    obtain ⟨out, hrun, hlen, hget⟩ := ih (fun j hj => h j (List.mem_cons_of_mem _ hj))
    refine ⟨vals[f i] :: out, ?_, by simp [hlen], fun n => ?_⟩
    · rw [maybeDeduplicate.loop]
      simp only [hi]
      rw [if_neg (by omega), Int.toNat_ofNat, List.getElem?_eq_getElem hlt, hrun]
    · cases n with
      | zero => simp [List.getElem?_eq_getElem hlt]
      | succ n => simpa using hget n

theorem gates_some_iff (op : SourceOp) (vals : List Value) (es : List Nat) (cs : List Int) :
    maybeDeduplicate.gates op vals = .ok (some (es, cs)) ↔
      ∃ rt enc ai c', op.isMemoryEffectFree = true ∧ op.results = [.tensor rt] ∧
        rt.encoding = some enc ∧ enc.isBlockedOrSlice = true ∧
        product (getElemsPerThread rt) = vals.length ∧ op.axisInfo = some ai ∧
        (getElemsPerThread rt).length = (getSizePerThread enc).length ∧
        (getElemsPerThread rt).length = ai.constancy.length ∧
        maybeDeduplicate.clamp (getElemsPerThread rt) (getSizePerThread enc) ai.constancy false =
          .ok (some (c', true)) ∧
        maybeDeduplicate.permute enc (getElemsPerThread rt) c' = .ok (some (es, cs)) := by
  constructor
  · intro h
    unfold maybeDeduplicate.gates at h
    cases hfree : op.isMemoryEffectFree with
    | false => simp [hfree] at h
    | true =>
      simp only [hfree, Bool.not_true, Bool.false_eq_true, if_false] at h
      by_cases hlen : op.results.length = 0 ∨ op.results.length > 1
      · rw [if_pos hlen] at h; cases h
      rw [if_neg hlen] at h
      cases hres : op.results with
      | nil => simp [hres] at hlen
      | cons r rest =>
        have hrest : rest = [] := by
          cases rest with
          | nil => rfl
          | cons r2 rest2 => simp [hres] at hlen
        subst hrest
        simp only [hres, List.head?_cons] at h
        cases r with
        | null => cases h
        | scalar t => cases h
        | tensor rt =>
          simp only [] at h
          cases henc : rt.encoding with
          | none => simp [henc] at h
          | some enc =>
            simp only [henc] at h
            cases hkind : enc.isBlockedOrSlice with
            | false => simp [hkind] at h
            | true =>
              simp only [hkind, Bool.not_true, Bool.false_eq_true, if_false] at h
              by_cases hprod : product (getElemsPerThread rt) ≠ vals.length
              · rw [if_pos hprod] at h; cases h
              rw [if_neg hprod] at h
              cases haxis : op.axisInfo with
              | none => simp [haxis] at h
              | some ai =>
                simp only [haxis] at h
                by_cases hl1 : (getElemsPerThread rt).length ≠ (getSizePerThread enc).length
                · rw [if_pos hl1] at h; cases h
                rw [if_neg hl1] at h
                by_cases hl2 : (getElemsPerThread rt).length ≠ ai.constancy.length
                · rw [if_pos hl2] at h; cases h
                rw [if_neg hl2] at h
                cases hclamp : maybeDeduplicate.clamp (getElemsPerThread rt)
                    (getSizePerThread enc) ai.constancy false with
                | ok r =>
                  cases r with
                  | none => simp [hclamp] at h
                  | some p =>
                    obtain ⟨c', hc⟩ := p
                    simp only [hclamp] at h
                    cases hc with
                    | false => simp at h
                    | true =>
                      simp only [Bool.not_true, Bool.false_eq_true, if_false] at h
                      exact ⟨rt, enc, ai, c', rfl, rfl, henc, hkind, not_not.mp hprod, rfl,
                        not_not.mp hl1, not_not.mp hl2, hclamp, h⟩
                | ub => simp [hclamp] at h
                | timeout => simp [hclamp] at h
  · rintro ⟨rt, enc, ai, c', hfree, hres, henc, hkind, hprod, haxis, hl1, hl2, hclamp, hperm⟩
    unfold maybeDeduplicate.gates
    simp [hfree, hres, henc, hkind, hprod, haxis, hl1, ← hl2, hclamp, hperm]

theorem permute_facts (enc : Attribute) (e : List Nat) (c : List Int) (es : List Nat)
    (cs : List Int) (h : maybeDeduplicate.permute enc e c = .ok (some (es, cs)))
    (hl : e.length = c.length) :
    es.length = cs.length ∧ (∀ x ∈ es, x ∈ e) ∧ (∀ x ∈ cs, x ∈ c) := by
  unfold maybeDeduplicate.permute at h
  by_cases hr : e.length > 1
  · simp only [hr, if_true] at h
    by_cases ho : e.length ≠ (getOrder enc).length
    · rw [if_pos ho] at h; cases h
    rw [if_neg ho] at h
    cases h1 : applyPermutation e (getOrder enc) with
    | ok r1 =>
      cases h2 : applyPermutation c (getOrder enc) with
      | ok r2 =>
        simp only [h1, h2, Run.ok.injEq, Option.some.injEq, Prod.mk.injEq] at h
        obtain ⟨ha, hb⟩ := h
        subst ha hb
        obtain ⟨g1, g2, _⟩ := applyPermutation_facts e _ _ h1
        obtain ⟨k1, k2, _⟩ := applyPermutation_facts c _ _ h2
        exact ⟨by rw [g1, k1], g2, k2⟩
      | ub => simp [h1, h2] at h
      | timeout => simp [h1, h2] at h
    | ub => simp [h1] at h
    | timeout => simp [h1] at h
  · simp only [hr, if_false, Run.ok.injEq, Option.some.injEq, Prod.mk.injEq] at h
    obtain ⟨ha, hb⟩ := h
    subst ha hb
    exact ⟨hl, fun x hx => hx, fun x hx => hx⟩

theorem gates_facts (op : SourceOp) (vals : List Value) (es : List Nat) (cs : List Int)
    (h : maybeDeduplicate.gates op vals = .ok (some (es, cs))) :
    es.length = cs.length ∧ (∀ x ∈ es, 1 ≤ x) ∧ (∀ x ∈ cs, 1 ≤ x) ∧ vals.length < 2 ^ 32 := by
  obtain ⟨rt, enc, ai, c', _, _, _, _, hprod, _, hl1, hl2, hclamp, hperm⟩ :=
    (gates_some_iff op vals es cs).mp h
  obtain ⟨g1, g2, g3, _⟩ := clamp_facts _ _ _ _ _ _ hclamp hl1 hl2
  obtain ⟨p1, p2, p3⟩ := permute_facts enc _ c' es cs hperm g1.symm
  exact ⟨p1, fun x hx => g2 x (p2 x hx), fun x hx => g3 x (p3 x hx),
    by rw [← hprod]; exact product_lt _⟩

theorem map_cast_toNat (cs : List Int) (h : ∀ x ∈ cs, 1 ≤ x) :
    (cs.map Int.toNat).map Nat.cast = cs := by
  induction cs with
  | nil => rfl
  | cons c cs ih =>
    have hc : 1 ≤ c := h c (List.mem_cons_self _ _)
    simp only [List.map_cons, List.cons.injEq]
    exact ⟨Int.toNat_of_nonneg (by omega), ih (fun x hx => h x (List.mem_cons_of_mem _ hx))⟩

/-- When the gates pass with `elemsPerThread = es` and `constancy = cs`,
`maybeDeduplicate` returns a sequence of the length of the input whose entry
`i` is the input at `representative es cs i`, an index not above `i`. -/
theorem maybeDeduplicate_of_gates (op : SourceOp) (vals : List Value) (es : List Nat)
    (cs : List Int) (h : maybeDeduplicate.gates op vals = .ok (some (es, cs))) :
    ∃ out, maybeDeduplicate op vals = .ok out ∧ out.length = vals.length ∧
      ∀ i, i < vals.length →
        out[i]? = vals[representative es (cs.map Int.toNat) i]? ∧
        representative es (cs.map Int.toNat) i ≤ i := by
  obtain ⟨hl, _, hcs, hlt⟩ := gates_facts op vals es cs h
  have hcn : ∀ c ∈ cs.map Int.toNat, 1 ≤ c := by
    intro c hc
    obtain ⟨x, hx, hxc⟩ := List.mem_map.mp hc
    have := hcs x hx
    omega
  obtain ⟨out, hrun, hlen, hget⟩ := loop_eq vals es cs (maybeDeduplicate.strides 1 es)
    (representative es (cs.map Int.toNat)) (List.range vals.length) (by
      intro i hi
      have hi1 : i < vals.length := List.mem_range.mp hi
      have := dedupIdx_eq es (cs.map Int.toNat) 1 1 i 0 (by simpa using hl) hcn
        (by norm_num) (by omega)
      rw [map_cast_toNat cs hcs] at this
      refine ⟨by rw [this]; simp, ?_⟩
      have := representative_le es (cs.map Int.toNat) i
      omega)
  refine ⟨out, ?_, by simpa using hlen, fun i hi => ⟨?_, representative_le _ _ _⟩⟩
  · unfold maybeDeduplicate
    rw [h]
    exact hrun
  · rw [hget i, List.getElem?_range hi, Option.some_bind]

theorem block_representative : ∀ (es : List Nat) (cs : List Int) (i : Nat),
    (∀ x ∈ es, 1 ≤ x) → (∀ x ∈ cs, 1 ≤ x) →
    List.zipWith (fun (d : Nat) (c : Int) => (d : Int) / c)
        (coords es (representative es (cs.map Int.toNat) i)) cs =
      List.zipWith (fun (d : Nat) (c : Int) => (d : Int) / c) (coords es i) cs := by
  intro es
  induction es with
  | nil => intro cs i _ _; simp [coords]
  | cons e es ih =>
    intro cs i he hc
    cases cs with
    | nil => simp
    | cons c cs =>
      have he1 : 1 ≤ e := he e (List.mem_cons_self _ _)
      have hc1 : 1 ≤ c := hc c (List.mem_cons_self _ _)
      have hlt : i % e / c.toNat * c.toNat < e :=
        lt_of_le_of_lt (Nat.div_mul_le_self _ _) (Nat.mod_lt _ (by omega))
      simp only [List.map_cons, representative, coords, List.zipWith_cons_cons]
      rw [Nat.add_mul_mod_self_left, Nat.mod_eq_of_lt hlt, Nat.add_mul_div_left _ _ (by omega),
        Nat.div_eq_of_lt hlt, Nat.zero_add,
        ih cs (i / e) (fun x hx => he x (List.mem_cons_of_mem _ hx))
          (fun x hx => hc x (List.mem_cons_of_mem _ hx))]
      congr 1
      have hcc : ((c.toNat : Nat) : Int) = c := Int.toNat_of_nonneg (by omega)
      have hpos : 0 < c.toNat := by omega
      rw [← hcc]
      norm_cast
      rw [Nat.mul_div_cancel _ hpos]

/-- Claim C5 (deduplication value-equivalence).  Let the gates of
`maybeDeduplicate` pass with axis-ordered elements-per-thread `es` and clamped
constancy `cs`, and let `sem` give the run-time content of a value.  If any two
positions of `vals` whose coordinates (mixed radix `es`) fall in the same block
of size `cs[j]` in every dimension `j` hold equal contents, then
`maybeDeduplicate` returns a sequence of the same length holding the same
contents as `vals` at every position. -/
theorem maybeDeduplicate_value_equivalence {β : Type} (sem : Value → β) (op : SourceOp)
    (vals : List Value) (es : List Nat) (cs : List Int)
    (hgates : maybeDeduplicate.gates op vals = .ok (some (es, cs)))
    (hconst : ∀ a b, a < vals.length → b < vals.length →
      List.zipWith (fun (d : Nat) (c : Int) => (d : Int) / c) (coords es a) cs =
        List.zipWith (fun (d : Nat) (c : Int) => (d : Int) / c) (coords es b) cs →
      (vals[a]?).map sem = (vals[b]?).map sem) :
    ∃ out, maybeDeduplicate op vals = .ok out ∧ out.length = vals.length ∧
      out.map sem = vals.map sem := by
  obtain ⟨_, hes, hcs, _⟩ := gates_facts op vals es cs hgates
  obtain ⟨out, hrun, hlen, hget⟩ := maybeDeduplicate_of_gates op vals es cs hgates
  refine ⟨out, hrun, hlen, ?_⟩
  apply List.ext_getElem?
  intro i
  rw [List.getElem?_map, List.getElem?_map]
  by_cases hi : i < vals.length
  · obtain ⟨h1, h2⟩ := hget i hi
    rw [h1]
    exact hconst _ i (by omega) hi (block_representative es cs i hes hcs)
  · rw [List.getElem?_eq_none (by omega), List.getElem?_eq_none (by omega)]

/-- Witness for claim C5: eight values, the first four equal and the last four
equal, under a rank-1 blocked layout with constancy 4. -/
theorem maybeDeduplicate_value_equivalence_witness :
    maybeDeduplicate.gates (blocked8 4 8)
        [.arg 1, .arg 1, .arg 1, .arg 1, .arg 2, .arg 2, .arg 2, .arg 2] =
      .ok (some ([8], [4])) ∧
    ∃ out, maybeDeduplicate (blocked8 4 8)
        [.arg 1, .arg 1, .arg 1, .arg 1, .arg 2, .arg 2, .arg 2, .arg 2] = .ok out ∧
      out.length = 8 ∧
      out.map id = [.arg 1, .arg 1, .arg 1, .arg 1, .arg 2, .arg 2, .arg 2, .arg 2] := by
  refine ⟨by decide, ?_⟩
  exact maybeDeduplicate_value_equivalence id (blocked8 4 8)
    [.arg 1, .arg 1, .arg 1, .arg 1, .arg 2, .arg 2, .arg 2, .arg 2] [8] [4] (by decide) (by
      intro a b ha hb
      have ha8 : a < 8 := ha
      have hb8 : b < 8 := hb
      interval_cases a <;> interval_cases b <;> decide)

theorem clamp_singleton (e s : Nat) (k : Int) (c : Nat)
    (hclamp : (k ≤ (s : Int) ∧ (c : Int) = k) ∨ ((s : Int) < k ∧ (s : Int) ∣ k ∧ c = s))
    (hc : 1 < c) (hdiv : c ∣ e ∨ e ∣ c) :
    maybeDeduplicate.clamp [e] [s] [k] false =
      if e < 1 then .ok none else .ok (some ([(c : Int)], true)) := by
  have hc1 : (if k > (s : Int) then (s : Int) else k) = (c : Int) := by
    rcases hclamp with ⟨h1, h2⟩ | ⟨h1, _, h3⟩
    · rw [if_neg (by omega), h2]
    · rw [if_pos (by omega), h3]
  have h1 : ¬ (k > (s : Int) ∧ s = 0) := by
    rintro ⟨hk, hs0⟩
    rcases hclamp with ⟨h1, _⟩ | ⟨_, _, h3⟩
    · omega
    · omega
  have h2 : ¬ (k > (s : Int) ∧ k.tmod (s : Int) ≠ 0) := by
    rintro ⟨hk, hne⟩
    rcases hclamp with ⟨h1, _⟩ | ⟨_, h2, _⟩
    · omega
    · exact hne (Int.dvd_iff_tmod_eq_zero.mp h2)
  rw [maybeDeduplicate.clamp, if_neg h1, if_neg h2]
  simp only []
  rw [hc1]
  by_cases he : e < 1
  · rw [if_pos (Or.inl he), if_pos he]
  · have h3 : ¬ (e < 1 ∨ (c : Int) < 1) := by omega
    have h4 : ¬ ¬ ((e : Int).tmod (c : Int) = 0 ∨ (c : Int).tmod (e : Int) = 0) := by
      rw [not_not]
      rcases hdiv with hd | hd
      · exact Or.inl (Int.dvd_iff_tmod_eq_zero.mp (Int.natCast_dvd_natCast.mpr hd))
      · exact Or.inr (Int.dvd_iff_tmod_eq_zero.mp (Int.natCast_dvd_natCast.mpr hd))
    have h5 : (c : Int) > 1 := by omega
    rw [if_neg h3, if_neg h4, if_neg he]
    simp [maybeDeduplicate.clamp, h5]

/-- Claim C6 (representative-index map, rank 1).  For a side-effect-free op with
one result of blocked or slice rank-1 layout, `elemsPerThread = [e]` with
`e = |vals|`, and constancy `k` whose clamped value `c` (that is `k` when
`k ≤ sizePerThread`, and `sizePerThread` when it divides the larger `k`)
exceeds 1 and divides or is divided by `e`, `maybeDeduplicate` returns `out`
with `out[i] = vals[(i / c) * c]` for every `i < e`. -/
theorem maybeDeduplicate_rank_one (op : SourceOp) (vals : List Value)
    (rt : RankedTensorType) (enc : Attribute) (e s : Nat) (k : Int) (c : Nat)
    (hfree : op.isMemoryEffectFree = true) (hres : op.results = [.tensor rt])
    (henc : rt.encoding = some enc) (hkind : enc.isBlockedOrSlice = true)
    (he : getElemsPerThread rt = [e]) (hlen : vals.length = e) (he32 : e < 2 ^ 32)
    (hs : getSizePerThread enc = [s]) (haxis : op.axisInfo = some ⟨[k]⟩)
    (hclamp : (k ≤ (s : Int) ∧ (c : Int) = k) ∨ ((s : Int) < k ∧ (s : Int) ∣ k ∧ c = s))
    (hc : 1 < c) (hdiv : c ∣ e ∨ e ∣ c) :
    ∃ out, maybeDeduplicate op vals = .ok out ∧ out.length = e ∧
      ∀ i, i < e → out[i]? = vals[i / c * c]? := by
  have hprod : product [e] = e := by
    simp only [product, List.foldl_cons, List.foldl_nil, Nat.one_mul]
    exact Nat.mod_eq_of_lt he32
  have hcl := clamp_singleton e s k c hclamp hc hdiv
  by_cases he0 : e < 1
  · rw [if_pos he0] at hcl
    refine ⟨vals, ?_, hlen, fun i hi => by omega⟩
    unfold maybeDeduplicate maybeDeduplicate.gates
    simp [hfree, hres, henc, hkind, he, hs, haxis, hprod, hlen, hcl]
  · rw [if_neg he0] at hcl
    have hg : maybeDeduplicate.gates op vals = .ok (some ([e], [(c : Int)])) := by
      rw [gates_some_iff]
      refine ⟨rt, enc, ⟨[k]⟩, [(c : Int)], hfree, hres, henc, hkind, ?_, haxis, ?_, ?_, ?_, ?_⟩
      · rw [he, hprod, hlen]
      · rw [he, hs]; rfl
      · rw [he]; rfl
      · rw [he, hs]; exact hcl
      · rw [he]; simp [maybeDeduplicate.permute]
    obtain ⟨out, hrun, hl, hget⟩ := maybeDeduplicate_of_gates op vals _ _ hg
    refine ⟨out, hrun, by rw [hl, hlen], fun i hi => ?_⟩
    rw [(hget i (by omega)).1]
    simp only [List.map_cons, List.map_nil, Int.toNat_ofNat, representative, Nat.mul_zero,
      Nat.add_zero]
    rw [Nat.mod_eq_of_lt hi]

/-- Witness for claim C6: `e = 8`, `sizePerThread = 8`, constancy `[4]` gives the
index map `[0,0,0,0,4,4,4,4]`. -/
theorem maybeDeduplicate_rank_one_witness :
    (∃ out, maybeDeduplicate (blocked8 4 8) args8 = .ok out ∧ out.length = 8 ∧
      ∀ i, i < 8 → out[i]? = args8[i / 4 * 4]?) ∧
    maybeDeduplicate (blocked8 4 8) args8 = .ok ([0, 0, 0, 0, 4, 4, 4, 4].map Value.arg) :=
  ⟨maybeDeduplicate_rank_one (blocked8 4 8) args8
      ⟨⟨32⟩, some (.BlockedEncodingAttr [8] [0]), [8]⟩ (.BlockedEncodingAttr [8] [0]) 8 8 4 4
      rfl rfl rfl rfl rfl rfl (by decide) rfl rfl (Or.inl ⟨by decide, rfl⟩) (by decide)
      (Or.inl (by decide)),
    by decide⟩

theorem maybeDeduplicate_of_gates_none (op : SourceOp) (vals : List Value)
    (h : maybeDeduplicate.gates op vals = .ok none) : maybeDeduplicate op vals = .ok vals := by
  unfold maybeDeduplicate
  rw [h]

/-- Either a gate before the loop over the dimensions returns early, or the
outcome of the gates is decided by that loop and the axis-order permutation. -/
theorem gates_eq (op : SourceOp) (vals : List Value) :
    maybeDeduplicate.gates op vals = .ok none ∨
      ∃ rt enc ai, op.isMemoryEffectFree = true ∧ op.results = [.tensor rt] ∧
        rt.encoding = some enc ∧ enc.isBlockedOrSlice = true ∧
        product (getElemsPerThread rt) = vals.length ∧ op.axisInfo = some ai ∧
        (getElemsPerThread rt).length = (getSizePerThread enc).length ∧
        (getElemsPerThread rt).length = ai.constancy.length ∧
        maybeDeduplicate.gates op vals =
          match maybeDeduplicate.clamp (getElemsPerThread rt) (getSizePerThread enc)
              ai.constancy false with
          | .ok (some (constancy, hasConstancy)) =>
            if !hasConstancy then .ok none
            else maybeDeduplicate.permute enc (getElemsPerThread rt) constancy
          | .ok none => .ok none
          | .ub => .ub
          | .timeout => .timeout := by
  unfold maybeDeduplicate.gates
  cases hfree : op.isMemoryEffectFree with
  | false => left; simp
  | true =>
    simp only [Bool.not_true, Bool.false_eq_true, if_false]
    by_cases hlen : op.results.length = 0 ∨ op.results.length > 1
    · left; rw [if_pos hlen]
    rw [if_neg hlen]
    cases hres : op.results with
    | nil => simp [hres] at hlen
    | cons r rest =>
      have hrest : rest = [] := by
        cases rest with
        | nil => rfl
        | cons r2 rest2 => simp [hres] at hlen
      subst hrest
      simp only [List.head?_cons]
      cases r with
      | null => left; rfl
      | scalar t => left; rfl
      | tensor rt =>
        simp only []
        cases henc : rt.encoding with
        | none => left; rfl
        | some enc =>
          simp only []
          cases hkind : enc.isBlockedOrSlice with
          | false => left; simp
          | true =>
            simp only [Bool.not_true, Bool.false_eq_true, if_false]
            by_cases hprod : product (getElemsPerThread rt) ≠ vals.length
            · left; rw [if_pos hprod]
            rw [if_neg hprod]
            cases haxis : op.axisInfo with
            | none => left; rfl
            | some ai =>
              simp only []
              by_cases hl1 : (getElemsPerThread rt).length ≠ (getSizePerThread enc).length
              · left; rw [if_pos hl1]
              rw [if_neg hl1]
              by_cases hl2 : (getElemsPerThread rt).length ≠ ai.constancy.length
              · left; rw [if_pos hl2]
              rw [if_neg hl2]
              right
              exact ⟨rt, enc, ai, by trivial, by trivial, henc, hkind, not_not.mp hprod,
                by trivial, not_not.mp hl1, not_not.mp hl2, rfl⟩

theorem clamp_all_one : ∀ (e s : List Nat) (c : List Int) (h : Bool) (c' : List Int)
    (h' : Bool), maybeDeduplicate.clamp e s c h = .ok (some (c', h')) →
    (∀ k ∈ c, k = 1) → h' = h := by
  intro e
  induction e with
  | nil =>
    intro s c h c' h' hrun _
    simp only [maybeDeduplicate.clamp, Run.ok.injEq, Option.some.injEq, Prod.mk.injEq] at hrun
    exact hrun.2.symm
  | cons e es ih =>
    intro s c h c' h' hrun hone
    cases s with
    | nil =>
      simp only [maybeDeduplicate.clamp, Run.ok.injEq, Option.some.injEq, Prod.mk.injEq] at hrun
      exact hrun.2.symm
    | cons s ss =>
      cases c with
      | nil =>
        simp only [maybeDeduplicate.clamp, Run.ok.injEq, Option.some.injEq,
          Prod.mk.injEq] at hrun
        exact hrun.2.symm
      | cons k ks =>
        obtain ⟨cs, _, _, _, _, _, _, hrec⟩ := clamp_cons e es s ss k ks h c' h' hrun
        have hk : k = 1 := hone k (List.mem_cons_self _ _)
        have hle : ¬ (if k > (s : Int) then (s : Int) else k) > 1 := by
          subst hk
          split <;> omega
        rw [if_neg hle] at hrec
        exact ih ss ks h cs h' hrec (fun x hx => hone x (List.mem_cons_of_mem _ hx))

theorem clamp_dvd_at : ∀ (e s : List Nat) (ks : List Int) (h : Bool) (c' : List Int)
    (h' : Bool), maybeDeduplicate.clamp e s ks h = .ok (some (c', h')) →
    ∀ (j ej sj : Nat) (kj : Int), e[j]? = some ej → s[j]? = some sj → ks[j]? = some kj →
      (if kj > (sj : Int) then (sj : Int) else kj) ∣ (ej : Int) ∨
        (ej : Int) ∣ (if kj > (sj : Int) then (sj : Int) else kj) := by
  intro e
  induction e with
  | nil => intro s ks h c' h' _ j ej sj kj hej; simp at hej
  | cons e es ih =>
    intro s ks h c' h' hrun j ej sj kj hej hsj hkj
    cases s with
    | nil => simp at hsj
    | cons s ss =>
      cases ks with
      | nil => simp at hkj
      | cons k ks =>
        obtain ⟨cs, _, _, _, _, _, hdiv, hrec⟩ := clamp_cons e es s ss k ks h c' h' hrun
        cases j with
        | zero =>
          simp only [List.getElem?_cons_zero, Option.some.injEq] at hej hsj hkj
          subst hej hsj hkj
          rcases hdiv with hd | hd
          · exact Or.inl (Int.dvd_iff_tmod_eq_zero.mpr hd)
          · exact Or.inr (Int.dvd_iff_tmod_eq_zero.mpr hd)
        | succ j =>
          simp only [List.getElem?_cons_succ] at hej hsj hkj
          exact ih ss ks _ cs h' hrec j ej sj kj hej hsj hkj

/-- Claim C7 (gate correctness).  `maybeDeduplicate` returns its input unchanged
when the op is not memory-effect free; when it has no result or more than one;
when its result type is not a ranked tensor; when the result's layout is
neither blocked nor slice; and when every constancy entry equals 1 (the
layout's size-per-thread entries being non-zero). -/
theorem maybeDeduplicate_gate_correctness (op : SourceOp) (vals : List Value) :
    (op.isMemoryEffectFree = false → maybeDeduplicate op vals = .ok vals) ∧
    (op.results.length ≠ 1 → maybeDeduplicate op vals = .ok vals) ∧
    ((∀ rt, op.results.head? ≠ some (.tensor rt)) → maybeDeduplicate op vals = .ok vals) ∧
    (∀ rt enc, op.results.head? = some (.tensor rt) → rt.encoding = some enc →
      enc.isBlockedOrSlice = false → maybeDeduplicate op vals = .ok vals) ∧
    ((∀ ai, op.axisInfo = some ai → ∀ c ∈ ai.constancy, c = 1) →
      (∀ rt enc, op.results.head? = some (.tensor rt) → rt.encoding = some enc →
        ∀ s ∈ getSizePerThread enc, s ≠ 0) →
      maybeDeduplicate op vals = .ok vals) := by
  refine ⟨fun h => ?_, fun h => ?_, fun h => ?_, fun rt enc h1 h2 h3 => ?_, fun hone hs => ?_⟩
  · apply maybeDeduplicate_of_gates_none
    rcases gates_eq op vals with hg | ⟨_, _, _, hfree, _⟩
    · exact hg
    · rw [h] at hfree; cases hfree
  · apply maybeDeduplicate_of_gates_none
    rcases gates_eq op vals with hg | ⟨_, _, _, _, hres, _⟩
    · exact hg
    · rw [hres] at h; simp at h
  · apply maybeDeduplicate_of_gates_none
    rcases gates_eq op vals with hg | ⟨rt, _, _, _, hres, _⟩
    · exact hg
    · exact absurd (by rw [hres]; rfl) (h rt)
  · apply maybeDeduplicate_of_gates_none
    rcases gates_eq op vals with hg | ⟨rt1, enc1, _, _, hres, henc, hkind, _⟩
    · exact hg
    · rw [hres] at h1
      simp only [List.head?_cons, Option.some.injEq, MlirType.tensor.injEq] at h1
      subst h1
      rw [h2] at henc
      simp only [Option.some.injEq] at henc
      subst henc
      rw [h3] at hkind
      cases hkind
  · apply maybeDeduplicate_of_gates_none
    rcases gates_eq op vals with hg | ⟨rt, enc, ai, _, hres, henc, _, _, haxis, _, _, hg⟩
    · exact hg
    · rw [hg]
      rcases clamp_no_fault (getElemsPerThread rt) (getSizePerThread enc) ai.constancy false
        (hs rt enc (by rw [hres]; rfl) henc) with hc | ⟨c', h', hc⟩
      · rw [hc]
      · have := clamp_all_one _ _ _ _ _ _ hc (hone ai haxis)
        subst this
        rw [hc]
        rfl

/-- Witness for claim C7: one op for each gate, each returning the eight input
values unchanged. -/
theorem maybeDeduplicate_gate_correctness_witness :
    maybeDeduplicate { blocked8 4 8 with isMemoryEffectFree := false } args8 = .ok args8 ∧
    maybeDeduplicate { blocked8 4 8 with results := [] } args8 = .ok args8 ∧
    maybeDeduplicate { blocked8 4 8 with results := [blockedTy 32, blockedTy 32] } args8 =
      .ok args8 ∧
    maybeDeduplicate { blocked8 4 8 with results := [.scalar ⟨32⟩] } args8 = .ok args8 ∧
    maybeDeduplicate { blocked8 4 8 with results := [dotOpMmaTy 32] } args8 = .ok args8 ∧
    maybeDeduplicate (blocked8 1 8) args8 = .ok args8 :=
  ⟨(maybeDeduplicate_gate_correctness _ args8).1 rfl,
    (maybeDeduplicate_gate_correctness _ args8).2.1 (by decide),
    (maybeDeduplicate_gate_correctness _ args8).2.1 (by decide),
    (maybeDeduplicate_gate_correctness _ args8).2.2.1 (by intro rt h; cases h),
    (maybeDeduplicate_gate_correctness _ args8).2.2.2.1 _ _ rfl rfl rfl,
    (maybeDeduplicate_gate_correctness (blocked8 1 8) args8).2.2.2.2
      (by intro ai h c hc
          simp only [blocked8, Option.some.injEq] at h
          subst h
          simpa using hc)
      (by intro rt enc h1 h2 s hs
          simp only [blocked8, List.head?_cons, Option.some.injEq,
            MlirType.tensor.injEq] at h1
          subst h1
          simp only [Option.some.injEq] at h2
          subst h2
          simp only [getSizePerThread, List.mem_singleton] at hs
          omega)⟩

theorem maybeDeduplicate_not_dvd (op : SourceOp) (vals : List Value)
    (rt : RankedTensorType) (enc : Attribute) (ai : AxisInfo) (j ej sj : Nat) (kj : Int)
    (hres : op.results.head? = some (.tensor rt)) (henc : rt.encoding = some enc)
    (haxis : op.axisInfo = some ai) (hs : ∀ s ∈ getSizePerThread enc, s ≠ 0)
    (hej : (getElemsPerThread rt)[j]? = some ej) (hsj : (getSizePerThread enc)[j]? = some sj)
    (hkj : ai.constancy[j]? = some kj)
    (h1 : ¬ (if kj > (sj : Int) then (sj : Int) else kj) ∣ (ej : Int))
    (h2 : ¬ (ej : Int) ∣ (if kj > (sj : Int) then (sj : Int) else kj)) :
    maybeDeduplicate op vals = .ok vals := by
  apply maybeDeduplicate_of_gates_none
  rcases gates_eq op vals with hg | ⟨rt1, enc1, ai1, _, hres1, henc1, _, _, haxis1, _, _, hg⟩
  · exact hg
  · rw [hres1] at hres
    simp only [List.head?_cons, Option.some.injEq, MlirType.tensor.injEq] at hres
    subst hres
    rw [henc1] at henc
    simp only [Option.some.injEq] at henc
    subst henc
    rw [haxis1] at haxis
    simp only [Option.some.injEq] at haxis
    subst haxis
    rw [hg]
    rcases clamp_no_fault (getElemsPerThread rt1) (getSizePerThread enc1) ai1.constancy false hs
      with hc | ⟨c', h', hc⟩
    · rw [hc]
    · rcases clamp_dvd_at _ _ _ _ _ _ hc j ej sj kj hej hsj hkj with hd | hd
      · exact absurd hd h1
      · exact absurd hd h2

/-- Claim C8 (non-divisible rejection).  If in some dimension `j` the
elements-per-thread `e` and the clamped constancy `c` (the constancy, or the
size-per-thread when the constancy exceeds it) are such that neither divides
the other, `maybeDeduplicate` returns its input unchanged (the layout's
size-per-thread entries being non-zero).  In particular constancy `[3]`
against `elemsPerThread = [8]` returns the eight input values unchanged for
every `sizePerThread ≥ 1`. -/
theorem maybeDeduplicate_non_divisible :
    (∀ (op : SourceOp) (vals : List Value) (rt : RankedTensorType) (enc : Attribute)
      (ai : AxisInfo) (j e s : Nat) (k : Int),
      op.results.head? = some (.tensor rt) → rt.encoding = some enc →
      op.axisInfo = some ai → (∀ x ∈ getSizePerThread enc, x ≠ 0) →
      (getElemsPerThread rt)[j]? = some e → (getSizePerThread enc)[j]? = some s →
      ai.constancy[j]? = some k →
      ¬ (if k > (s : Int) then (s : Int) else k) ∣ (e : Int) →
      ¬ (e : Int) ∣ (if k > (s : Int) then (s : Int) else k) →
      maybeDeduplicate op vals = .ok vals) ∧
    (∀ s, 1 ≤ s → maybeDeduplicate (blocked8 3 s) args8 = .ok args8) := by
  refine ⟨fun op vals rt enc ai j e s k h1 h2 h3 h4 h5 h6 h7 h8 h9 =>
    maybeDeduplicate_not_dvd op vals rt enc ai j e s k h1 h2 h3 h4 h5 h6 h7 h8 h9, ?_⟩
  intro s hs
  by_cases h3 : 3 ≤ s
  · refine maybeDeduplicate_not_dvd (blocked8 3 s) args8
      ⟨⟨32⟩, some (.BlockedEncodingAttr [s] [0]), [8]⟩ (.BlockedEncodingAttr [s] [0]) ⟨[3]⟩
      0 8 s 3 rfl rfl rfl ?_ rfl rfl rfl ?_ ?_
    · intro x hx
      simp only [getSizePerThread, List.mem_singleton] at hx
      omega
    · rw [if_neg (by omega)]; decide
    · rw [if_neg (by omega)]; decide
  · have : s = 1 ∨ s = 2 := by omega
    rcases this with h | h <;> subst h <;> decide

/-- Witness for claim C8: constancy `[3]` against `elemsPerThread = [8]` with
`sizePerThread = [8]`, and with `sizePerThread = [2]`. -/
theorem maybeDeduplicate_non_divisible_witness :
    maybeDeduplicate (blocked8 3 8) args8 = .ok args8 ∧
    maybeDeduplicate (blocked8 3 2) args8 = .ok args8 :=
  ⟨maybeDeduplicate_non_divisible.1 (blocked8 3 8) args8
      ⟨⟨32⟩, some (.BlockedEncodingAttr [8] [0]), [8]⟩ (.BlockedEncodingAttr [8] [0]) ⟨[3]⟩
      0 8 8 3 rfl rfl rfl (by decide) rfl rfl rfl (by decide) (by decide),
    maybeDeduplicate_non_divisible.2 2 (by decide)⟩

/-! ## Facts about `matchAndRewrite` -/

theorem any_not_toBool (curr : List Value) :
    curr.any (fun v => !v.toBool) = true ↔ Value.null ∈ curr := by
  rw [List.any_eq_true]
  constructor
  · rintro ⟨v, hv, hb⟩
    cases v <;> simp_all [Value.toBool]
  · intro h
    exact ⟨Value.null, h, rfl⟩

theorem destLoop_calls {σ : Type} (P : Pattern σ) : ∀ (fuel : Nat) (st : σ)
    (w : List (List Value)) (acc : List Value), w.length ≤ fuel →
    (matchAndRewrite.destLoop P fuel st w acc = .ok none ↔
      ∃ call ∈ matchAndRewrite.calls P fuel st w, call.2 = [] ∨ Value.null ∈ call.2) ∧
    ((∀ call ∈ matchAndRewrite.calls P fuel st w,
        call.2 ≠ [] ∧ Value.null ∉ call.2 ∧ call.2.length ≤ call.1.length) →
      matchAndRewrite.destLoop P fuel st w acc =
        .ok (some (acc ++ (matchAndRewrite.calls P fuel st w).flatMap Prod.snd))) := by
  intro fuel
  induction fuel with
  | zero =>
    intro st w acc hw
    have : w = [] := List.length_eq_zero.mp (by omega)
    subst this
    simp [matchAndRewrite.destLoop, matchAndRewrite.calls]
  | succ fuel ih =>
    intro st w acc hw
    cases w with
    | nil => simp [matchAndRewrite.destLoop, matchAndRewrite.calls]
    | cons g gs =>
      rw [matchAndRewrite.destLoop, matchAndRewrite.calls]
      generalize hcurr : (P.createDestOps st (g :: gs)).1 = curr
      by_cases h0 : curr.length = 0
      · have hnil : curr = [] := List.length_eq_zero.mp h0
        rw [if_pos h0, if_pos h0]
        refine ⟨⟨fun _ => ⟨_, List.mem_singleton_self _, Or.inl hnil⟩, fun _ => rfl⟩, fun h => ?_⟩
        exact absurd hnil (h _ (List.mem_singleton_self _)).1
      rw [if_neg h0, if_neg h0]
      by_cases h1 : curr.any (fun v => !v.toBool) = true
      · have hnull : Value.null ∈ curr := (any_not_toBool curr).mp h1
        rw [if_pos h1, if_pos h1]
        refine ⟨⟨fun _ => ⟨_, List.mem_singleton_self _, Or.inr hnull⟩, fun _ => rfl⟩, fun h => ?_⟩
        exact absurd hnull (h _ (List.mem_singleton_self _)).2.1
      have hnull : Value.null ∉ curr := fun hh => h1 ((any_not_toBool curr).mpr hh)
      have hne : curr ≠ [] := fun hh => h0 (by rw [hh]; rfl)
      rw [if_neg h1, if_neg h1]
      by_cases h2 : (g :: gs).length < curr.length
      · rw [if_pos h2, if_pos h2]
        refine ⟨⟨fun hh => (by cases hh), ?_⟩, fun h => ?_⟩
        · rintro ⟨call, hc, hf⟩
          rw [List.mem_singleton] at hc
          subst hc
          rcases hf with hf | hf
          · exact absurd hf hne
          · exact absurd hf hnull
        · have := (h _ (List.mem_singleton_self _)).2.2
          simp only at this
          omega
      rw [if_neg h2, if_neg h2]
      have hlen : ((g :: gs).drop curr.length).length ≤ fuel := by
        rw [List.length_drop]
        have : 1 ≤ curr.length := by omega
        simp only [List.length_cons] at hw ⊢
        omega
      obtain ⟨ih1, ih2⟩ := ih (P.createDestOps st (g :: gs)).2 ((g :: gs).drop curr.length)
        (acc ++ curr) hlen
      refine ⟨?_, fun h => ?_⟩
      · rw [ih1]
        constructor
        · rintro ⟨call, hc, hf⟩
          exact ⟨call, List.mem_cons_of_mem _ hc, hf⟩
        · rintro ⟨call, hc, hf⟩
          rcases List.mem_cons.mp hc with hc | hc
          · subst hc
            rcases hf with hf | hf
            · exact absurd hf hne
            · exact absurd hf hnull
          · exact ⟨call, hc, hf⟩
      · rw [ih2 (fun call hc => h call (List.mem_cons_of_mem _ hc))]
        simp [List.flatMap_cons, List.append_assoc]

theorem finish_eq_ok {σ : Type} (P : Pattern σ) (op : SourceOp) (resultTy : MlirType)
    (resultVals : List Value) (r : LogicalResult)
    (h : matchAndRewrite.finish P op resultTy resultVals = .ok r) :
    ∃ view, r = .success view := by
  unfold matchAndRewrite.finish at h
  cases hd : maybeDeduplicate op (matchAndRewrite.reorder P op resultTy resultVals) with
  | ok d =>
    rw [hd] at h
    simp only [] at h
    cases hp : packI32 (d.length + 1) d resultTy P.typeConverter with
    | ok p =>
      rw [hp] at h
      simp only [Run.ok.injEq] at h
      exact ⟨_, h.symm⟩
    | ub => rw [hp] at h; cases h
    | timeout => rw [hp] at h; cases h
  | ub => rw [hd] at h; cases h
  | timeout => rw [hd] at h; cases h

theorem matchAndRewrite_failure_iff {σ : Type} (P : Pattern σ) (op : SourceOp) (st : σ) :
    matchAndRewrite P op st = .ok .failure ↔
      ∃ call ∈ matchAndRewrite.trace P op st, call.2 = [] ∨ Value.null ∈ call.2 := by
  unfold matchAndRewrite matchAndRewrite.trace
  cases hg : matchAndRewrite.groups P op with
  | ok g =>
    simp only []
    obtain ⟨h1, _⟩ := destLoop_calls P g.length st g [] (Nat.le_refl _)
    rw [← h1]
    cases hd : matchAndRewrite.destLoop P g.length st g [] with
    | ok r =>
      cases r with
      | none => simp
      | some rv =>
        simp only []
        constructor
        · intro hf
          obtain ⟨view, hv⟩ := finish_eq_ok P op _ rv _ hf
          cases hv
        · intro hf
          cases hf
    | ub => simp
    | timeout => simp
  | ub => simp
  | timeout => simp

theorem matchAndRewrite_eq_finish {σ : Type} (P : Pattern σ) (op : SourceOp) (st : σ)
    (groups : List (List Value)) (hg : matchAndRewrite.groups P op = .ok groups)
    (h : ∀ call ∈ matchAndRewrite.trace P op st,
      call.2 ≠ [] ∧ Value.null ∉ call.2 ∧ call.2.length ≤ call.1.length) :
    matchAndRewrite P op st =
      matchAndRewrite.finish P op (op.results.headD .null)
        ((matchAndRewrite.trace P op st).flatMap Prod.snd) := by
  unfold matchAndRewrite.trace at h ⊢
  unfold matchAndRewrite
  rw [hg] at h ⊢
  simp only [] at h ⊢
  obtain ⟨_, h2⟩ := destLoop_calls P groups.length st groups [] (Nat.le_refl _)
  rw [h2 h]
  simp

theorem length_pushEach : ∀ (allOperands : List (List Value)) (subOperands : List Value),
    (matchAndRewrite.pushEach allOperands subOperands).length = allOperands.length := by
  intro allOperands
  induction allOperands with
  | nil => intro subOperands; cases subOperands <;> simp [matchAndRewrite.pushEach]
  | cons g gs ih =>
    intro subOperands
    cases subOperands with
    | nil => simp [matchAndRewrite.pushEach]
    | cons v vs => simp [matchAndRewrite.pushEach, ih]

theorem length_resize (allOperands : List (List Value)) (n : Nat) :
    (matchAndRewrite.resize allOperands n).length = n := by
  simp only [matchAndRewrite.resize, List.length_append, List.length_take,
    List.length_replicate]
  omega

theorem operandLoop_length {σ : Type} (P : Pattern σ) (op : SourceOp) :
    ∀ (rest : List (MlirType × Value)) (last : MlirType × Value)
      (init groups : List (List Value)),
    matchAndRewrite.operandLoop P op (rest ++ [last]) init = .ok groups →
    ∃ argTy v sub, op.operands.head? = some (argTy, v) ∧
      unpackI32 (P.unpackLLElements last.2) argTy P.typeConverter = .ok sub ∧
      groups.length = sub.length := by
  intro rest
  induction rest with
  | nil =>
    intro last init groups h
    simp only [List.nil_append, matchAndRewrite.operandLoop] at h
    cases hh : op.operands.head? with
    | none => rw [hh] at h; cases h
    | some p =>
      obtain ⟨argTy, v⟩ := p
      rw [hh] at h
      simp only [] at h
      cases hu : unpackI32 (P.unpackLLElements last.2) argTy P.typeConverter with
      | ok sub =>
        rw [hu] at h
        simp only [Run.ok.injEq] at h
        refine ⟨argTy, v, sub, rfl, hu, ?_⟩
        rw [← h, length_pushEach, length_resize]
      | ub => rw [hu] at h; cases h
      | timeout => rw [hu] at h; cases h
  | cons x rest ih =>
    intro last init groups h
    simp only [List.cons_append, matchAndRewrite.operandLoop] at h
    cases hh : op.operands.head? with
    | none => rw [hh] at h; cases h
    | some p =>
      obtain ⟨argTy, v⟩ := p
      rw [hh] at h
      simp only [] at h
      cases hu : unpackI32 (P.unpackLLElements x.2) argTy P.typeConverter with
      | ok sub =>
        rw [hu] at h
        simp only [] at h
        obtain ⟨a, b, c, h1, h2, h3⟩ := ih last _ groups h
        rw [hh] at h1
        exact ⟨a, b, c, h1, h2, h3⟩
      | ub => rw [hu] at h; cases h
      | timeout => rw [hu] at h; cases h

/-- Claim C10 (operand length mismatch), as amended.  `matchAndRewrite` does not
compare the lengths of the operands' unpacked sequences.  Each operand resizes
the list of operand groups to the length of its own sequence, so the number of
groups is the length of the last operand's sequence, unpacked by the type of
operand 0 (one empty group when that length is zero); and failure is returned
only when an invocation of `createDestOps` returns an empty sequence or one
containing a null handle. -/
theorem matchAndRewrite_length_mismatch {σ : Type} (P : Pattern σ) (op : SourceOp)
    (st : σ) :
    (∀ rest last groups, op.operands = rest ++ [last] →
      matchAndRewrite.groups P op = .ok groups →
      ∃ argTy v sub, op.operands.head? = some (argTy, v) ∧
        unpackI32 (P.unpackLLElements last.2) argTy P.typeConverter = .ok sub ∧
        groups.length = if sub.length = 0 then 1 else sub.length) ∧
    (matchAndRewrite P op st = .ok .failure →
      ∃ call ∈ matchAndRewrite.trace P op st, call.2 = [] ∨ Value.null ∈ call.2) := by
  refine ⟨fun rest last groups hops hg => ?_, (matchAndRewrite_failure_iff P op st).mp⟩
  unfold matchAndRewrite.groups at hg
  cases hl : matchAndRewrite.operandLoop P op op.operands [] with
  | ok all =>
    rw [hl] at hg
    simp only [] at hg
    rw [hops] at hl
    obtain ⟨argTy, v, sub, h1, h2, h3⟩ := operandLoop_length P op rest last [] all hl
    refine ⟨argTy, v, sub, h1, h2, ?_⟩
    by_cases h0 : all.length = 0
    · rw [if_pos h0] at hg
      simp only [Run.ok.injEq] at hg
      rw [← hg, if_pos (by omega)]
      rfl
    · rw [if_neg h0] at hg
      simp only [Run.ok.injEq] at hg
      rw [← hg, if_neg (by omega), h3]
  | ub => rw [hl] at hg; cases hg
  | timeout => rw [hl] at hg; cases hg

/-- Witness for claim C10: with operands unpacking to one and to two values there
are two operand groups, the second lacking the first operand's value. -/
theorem matchAndRewrite_length_mismatch_witness :
    matchAndRewrite.groups (constPattern [.arg 100]) binaryOp =
      .ok [[.arg 10, .arg 20], [.arg 21]] ∧
    ∃ argTy v sub, binaryOp.operands.head? = some (argTy, v) ∧
      unpackI32 ((constPattern [.arg 100]).unpackLLElements (.arg 1)) argTy idConverter =
        .ok sub ∧
      ([[.arg 10, .arg 20], [.arg 21]] : List (List Value)).length =
        if sub.length = 0 then 1 else sub.length :=
  ⟨by decide,
    (matchAndRewrite_length_mismatch (constPattern [.arg 100]) binaryOp ()).1
      [(blockedTy 32, .arg 0)] (blockedTy 32, .arg 1) [[.arg 10, .arg 20], [.arg 21]]
      rfl (by decide)⟩

/-- Counterexample to claim C10 as stated: the two operands unpack to sequences
of lengths 1 and 2, and `matchAndRewrite` returns success. -/
theorem matchAndRewrite_length_mismatch_counterexample :
    unpackI32 ((constPattern [.arg 100]).unpackLLElements (.arg 0)) (blockedTy 32)
        idConverter = .ok [.arg 10] ∧
    unpackI32 ((constPattern [.arg 100]).unpackLLElements (.arg 1)) (blockedTy 32)
        idConverter = .ok [.arg 20, .arg 21] ∧
    matchAndRewrite (constPattern [.arg 100]) binaryOp () = .ok (.success (.arg 100)) := by
  decide

/-! ## Clamping, axis order and reuse in `maybeDeduplicate` -/

theorem clamp_at : ∀ (e s : List Nat) (ks : List Int) (h : Bool) (c' : List Int)
    (h' : Bool), maybeDeduplicate.clamp e s ks h = .ok (some (c', h')) →
    ∀ (j ej sj : Nat) (kj : Int), e[j]? = some ej → s[j]? = some sj → ks[j]? = some kj →
      (kj ≤ (sj : Int) ∨ (sj : Int) ∣ kj) ∧
        c'[j]? = some (if kj > (sj : Int) then (sj : Int) else kj) := by
  intro e
  induction e with
  | nil => intro s ks h c' h' _ j ej sj kj hej; simp at hej
  | cons e es ih =>
    intro s ks h c' h' hrun j ej sj kj hej hsj hkj
    cases s with
    | nil => simp at hsj
    | cons s ss =>
      cases ks with
      | nil => simp at hkj
      | cons k ks =>
        obtain ⟨cs, hc', _, h2, _, _, _, hrec⟩ := clamp_cons e es s ss k ks h c' h' hrun
        subst hc'
        cases j with
        | zero =>
          simp only [List.getElem?_cons_zero, Option.some.injEq] at hej hsj hkj
          subst hej hsj hkj
          refine ⟨?_, by simp⟩
          by_cases hks : k > (s : Int)
          · right
            have : k.tmod (s : Int) = 0 := by
              by_contra hne
              exact h2 ⟨hks, hne⟩
            exact Int.dvd_iff_tmod_eq_zero.mpr this
          · left; omega
        | succ j =>
          simp only [List.getElem?_cons_succ] at hej hsj hkj ⊢
          exact ih ss ks _ cs h' hrec j ej sj kj hej hsj hkj

theorem maybeDeduplicate_not_multiple (op : SourceOp) (vals : List Value)
    (rt : RankedTensorType) (enc : Attribute) (ai : AxisInfo) (j s : Nat) (k : Int)
    (hres : op.results.head? = some (.tensor rt)) (henc : rt.encoding = some enc)
    (haxis : op.axisInfo = some ai) (hs : ∀ x ∈ getSizePerThread enc, x ≠ 0)
    (hsj : (getSizePerThread enc)[j]? = some s) (hkj : ai.constancy[j]? = some k)
    (hgt : k > (s : Int)) (hnd : ¬ (s : Int) ∣ k) :
    maybeDeduplicate op vals = .ok vals := by
  apply maybeDeduplicate_of_gates_none
  rcases gates_eq op vals with hg | ⟨rt1, enc1, ai1, _, hres1, henc1, _, _, haxis1, hl1, _, hg⟩
  · exact hg
  · rw [hres1] at hres
    simp only [List.head?_cons, Option.some.injEq, MlirType.tensor.injEq] at hres
    subst hres
    rw [henc1] at henc
    simp only [Option.some.injEq] at henc
    subst henc
    rw [haxis1] at haxis
    simp only [Option.some.injEq] at haxis
    subst haxis
    rw [hg]
    rcases clamp_no_fault (getElemsPerThread rt1) (getSizePerThread enc1) ai1.constancy false hs
      with hc | ⟨c', h', hc⟩
    · rw [hc]
    · have hj : j < (getElemsPerThread rt1).length := by
        rw [hl1]
        by_contra hcon
        rw [List.getElem?_eq_none (by omega)] at hsj
        cases hsj
      rcases (clamp_at _ _ _ _ _ _ hc j _ s k (List.getElem?_eq_getElem hj) hsj hkj).1
        with hd | hd
      · omega
      · exact absurd hd hnd

/-- Claim C11 (constancy clamping).  If in some dimension the constancy exceeds
the size-per-thread and is not a multiple of it, `maybeDeduplicate` returns its
input unchanged (the layout's size-per-thread entries being non-zero).  When
the gates pass, the constancy used in each dimension is the constancy itself
when it does not exceed the size-per-thread, and otherwise the size-per-thread,
which then divides it; these clamped constancies, in axis order, give the index
map.  Rank 1 with `elemsPerThread = [8]`, `sizePerThread = [2]`: constancy
`[4]` yields the index map `[0,0,2,2,4,4,6,6]`, constancy `[3]` the input. -/
theorem maybeDeduplicate_clamping :
    (∀ (op : SourceOp) (vals : List Value) (rt : RankedTensorType) (enc : Attribute)
      (ai : AxisInfo) (j s : Nat) (k : Int),
      op.results.head? = some (.tensor rt) → rt.encoding = some enc →
      op.axisInfo = some ai → (∀ x ∈ getSizePerThread enc, x ≠ 0) →
      (getSizePerThread enc)[j]? = some s → ai.constancy[j]? = some k →
      k > (s : Int) → ¬ (s : Int) ∣ k → maybeDeduplicate op vals = .ok vals) ∧
    (∀ (op : SourceOp) (vals : List Value) (es : List Nat) (cs : List Int),
      maybeDeduplicate.gates op vals = .ok (some (es, cs)) →
      ∃ rt enc ai c', op.results = [.tensor rt] ∧ rt.encoding = some enc ∧
        op.axisInfo = some ai ∧
        c' = List.zipWith (fun (k : Int) (s : Nat) => if k > (s : Int) then (s : Int) else k)
          ai.constancy (getSizePerThread enc) ∧
        (∀ (j s : Nat) (k : Int), (getSizePerThread enc)[j]? = some s →
          ai.constancy[j]? = some k → k > (s : Int) →
          (s : Int) ∣ k ∧ c'[j]? = some (s : Int)) ∧
        maybeDeduplicate.permute enc (getElemsPerThread rt) c' = .ok (some (es, cs)) ∧
        ∃ out, maybeDeduplicate op vals = .ok out ∧
          ∀ i, i < vals.length →
            out[i]? = vals[representative es (cs.map Int.toNat) i]?) ∧
    maybeDeduplicate (blocked8 4 2) args8 = .ok ([0, 0, 2, 2, 4, 4, 6, 6].map Value.arg) ∧
    maybeDeduplicate (blocked8 3 2) args8 = .ok args8 := by
  refine ⟨fun op vals rt enc ai j s k h1 h2 h3 h4 h5 h6 h7 h8 =>
    maybeDeduplicate_not_multiple op vals rt enc ai j s k h1 h2 h3 h4 h5 h6 h7 h8,
    fun op vals es cs hg => ?_, by decide, by decide⟩
  obtain ⟨rt, enc, ai, c', _, hres, henc, _, _, haxis, hl1, hl2, hclamp, hperm⟩ :=
    (gates_some_iff op vals es cs).mp hg
  obtain ⟨_, _, _, _, hzip, _, _⟩ := clamp_facts _ _ _ _ _ _ hclamp hl1 hl2
  obtain ⟨out, hrun, _, hget⟩ := maybeDeduplicate_of_gates op vals es cs hg
  refine ⟨rt, enc, ai, c', hres, henc, haxis, hzip, fun j s k hsj hkj hgt => ?_, hperm, out,
    hrun, fun i hi => (hget i hi).1⟩
  have hj : j < (getElemsPerThread rt).length := by
    rw [hl1]
    by_contra hcon
    rw [List.getElem?_eq_none (by omega)] at hsj
    cases hsj
  obtain ⟨hd, hc⟩ := clamp_at _ _ _ _ _ _ hclamp j _ s k (List.getElem?_eq_getElem hj) hsj hkj
  rw [if_pos hgt] at hc
  refine ⟨?_, hc⟩
  rcases hd with hd | hd
  · omega
  · exact hd

/-- Witness for claim C11: constancy `[6]` against `sizePerThread = [4]` is
rejected by the general statement; constancy `[4]` against `sizePerThread =
[2]` passes the gates with clamped constancy `[2]`. -/
theorem maybeDeduplicate_clamping_witness :
    maybeDeduplicate (blocked8 6 4) args8 = .ok args8 ∧
    maybeDeduplicate.gates (blocked8 4 2) args8 = .ok (some ([8], [2])) ∧
    ∃ rt enc ai c', (blocked8 4 2).results = [.tensor rt] ∧ rt.encoding = some enc ∧
      (blocked8 4 2).axisInfo = some ai ∧
      c' = List.zipWith (fun (k : Int) (s : Nat) => if k > (s : Int) then (s : Int) else k)
        ai.constancy (getSizePerThread enc) ∧
      (∀ (j s : Nat) (k : Int), (getSizePerThread enc)[j]? = some s →
        ai.constancy[j]? = some k → k > (s : Int) →
        (s : Int) ∣ k ∧ c'[j]? = some (s : Int)) ∧
      maybeDeduplicate.permute enc (getElemsPerThread rt) c' = .ok (some ([8], [2])) ∧
      ∃ out, maybeDeduplicate (blocked8 4 2) args8 = .ok out ∧
        ∀ i, i < args8.length →
          out[i]? = args8[representative [8] (([2] : List Int).map Int.toNat) i]? :=
  ⟨maybeDeduplicate_clamping.1 (blocked8 6 4) args8
      ⟨⟨32⟩, some (.BlockedEncodingAttr [4] [0]), [8]⟩ (.BlockedEncodingAttr [4] [0]) ⟨[6]⟩
      0 4 6 rfl rfl rfl (by decide) rfl rfl (by decide) (by decide),
    by decide,
    maybeDeduplicate_clamping.2.1 (blocked8 4 2) args8 [8] [2] (by decide)⟩

theorem coords_representative : ∀ (es cn : List Nat) (i : Nat),
    es.length = cn.length → (∀ x ∈ es, 1 ≤ x) →
    coords es (representative es cn i) =
      List.zipWith (fun d c => d / c * c) (coords es i) cn := by
  intro es
  induction es with
  | nil => intro cn i _ _; simp [coords]
  | cons e es ih =>
    intro cn i hl he
    cases cn with
    | nil => simp at hl
    | cons c cn =>
      have he1 : 1 ≤ e := he e (List.mem_cons_self _ _)
      have hlt : i % e / c * c < e :=
        lt_of_le_of_lt (Nat.div_mul_le_self _ _) (Nat.mod_lt _ (by omega))
      simp only [representative, coords, List.zipWith_cons_cons]
      rw [Nat.add_mul_mod_self_left, Nat.mod_eq_of_lt hlt, Nat.add_mul_div_left _ _ (by omega),
        Nat.div_eq_of_lt hlt, Nat.zero_add,
        ih cn (i / e) (by simpa using hl) (fun x hx => he x (List.mem_cons_of_mem _ hx))]

theorem permute_index (enc : Attribute) (e : List Nat) (ks : List Int) (es : List Nat)
    (cs : List Int) (h : maybeDeduplicate.permute enc e ks = .ok (some (es, cs)))
    (hr : 1 < e.length) :
    es.length = e.length ∧
      ∀ n : Nat, es[n]? = ((getOrder enc)[n]?).bind (fun (d : Nat) => e[d]?) ∧
        cs[n]? = ((getOrder enc)[n]?).bind (fun (d : Nat) => ks[d]?) := by
  unfold maybeDeduplicate.permute at h
  simp only [gt_iff_lt, hr, if_true] at h
  by_cases ho : e.length ≠ (getOrder enc).length
  · rw [if_pos ho] at h; cases h
  rw [if_neg ho] at h
  cases h1 : applyPermutation e (getOrder enc) with
  | ok r1 =>
    cases h2 : applyPermutation ks (getOrder enc) with
    | ok r2 =>
      simp only [h1, h2, Run.ok.injEq, Option.some.injEq, Prod.mk.injEq] at h
      obtain ⟨ha, hb⟩ := h
      subst ha hb
      obtain ⟨g1, _, g3⟩ := applyPermutation_facts e _ _ h1
      obtain ⟨_, _, k3⟩ := applyPermutation_facts ks _ _ h2
      exact ⟨by rw [g1]; exact (not_not.mp ho).symm, fun n => ⟨g3 n, k3 n⟩⟩
    | ub => simp [h1, h2] at h
    | timeout => simp [h1, h2] at h
  | ub => simp [h1] at h
  | timeout => simp [h1] at h

/-- Claim C12 (axis-order permutation for rank > 1).  When the gates pass with
rank above 1, the radices `es` and the constancies `cs` used by the loop are
the elements-per-thread and the clamped constancies taken in axis order:
entry `n` is that of dimension `order[n]`, so dimension `order[0]` is the
fastest-varying digit.  `maybeDeduplicate` returns `out` with
`out[i] = vals[r]`, where `r` recomposes with the radices `es` the digits of
`i` in the radices `es`, each rounded down to a multiple of the constancy of
its own dimension. -/
theorem maybeDeduplicate_axis_order (op : SourceOp) (vals : List Value) (es : List Nat)
    (cs : List Int) (hg : maybeDeduplicate.gates op vals = .ok (some (es, cs))) :
    ∃ rt enc ai c', op.results = [.tensor rt] ∧ rt.encoding = some enc ∧
      op.axisInfo = some ai ∧
      c' = List.zipWith (fun (k : Int) (s : Nat) => if k > (s : Int) then (s : Int) else k)
        ai.constancy (getSizePerThread enc) ∧
      (1 < (getElemsPerThread rt).length →
        es.length = (getElemsPerThread rt).length ∧
        ∀ n : Nat,
          es[n]? = ((getOrder enc)[n]?).bind (fun (d : Nat) => (getElemsPerThread rt)[d]?) ∧
          cs[n]? = ((getOrder enc)[n]?).bind (fun (d : Nat) => c'[d]?)) ∧
      ∃ out, maybeDeduplicate op vals = .ok out ∧ out.length = vals.length ∧
        ∀ i, i < vals.length →
          out[i]? = vals[representative es (cs.map Int.toNat) i]? ∧
          coords es (representative es (cs.map Int.toNat) i) =
            List.zipWith (fun d c => d / c * c) (coords es i) (cs.map Int.toNat) := by
  obtain ⟨rt, enc, ai, c', _, hres, henc, _, _, haxis, hl1, hl2, hclamp, hperm⟩ :=
    (gates_some_iff op vals es cs).mp hg
  obtain ⟨_, _, _, _, hzip, _, _⟩ := clamp_facts _ _ _ _ _ _ hclamp hl1 hl2
  obtain ⟨hl, hes, _, _⟩ := gates_facts op vals es cs hg
  obtain ⟨out, hrun, hlen, hget⟩ := maybeDeduplicate_of_gates op vals es cs hg
  refine ⟨rt, enc, ai, c', hres, henc, haxis, hzip,
    fun hr => permute_index enc _ c' es cs hperm hr, out, hrun, hlen, fun i hi =>
      ⟨(hget i hi).1, coords_representative es _ i (by simpa using hl) hes⟩⟩

/-- Witness for claim C12: `elemsPerThread = [2, 4]`, constancy `[1, 4]`,
`sizePerThread = [2, 4]`.  Order `[1, 0]` gives radices `[4, 2]`, constancies
`[4, 1]` and the index map `[0,0,0,0,4,4,4,4]`; order `[0, 1]` gives
`[0,1,0,1,0,1,0,1]`. -/
theorem maybeDeduplicate_axis_order_witness :
    maybeDeduplicate.gates (blocked2x4 [1, 0]) args8 = .ok (some ([4, 2], [4, 1])) ∧
    maybeDeduplicate (blocked2x4 [1, 0]) args8 =
      .ok ([0, 0, 0, 0, 4, 4, 4, 4].map Value.arg) ∧
    maybeDeduplicate (blocked2x4 [0, 1]) args8 =
      .ok ([0, 1, 0, 1, 0, 1, 0, 1].map Value.arg) ∧
    ∃ out, maybeDeduplicate (blocked2x4 [1, 0]) args8 = .ok out ∧ out.length = 8 ∧
      ∀ i, i < 8 →
        out[i]? = args8[representative [4, 2] [4, 1] i]? ∧
        coords [4, 2] (representative [4, 2] [4, 1] i) =
          List.zipWith (fun d c => d / c * c) (coords [4, 2] i) [4, 1] := by
  refine ⟨by decide, by decide, by decide, ?_⟩
  obtain ⟨_, _, _, _, _, _, _, _, _, out, h1, h2, h3⟩ :=
    maybeDeduplicate_axis_order (blocked2x4 [1, 0]) args8 [4, 2] [4, 1] (by decide)
  exact ⟨out, h1, h2, h3⟩

theorem card_image_round (e c : Nat) (he : 1 ≤ e) (hc : 1 ≤ c) (hd : c ∣ e ∨ e ∣ c) :
    ((Finset.range e).image (fun d => d / c * c)).card = if c ≤ e then e / c else 1 := by
  by_cases hce : c ≤ e
  · rw [if_pos hce]
    have hdvd : c ∣ e := by
      rcases hd with h | h
      · exact h
      · have : e ≤ c := Nat.le_of_dvd (by omega) h
        have : e = c := by omega
        rw [this]
    have heq : (Finset.range e).image (fun d => d / c * c) =
        (Finset.range (e / c)).image (fun q => q * c) := by
      ext x
      simp only [Finset.mem_image, Finset.mem_range]
      constructor
      · rintro ⟨d, hd1, hd2⟩
        refine ⟨d / c, ?_, hd2⟩
        apply Nat.div_lt_of_lt_mul
        rw [Nat.mul_comm, Nat.div_mul_cancel hdvd]
        exact hd1
      · rintro ⟨q, hq1, hq2⟩
        refine ⟨q * c, ?_, ?_⟩
        · calc q * c < e / c * c := Nat.mul_lt_mul_of_pos_right hq1 (by omega)
            _ = e := Nat.div_mul_cancel hdvd
        · rw [Nat.mul_div_cancel _ (by omega)]
          exact hq2
    rw [heq, Finset.card_image_of_injective _ (fun a b hab =>
      Nat.eq_of_mul_eq_mul_right (by omega) hab), Finset.card_range]
  · rw [if_neg hce]
    have heq : (Finset.range e).image (fun d => d / c * c) = {0} := by
      ext x
      simp only [Finset.mem_image, Finset.mem_range, Finset.mem_singleton]
      constructor
      · rintro ⟨d, hd1, hd2⟩
        rw [Nat.div_eq_of_lt (by omega)] at hd2
        omega
      · intro hx
        exact ⟨0, by omega, by simp [hx]⟩
    rw [heq, Finset.card_singleton]

theorem image_representative_cons (e c : Nat) (es cn : List Nat) (he : 1 ≤ e) :
    (Finset.range (e * es.prod)).image (representative (e :: es) (c :: cn)) =
      (((Finset.range e).image (fun d => d / c * c)) ×ˢ
        ((Finset.range es.prod).image (representative es cn))).image
        (fun p => p.1 + e * p.2) := by
  ext x
  simp only [Finset.mem_image, Finset.mem_range, Finset.mem_product, representative,
    Prod.exists]
  constructor
  · rintro ⟨i, hi, hx⟩
    refine ⟨i % e / c * c, representative es cn (i / e),
      ⟨⟨i % e, Nat.mod_lt _ (by omega), rfl⟩, ⟨i / e, ?_, rfl⟩⟩, hx⟩
    apply Nat.div_lt_of_lt_mul
    exact hi
  · rintro ⟨a, b, ⟨⟨d, hd, ha⟩, ⟨j, hj, hb⟩⟩, hx⟩
    refine ⟨d + e * j, ?_, ?_⟩
    · calc d + e * j < e + e * j := by omega
        _ = e * (j + 1) := by ring
        _ ≤ e * es.prod := Nat.mul_le_mul_left e hj
    · rw [Nat.add_mul_mod_self_left, Nat.mod_eq_of_lt hd, Nat.add_mul_div_left _ _ (by omega),
        Nat.div_eq_of_lt hd, Nat.zero_add, ha, hb]
      exact hx

theorem card_image_representative : ∀ (es cn : List Nat),
    (∀ x ∈ es, 1 ≤ x) → (∀ x ∈ cn, 1 ≤ x) →
    List.Forall₂ (fun (e c : Nat) => c ∣ e ∨ e ∣ c) es cn →
    ((Finset.range es.prod).image (representative es cn)).card =
      (List.zipWith (fun e c => if c ≤ e then e / c else 1) es cn).prod := by
  intro es cn hes hcn hf
  induction hf with
  | nil =>
    simp only [List.prod_nil, List.zipWith_nil_left]
    have : (Finset.range 1).image (representative [] []) = {0} := by
      ext x
      simp [representative]
    rw [this, Finset.card_singleton]
  | @cons e c es cn hd _ ih =>
    have he : 1 ≤ e := hes e (List.mem_cons_self _ _)
    have hc : 1 ≤ c := hcn c (List.mem_cons_self _ _)
    rw [List.prod_cons, image_representative_cons e c es cn he,
      Finset.card_image_of_injOn, Finset.card_product, card_image_round e c he hc hd,
      ih (fun x hx => hes x (List.mem_cons_of_mem _ hx))
        (fun x hx => hcn x (List.mem_cons_of_mem _ hx)),
      List.zipWith_cons_cons, List.prod_cons]
    rintro ⟨a1, b1⟩ h1 ⟨a2, b2⟩ h2 heq
    simp only [Finset.coe_product, Finset.coe_image, Set.mem_prod, Set.mem_image,
      Finset.mem_coe, Finset.mem_range] at h1 h2
    obtain ⟨⟨d1, hd1, ha1⟩, _⟩ := h1
    obtain ⟨⟨d2, hd2, ha2⟩, _⟩ := h2
    simp only at heq
    have hlt1 : a1 < e := by
      rw [← ha1]; exact lt_of_le_of_lt (Nat.div_mul_le_self _ _) hd1
    have hlt2 : a2 < e := by
      rw [← ha2]; exact lt_of_le_of_lt (Nat.div_mul_le_self _ _) hd2
    have hm : (a1 + e * b1) % e = (a2 + e * b2) % e := by rw [heq]
    rw [Nat.add_mul_mod_self_left, Nat.add_mul_mod_self_left, Nat.mod_eq_of_lt hlt1,
      Nat.mod_eq_of_lt hlt2] at hm
    have hq : (a1 + e * b1) / e = (a2 + e * b2) / e := by rw [heq]
    rw [Nat.add_mul_div_left _ _ (by omega), Nat.add_mul_div_left _ _ (by omega),
      Nat.div_eq_of_lt hlt1, Nat.div_eq_of_lt hlt2, Nat.zero_add, Nat.zero_add] at hq
    rw [hm, hq]

theorem sourceIndices_eq (vals : List Value) (es : List Nat) (cs : List Int)
    (hl : es.length = cs.length) (hcs : ∀ x ∈ cs, 1 ≤ x) (hlt : vals.length < 2 ^ 32) :
    maybeDeduplicate.sourceIndices vals es cs =
      (List.range vals.length).map (representative es (cs.map Int.toNat)) := by
  unfold maybeDeduplicate.sourceIndices
  apply List.map_congr_left
  intro i hi
  have hi1 : i < vals.length := List.mem_range.mp hi
  have hcn : ∀ c ∈ cs.map Int.toNat, 1 ≤ c := by
    intro c hc
    obtain ⟨x, hx, hxc⟩ := List.mem_map.mp hc
    have := hcs x hx
    omega
  have := dedupIdx_eq es (cs.map Int.toNat) 1 1 i 0 (by simpa using hl) hcn
    (by norm_num) (by omega)
  rw [map_cast_toNat cs hcs] at this
  rw [this]
  simp

theorem forall₂_getElem? {α β : Type} {R : α → β → Prop} {l₁ : List α} {l₂ : List β}
    (h : List.Forall₂ R l₁ l₂) :
    ∀ (i : Nat) (x : α) (y : β), l₁[i]? = some x → l₂[i]? = some y → R x y := by
  induction h with
  | nil => intro i x y hx; simp at hx
  | cons hr _ ih =>
    intro i x y hx hy
    cases i with
    | zero =>
      simp only [List.getElem?_cons_zero, Option.some.injEq] at hx hy
      subst hx hy
      exact hr
    | succ i =>
      simp only [List.getElem?_cons_succ] at hx hy
      exact ih i x y hx hy

theorem applyPermutation_forall₂ {α β : Type} {R : α → β → Prop} (v₁ : List α)
    (v₂ : List β) (hR : List.Forall₂ R v₁ v₂) : ∀ (order : List Nat) (r₁ : List α)
    (r₂ : List β), applyPermutation v₁ order = .ok r₁ → applyPermutation v₂ order = .ok r₂ →
    List.Forall₂ R r₁ r₂ := by
  intro order
  induction order with
  | nil =>
    intro r₁ r₂ h1 h2
    simp only [applyPermutation, Run.ok.injEq] at h1 h2
    subst h1 h2
    exact List.Forall₂.nil
  | cons i rest ih =>
    intro r₁ r₂ h1 h2
    rw [applyPermutation] at h1 h2
    cases ha : applyPermutation v₁ rest with
    | ok ra =>
      cases hb : applyPermutation v₂ rest with
      | ok rb =>
        cases hx : v₁[i]? with
        | none => rw [hx, ha] at h1; cases h1
        | some x =>
          cases hy : v₂[i]? with
          | none => rw [hy, hb] at h2; cases h2
          | some y =>
            rw [hx, ha] at h1
            rw [hy, hb] at h2
            simp only [Run.ok.injEq] at h1 h2
            subst h1 h2
            exact List.Forall₂.cons (forall₂_getElem? hR i x y hx hy) (ih ra rb ha hb)
      | ub => cases hy : v₂[i]? <;> rw [hy, hb] at h2 <;> cases h2
      | timeout => cases hy : v₂[i]? <;> rw [hy, hb] at h2 <;> cases h2
    | ub => cases hx : v₁[i]? <;> rw [hx, ha] at h1 <;> cases h1
    | timeout => cases hx : v₁[i]? <;> rw [hx, ha] at h1 <;> cases h1

theorem permute_forall₂ {R : Nat → Int → Prop} (enc : Attribute) (e : List Nat)
    (ks : List Int) (es : List Nat) (cs : List Int)
    (h : maybeDeduplicate.permute enc e ks = .ok (some (es, cs)))
    (hR : List.Forall₂ R e ks) : List.Forall₂ R es cs := by
  unfold maybeDeduplicate.permute at h
  by_cases hr : e.length > 1
  · simp only [hr, if_true] at h
    by_cases ho : e.length ≠ (getOrder enc).length
    · rw [if_pos ho] at h; cases h
    rw [if_neg ho] at h
    cases h1 : applyPermutation e (getOrder enc) with
    | ok r1 =>
      cases h2 : applyPermutation ks (getOrder enc) with
      | ok r2 =>
        simp only [h1, h2, Run.ok.injEq, Option.some.injEq, Prod.mk.injEq] at h
        obtain ⟨ha, hb⟩ := h
        subst ha hb
        exact applyPermutation_forall₂ e ks hR _ _ _ h1 h2
      | ub => simp [h1, h2] at h
      | timeout => simp [h1, h2] at h
    | ub => simp [h1] at h
    | timeout => simp [h1] at h
  · simp only [hr, if_false, Run.ok.injEq, Option.some.injEq, Prod.mk.injEq] at h
    obtain ⟨ha, hb⟩ := h
    subst ha hb
    exact hR

theorem forall₂_dvd_toNat (es : List Nat) (cs : List Int)
    (hf : List.Forall₂ (fun (e : Nat) (k : Int) => k ∣ (e : Int) ∨ (e : Int) ∣ k) es cs)
    (hcs : ∀ x ∈ cs, 1 ≤ x) :
    List.Forall₂ (fun (e c : Nat) => c ∣ e ∨ e ∣ c) es (cs.map Int.toNat) := by
  induction hf with
  | nil => exact List.Forall₂.nil
  | @cons e c es cs hd _ ih =>
    have hc : 1 ≤ c := hcs c (List.mem_cons_self _ _)
    have hcc : ((c.toNat : Nat) : Int) = c := Int.toNat_of_nonneg (by omega)
    rw [List.map_cons]
    refine List.Forall₂.cons ?_ (ih (fun x hx => hcs x (List.mem_cons_of_mem _ hx)))
    rw [← hcc] at hd
    rcases hd with hd | hd
    · exact Or.inl (Int.natCast_dvd_natCast.mp hd)
    · exact Or.inr (Int.natCast_dvd_natCast.mp hd)

/-- When the gates pass, each dimension's elements-per-thread and clamped
constancy divide one another, also after the axis-order permutation. -/
theorem gates_dvd (op : SourceOp) (vals : List Value) (es : List Nat) (cs : List Int)
    (h : maybeDeduplicate.gates op vals = .ok (some (es, cs))) :
    List.Forall₂ (fun (e c : Nat) => c ∣ e ∨ e ∣ c) es (cs.map Int.toNat) := by
  obtain ⟨rt, enc, ai, c', _, _, _, _, _, _, hl1, hl2, hclamp, hperm⟩ :=
    (gates_some_iff op vals es cs).mp h
  obtain ⟨_, _, _, _, _, g6, _⟩ := clamp_facts _ _ _ _ _ _ hclamp hl1 hl2
  obtain ⟨_, _, hcs, _⟩ := gates_facts op vals es cs h
  exact forall₂_dvd_toNat es cs (permute_forall₂ enc _ c' es cs hperm g6) hcs

theorem product_eq (xs : List Nat) : product xs = xs.prod % 2 ^ 32 := by
  unfold product
  have : ∀ (l : List Nat) (a : Nat),
      l.foldl (fun acc x => acc * x % 2 ^ 32) a % 2 ^ 32 = a * l.prod % 2 ^ 32 := by
    intro l
    induction l with
    | nil => intro a; simp
    | cons x l ih =>
      intro a
      rw [List.foldl_cons, ih, List.prod_cons, Nat.mod_mul_mod, Nat.mul_assoc]
  have h1 := this xs 1
  rw [Nat.one_mul] at h1
  rw [← h1]
  exact (Nat.mod_eq_of_lt (product_lt xs)).symm

theorem applyPermutation_eq_filterMap {α : Type} (vec : List α) :
    ∀ (order : List Nat) (r : List α), applyPermutation vec order = .ok r →
      r = order.filterMap (fun (i : Nat) => vec[i]?) := by
  intro order
  induction order with
  | nil =>
    intro r hr
    simp only [applyPermutation, Run.ok.injEq] at hr
    subst hr
    rfl
  | cons i rest ih =>
    intro r hr
    rw [applyPermutation] at hr
    cases hrec : applyPermutation vec rest with
    | ok ret =>
      cases hv : vec[i]? with
      | none => rw [hv, hrec] at hr; cases hr
      | some x =>
        rw [hv, hrec] at hr
        simp only [Run.ok.injEq] at hr
        subst hr
        rw [List.filterMap_cons, hv, ← ih ret hrec]
    | ub => cases hv : vec[i]? <;> rw [hv, hrec] at hr <;> cases hr
    | timeout => cases hv : vec[i]? <;> rw [hv, hrec] at hr <;> cases hr

theorem filterMap_getElem?_range {α : Type} (l : List α) :
    (List.range l.length).filterMap (fun (i : Nat) => l[i]?) = l := by
  induction l using List.reverseRecOn with
  | nil => rfl
  | append_singleton l a ih =>
    rw [List.length_append, List.length_singleton, List.range_succ, List.filterMap_append]
    have h1 : (List.range l.length).filterMap (fun (i : Nat) => (l ++ [a])[i]?) =
        (List.range l.length).filterMap (fun (i : Nat) => l[i]?) := by
      apply List.filterMap_congr
      intro i hi
      rw [List.getElem?_append_left (List.mem_range.mp hi)]
    rw [h1, ih]
    simp

/-- With an axis order that is a permutation of the dimensions and an
elements-per-thread product below `2 ^ 32`, the gates pass only when the
product of the axis-ordered elements-per-thread is the number of values. -/
theorem gates_prod (op : SourceOp) (vals : List Value) (es : List Nat) (cs : List Int)
    (rt : RankedTensorType) (enc : Attribute)
    (hg : maybeDeduplicate.gates op vals = .ok (some (es, cs)))
    (hres : op.results = [.tensor rt]) (henc : rt.encoding = some enc)
    (hperm : 1 < (getElemsPerThread rt).length →
      (getOrder enc).Perm (List.range (getElemsPerThread rt).length))
    (hnowrap : (getElemsPerThread rt).prod < 2 ^ 32) :
    es.prod = vals.length := by
  obtain ⟨rt1, enc1, ai, c', _, hres1, henc1, _, hprod, _, _, _, _, hp⟩ :=
    (gates_some_iff op vals es cs).mp hg
  rw [hres] at hres1
  simp only [List.cons.injEq, MlirType.tensor.injEq, and_true] at hres1
  subst hres1
  rw [henc] at henc1
  simp only [Option.some.injEq] at henc1
  subst henc1
  rw [product_eq, Nat.mod_eq_of_lt hnowrap] at hprod
  rw [← hprod]
  unfold maybeDeduplicate.permute at hp
  by_cases hr : (getElemsPerThread rt).length > 1
  · simp only [hr, if_true] at hp
    by_cases ho : (getElemsPerThread rt).length ≠ (getOrder enc).length
    · rw [if_pos ho] at hp; cases hp
    rw [if_neg ho] at hp
    cases h1 : applyPermutation (getElemsPerThread rt) (getOrder enc) with
    | ok r1 =>
      cases h2 : applyPermutation c' (getOrder enc) with
      | ok r2 =>
        simp only [h1, h2, Run.ok.injEq, Option.some.injEq, Prod.mk.injEq] at hp
        obtain ⟨ha, _⟩ := hp
        subst ha
        rw [applyPermutation_eq_filterMap _ _ _ h1]
        apply List.Perm.prod_eq
        have := List.Perm.filterMap (fun (i : Nat) => (getElemsPerThread rt)[i]?) (hperm hr)
        rw [filterMap_getElem?_range] at this
        exact this
      | ub => simp [h1, h2] at hp
      | timeout => simp [h1, h2] at hp
    | ub => simp [h1] at hp
    | timeout => simp [h1] at hp
  · simp only [hr, if_false, Run.ok.injEq, Option.some.injEq, Prod.mk.injEq] at hp
    rw [hp.1]

/-- Claim C13 (number of values reused).  Let the gates of `maybeDeduplicate`
pass with axis-ordered elements-per-thread `es` and clamped constancy `cs`,
the axis order being a permutation of the dimensions and the product of the
elements-per-thread being below `2 ^ 32`.  Then `maybeDeduplicate` returns, its
output `i` is the input at the `i`-th source index, and the source indices
read have exactly as many distinct members as the product over the dimensions
of `e / c` when `c ≤ e` and of 1 otherwise. -/
theorem maybeDeduplicate_distinct_sources (op : SourceOp) (vals : List Value)
    (es : List Nat) (cs : List Int) (rt : RankedTensorType) (enc : Attribute)
    (hg : maybeDeduplicate.gates op vals = .ok (some (es, cs)))
    (hres : op.results = [.tensor rt]) (henc : rt.encoding = some enc)
    (hperm : 1 < (getElemsPerThread rt).length →
      (getOrder enc).Perm (List.range (getElemsPerThread rt).length))
    (hnowrap : (getElemsPerThread rt).prod < 2 ^ 32) :
    (∃ out, maybeDeduplicate op vals = .ok out ∧
      ∀ i, i < vals.length →
        ∃ r, (maybeDeduplicate.sourceIndices vals es cs)[i]? = some r ∧ out[i]? = vals[r]?) ∧
    (maybeDeduplicate.sourceIndices vals es cs).toFinset.card =
      (List.zipWith (fun e c => if c ≤ e then e / c else 1) es (cs.map Int.toNat)).prod := by
  obtain ⟨hl, hes, hcs, hlt⟩ := gates_facts op vals es cs hg
  have hsrc := sourceIndices_eq vals es cs hl hcs hlt
  have hcn : ∀ c ∈ cs.map Int.toNat, 1 ≤ c := by
    intro c hc
    obtain ⟨x, hx, hxc⟩ := List.mem_map.mp hc
    have := hcs x hx
    omega
  constructor
  · obtain ⟨out, hrun, _, hget⟩ := maybeDeduplicate_of_gates op vals es cs hg
    refine ⟨out, hrun, fun i hi => ⟨representative es (cs.map Int.toNat) i, ?_, (hget i hi).1⟩⟩
    rw [hsrc, List.getElem?_map, List.getElem?_range hi]
    rfl
  · have hprod := gates_prod op vals es cs rt enc hg hres henc hperm hnowrap
    have himg : (maybeDeduplicate.sourceIndices vals es cs).toFinset =
        (Finset.range es.prod).image (representative es (cs.map Int.toNat)) := by
      ext x
      rw [hsrc, hprod]
      simp only [List.mem_toFinset, List.mem_map, List.mem_range, Finset.mem_image,
        Finset.mem_range]
    rw [himg]
    exact card_image_representative es _ hes hcn (gates_dvd op vals es cs hg)

/-- Witness for claim C13: `e = [8]`, `c = [4]` reads the two input positions 0
and 4 across the 8 outputs; so does the rank-2 layout `e = [2, 4]`,
`c = [1, 4]` with order `[1, 0]`. -/
theorem maybeDeduplicate_distinct_sources_witness :
    maybeDeduplicate.sourceIndices args8 [8] [4] = [0, 0, 0, 0, 4, 4, 4, 4] ∧
    (maybeDeduplicate.sourceIndices args8 [8] [4]).toFinset.card = 2 ∧
    (maybeDeduplicate.sourceIndices args8 [4, 2] [4, 1]).toFinset.card = 2 :=
  ⟨by decide,
    (maybeDeduplicate_distinct_sources (blocked8 4 8) args8 [8] [4]
      ⟨⟨32⟩, some (.BlockedEncodingAttr [8] [0]), [8]⟩ (.BlockedEncodingAttr [8] [0])
      (by decide) rfl rfl (fun h => absurd h (by decide)) (by decide)).2,
    (maybeDeduplicate_distinct_sources (blocked2x4 [1, 0]) args8 [4, 2] [4, 1]
      ⟨⟨32⟩, some (.BlockedEncodingAttr [2, 4] [1, 0]), [2, 4]⟩
      (.BlockedEncodingAttr [2, 4] [1, 0])
      (by decide) rfl rfl (fun _ => by decide) (by decide)).2⟩

/-! ## Operand groups of `matchAndRewrite` -/

theorem pushEach_getElem? : ∀ (gs : List (List Value)) (s : List Value) (i : Nat)
    (g : List Value) (v : Value), gs[i]? = some g → s[i]? = some v →
    (matchAndRewrite.pushEach gs s)[i]? = some (g ++ [v]) := by
  intro gs
  induction gs with
  | nil => intro s i g v hg; simp at hg
  | cons g0 gs ih =>
    intro s i g v hg hv
    cases s with
    | nil => simp at hv
    | cons v0 s =>
      cases i with
      | zero =>
        simp only [List.getElem?_cons_zero, Option.some.injEq] at hg hv
        subst hg hv
        simp [matchAndRewrite.pushEach]
      | succ i =>
        simp only [List.getElem?_cons_succ] at hg hv
        simpa [matchAndRewrite.pushEach] using ih s i g v hg hv

theorem resize_getElem? (pre : List (List Value)) (all : List (List Value)) (n i : Nat)
    (hi : i < n) (h0 : pre = [] → all = [])
    (h1 : pre ≠ [] → all.length = n ∧
      ∀ j, j < n → all[j]? = some (pre.filterMap (fun (s : List Value) => s[j]?))) :
    (matchAndRewrite.resize all n)[i]? =
      some (pre.filterMap (fun (s : List Value) => s[i]?)) := by
  unfold matchAndRewrite.resize
  by_cases hp : pre = []
  · rw [h0 hp, hp]
    simp [hi]
  · obtain ⟨hl, hget⟩ := h1 hp
    rw [List.getElem?_append_left (by rw [List.length_take]; omega), List.getElem?_take,
      if_pos hi]
    exact hget i hi

theorem operandLoop_groups {σ : Type} (P : Pattern σ) (op : SourceOp) (argTy : MlirType)
    (v0 : Value) (n : Nat) (hhead : op.operands.head? = some (argTy, v0))
    (operands : List (MlirType × Value)) (subs : List (List Value))
    (hsub : List.Forall₂ (fun (operand : MlirType × Value) (s : List Value) =>
      unpackI32 (P.unpackLLElements operand.2) argTy P.typeConverter = .ok s ∧ s.length = n)
      operands subs) :
    ∀ (pre all : List (List Value)), (pre = [] → all = []) →
      (pre ≠ [] → all.length = n ∧
        ∀ j, j < n → all[j]? = some (pre.filterMap (fun (s : List Value) => s[j]?))) →
      ∃ gs, matchAndRewrite.operandLoop P op operands all = .ok gs ∧
        (pre ++ subs = [] → gs = []) ∧
        (pre ++ subs ≠ [] → gs.length = n ∧
          ∀ j, j < n →
            gs[j]? = some ((pre ++ subs).filterMap (fun (s : List Value) => s[j]?))) := by
  induction hsub with
  | nil =>
    intro pre all h0 h1
    refine ⟨all, rfl, ?_, ?_⟩
    · intro h; rw [List.append_nil] at h; exact h0 h
    · intro h; rw [List.append_nil] at h ⊢; exact h1 h
  | @cons operand s operands subs hs _ ih =>
    intro pre all h0 h1
    obtain ⟨hun, hlen⟩ := hs
    obtain ⟨gs, hrun, _, g1⟩ := ih (pre ++ [s])
      (matchAndRewrite.pushEach (matchAndRewrite.resize all s.length) s)
      (fun h => absurd h (by simp))
      (fun _ => ⟨by rw [length_pushEach, length_resize, hlen], fun j hj => by
        have hsj : s[j]? = some s[j] := List.getElem?_eq_getElem (by omega)
        rw [pushEach_getElem? _ s j _ _
          (by rw [hlen]; exact resize_getElem? pre all n j hj h0 h1) hsj,
          List.filterMap_append]
        simp [hsj]⟩)
    refine ⟨gs, ?_, fun h => absurd h (by simp), fun _ => ?_⟩
    · rw [matchAndRewrite.operandLoop, hhead]
      simp only []
      rw [hun]
      exact hrun
    · have := g1 (by simp)
      rw [List.append_assoc, List.singleton_append] at this
      exact this

theorem forall₂_right_length {α : Type} (R : α → List Value → Prop) (n : Nat) :
    ∀ (xs : List α) (subs : List (List Value)),
      List.Forall₂ (fun (x : α) (s : List Value) => R x s ∧ s.length = n) xs subs →
      ∀ s ∈ subs, s.length = n := by
  intro xs subs h
  induction h with
  | nil => intro s hs; simp at hs
  | cons hx _ ih =>
    intro s hs
    rcases List.mem_cons.mp hs with h | h
    · rw [h]; exact hx.2
    · exact ih s h

theorem length_filterMap_getElem? (i : Nat) : ∀ (subs : List (List Value)),
    (∀ s ∈ subs, i < s.length) →
    (subs.filterMap (fun (s : List Value) => s[i]?)).length = subs.length := by
  intro subs
  induction subs with
  | nil => intro _; rfl
  | cons s subs ih =>
    intro hall
    have hi : i < s.length := hall s (List.mem_cons_self _ _)
    have hs : s[i]? = some s[i] := List.getElem?_eq_getElem hi
    rw [List.filterMap_cons, hs]
    simp only [List.length_cons]
    rw [ih (fun x hx => hall x (List.mem_cons_of_mem _ hx))]

/-- Claim C14 (positional grouping), as amended.  For an operation with at
least one operand whose unpacked sequences `subs` (as `matchAndRewrite`
unpacks them) all have length `n ≥ 1`, `matchAndRewrite` builds exactly `n`
operand groups, and group `i` holds the `i`-th value of every sequence, in
operand order.  When `n = 0`, line 216 makes one empty group. -/
theorem matchAndRewrite_grouping {σ : Type} (P : Pattern σ) (op : SourceOp)
    (argTy : MlirType) (v0 : Value) (n : Nat) (subs : List (List Value))
    (hhead : op.operands.head? = some (argTy, v0))
    (hsub : List.Forall₂ (fun (operand : MlirType × Value) (s : List Value) =>
      unpackI32 (P.unpackLLElements operand.2) argTy P.typeConverter = .ok s ∧ s.length = n)
      op.operands subs) :
    ∃ gs, matchAndRewrite.groups P op = .ok gs ∧
      (1 ≤ n → gs.length = n ∧
        ∀ i, i < n →
          gs[i]? = some (subs.filterMap (fun (s : List Value) => s[i]?)) ∧
          (subs.filterMap (fun (s : List Value) => s[i]?)).length = op.operands.length) ∧
      (n = 0 → gs = [[]]) := by
  have hlen2 := List.Forall₂.length_eq hsub
  have hne : subs ≠ [] := by
    intro h
    rw [h, List.length_nil, List.length_eq_zero] at hlen2
    rw [hlen2] at hhead
    simp at hhead
  obtain ⟨all, hrun, _, h1⟩ := operandLoop_groups P op argTy v0 n hhead op.operands subs hsub
    [] [] (fun _ => rfl) (fun h => absurd rfl h)
  rw [List.nil_append] at h1
  obtain ⟨hlen, hget⟩ := h1 hne
  unfold matchAndRewrite.groups
  rw [hrun]
  simp only []
  by_cases h0 : all.length = 0
  · rw [if_pos h0]
    exact ⟨[[]], rfl, fun hn => by omega, fun _ => rfl⟩
  · rw [if_neg h0]
    refine ⟨all, rfl, fun hn => ⟨hlen, fun i hi => ⟨hget i hi, ?_⟩⟩, fun hn => by omega⟩
    rw [hlen2]
    exact length_filterMap_getElem? i subs (fun s hs => by
      rw [forall₂_right_length _ n _ _ hsub s hs]; exact hi)

/-- Witness for claim C14: two operands unpacking to two values each give the
two groups of their first and of their second values. -/
theorem matchAndRewrite_grouping_witness :
    ∃ gs, matchAndRewrite.groups (constPattern [.arg 100])
        { binaryOp with operands := [(blockedTy 32, .arg 1), (blockedTy 32, .arg 2)] } =
        .ok gs ∧
      gs = [[.arg 20, .arg 20], [.arg 21, .arg 21]] := by
  obtain ⟨gs, hrun, h1, _⟩ := matchAndRewrite_grouping (constPattern [.arg 100])
    { binaryOp with operands := [(blockedTy 32, .arg 1), (blockedTy 32, .arg 2)] }
    (blockedTy 32) (.arg 1) 2 [[.arg 20, .arg 21], [.arg 20, .arg 21]] rfl
    (List.Forall₂.cons ⟨by decide, rfl⟩ (List.Forall₂.cons ⟨by decide, rfl⟩ List.Forall₂.nil))
  refine ⟨gs, hrun, ?_⟩
  obtain ⟨hlen, hget⟩ := h1 (by decide)
  apply List.ext_getElem?
  intro i
  by_cases hi : i < 2
  · rw [(hget i hi).1]
    interval_cases i <;> rfl
  · rw [List.getElem?_eq_none (by omega), List.getElem?_eq_none (by simp; omega)]

/-- Counterexample to claim C14 as stated: the one operand unpacks to a
sequence of length 0, and `matchAndRewrite` builds one operand group, not
none. -/
theorem matchAndRewrite_grouping_counterexample :
    unpackI32 ((emptyStructPattern [.arg 100]).unpackLLElements (.arg 1)) (blockedTy 32)
        idConverter = .ok [] ∧
    matchAndRewrite.groups (emptyStructPattern [.arg 100]) unaryOp = .ok [[]] := by
  decide

theorem operandLoop_retype {σ : Type} (P : Pattern σ) (op op2 : SourceOp)
    (argTy : MlirType)
    (h1 : op.operands.head?.map Prod.fst = op2.operands.head?.map Prod.fst) :
    ∀ (operands : List (MlirType × Value)) (all : List (List Value)),
      matchAndRewrite.operandLoop P op operands all =
        matchAndRewrite.operandLoop P op2
          (operands.map fun operand => (argTy, operand.2)) all := by
  intro operands
  induction operands with
  | nil => intro all; rfl
  | cons operand rest ih =>
    intro all
    rw [List.map_cons, matchAndRewrite.operandLoop, matchAndRewrite.operandLoop]
    cases ha : op.operands.head? with
    | none =>
      rw [ha] at h1
      cases hb : op2.operands.head? with
      | none => rfl
      | some b => rw [hb] at h1; simp at h1
    | some a =>
      rw [ha] at h1
      cases hb : op2.operands.head? with
      | none => rw [hb] at h1; simp at h1
      | some b =>
        rw [hb] at h1
        simp only [Option.map_some', Option.some.injEq] at h1
        obtain ⟨ta, va⟩ := a
        obtain ⟨tb, vb⟩ := b
        simp only at h1
        subst h1
        simp only []
        cases unpackI32 (P.unpackLLElements operand.2) ta P.typeConverter with
        | ok subOperands => exact ih _
        | ub => rfl
        | timeout => rfl

theorem operandLoop_eq_foldl {σ : Type} (P : Pattern σ) (op : SourceOp) (argTy : MlirType)
    (v0 : Value) (hhead : op.operands.head? = some (argTy, v0))
    (operands : List (MlirType × Value)) (subs : List (List Value))
    (hsub : List.Forall₂ (fun (operand : MlirType × Value) (s : List Value) =>
      unpackI32 (P.unpackLLElements operand.2) argTy P.typeConverter = .ok s)
      operands subs) :
    ∀ (all : List (List Value)),
      matchAndRewrite.operandLoop P op operands all =
        .ok (subs.foldl (fun (all : List (List Value)) (s : List Value) =>
          matchAndRewrite.pushEach (matchAndRewrite.resize all s.length) s) all) := by
  induction hsub with
  | nil => intro all; rfl
  | @cons operand s operands subs hs _ ih =>
    intro all
    rw [matchAndRewrite.operandLoop, hhead]
    simp only []
    rw [hs, List.foldl_cons]
    exact ih _

theorem forall₂_map_self {α β : Type} (f : α → β) (R : α → β → Prop)
    (h : ∀ x, R x (f x)) : ∀ (l : List α), List.Forall₂ R l (l.map f) := by
  intro l
  induction l with
  | nil => exact List.Forall₂.nil
  | cons x l ih => exact List.Forall₂.cons (h x) ih

/-- Claim C15 (per-operand unpacking), as amended.  In `matchAndRewrite` the
lowered values of every operand are unpacked by `unpackI32` according to the
source type of operand 0 (line 208), whatever the operand's own type: the
operand groups are those of the op in which every operand has the type of
operand 0.  When the type of operand 0 does not meet the sub-element
condition every operand is passed through unchanged, and when it meets it
every operand is expanded to `32 / w` values per lane value. -/
theorem matchAndRewrite_unpacks_by_first_operand {σ : Type} (P : Pattern σ) (op : SourceOp)
    (argTy : MlirType) (v0 : Value) (hhead : op.operands.head? = some (argTy, v0)) :
    matchAndRewrite.groups P op = matchAndRewrite.groups P (retypeOperands op argTy) ∧
    (∀ subs, List.Forall₂ (fun (operand : MlirType × Value) (s : List Value) =>
        unpackI32 (P.unpackLLElements operand.2) argTy P.typeConverter = .ok s)
        op.operands subs →
      matchAndRewrite.operandLoop P op op.operands [] =
        .ok (subs.foldl (fun (all : List (List Value)) (s : List Value) =>
          matchAndRewrite.pushEach (matchAndRewrite.resize all s.length) s) [])) ∧
    (passesThrough argTy = true →
      matchAndRewrite.operandLoop P op op.operands [] =
        .ok ((op.operands.map fun operand => P.unpackLLElements operand.2).foldl
          (fun (all : List (List Value)) (s : List Value) =>
            matchAndRewrite.pushEach (matchAndRewrite.resize all s.length) s) [])) ∧
    (∀ rt, subElementTensor argTy = some rt →
      (P.typeConverter.convertType rt.elementType).bitWidth ≠ 0 →
      matchAndRewrite.operandLoop P op op.operands [] =
        .ok ((op.operands.map fun operand =>
          (P.unpackLLElements operand.2).flatMap fun v =>
            (List.range (32 / (P.typeConverter.convertType rt.elementType).bitWidth)).map
              fun j => Value.extract_element
                (Value.bitcast v (vec_ty (P.typeConverter.convertType rt.elementType)
                  (32 / (P.typeConverter.convertType rt.elementType).bitWidth)))
                (Value.i32_val j)).foldl
          (fun (all : List (List Value)) (s : List Value) =>
            matchAndRewrite.pushEach (matchAndRewrite.resize all s.length) s) [])) := by
  refine ⟨?_, fun subs hsub => operandLoop_eq_foldl P op argTy v0 hhead _ subs hsub [],
    fun hpass => ?_, fun rt hrt hw => ?_⟩
  · unfold matchAndRewrite.groups
    rw [operandLoop_retype P op (retypeOperands op argTy) argTy (by
      cases hops : op.operands with
      | nil => rw [hops] at hhead; simp at hhead
      | cons a rest =>
        rw [hops] at hhead
        simp only [List.head?_cons, Option.some.injEq] at hhead
        simp [retypeOperands, hops, hhead]) op.operands []]
    rfl
  · exact operandLoop_eq_foldl P op argTy v0 hhead _ _
      (forall₂_map_self (fun (operand : MlirType × Value) => P.unpackLLElements operand.2)
        (fun (operand : MlirType × Value) (s : List Value) =>
          unpackI32 (P.unpackLLElements operand.2) argTy P.typeConverter = .ok s)
        (fun operand =>
          unpackI32_passthrough (P.unpackLLElements operand.2) argTy P.typeConverter hpass)
        op.operands) []
  · refine operandLoop_eq_foldl P op argTy v0 hhead _ _
      (forall₂_map_self
        (fun (operand : MlirType × Value) =>
          (P.unpackLLElements operand.2).flatMap fun v =>
            (List.range (32 / (P.typeConverter.convertType rt.elementType).bitWidth)).map
              fun j => Value.extract_element
                (Value.bitcast v (vec_ty (P.typeConverter.convertType rt.elementType)
                  (32 / (P.typeConverter.convertType rt.elementType).bitWidth)))
                (Value.i32_val j))
        (fun (operand : MlirType × Value) (s : List Value) =>
          unpackI32 (P.unpackLLElements operand.2) argTy P.typeConverter = .ok s)
        (fun operand => ?_) op.operands) []
    obtain ⟨hT, enc, henc, hdot⟩ := subElementTensor_some hrt
    subst hT
    have e : unpackI32 (P.unpackLLElements operand.2) (.tensor rt) P.typeConverter =
        unpackI32.loop P.typeConverter rt.elementType (P.unpackLLElements operand.2) [] := by
      simp [unpackI32, henc, hdot]
    rw [e, unpackI32_loop_eq P.typeConverter rt.elementType hw, List.nil_append]

/-- Witness for claim C15: both operands of an op whose first operand has a
blocked type are passed through, and both operands of an op whose first
operand has a dot-operand type with 16-bit elements are expanded. -/
theorem matchAndRewrite_unpacks_by_first_operand_witness :
    matchAndRewrite.operandLoop (constPattern [.arg 100]) blockedThenDotOp
        blockedThenDotOp.operands [] = .ok [[.arg 20, .arg 10]] ∧
    matchAndRewrite.operandLoop (constPattern [.arg 100]) dotThenBlockedOp
        dotThenBlockedOp.operands [] =
      .ok [[.extract_element (.bitcast (.arg 10) (vec_ty ⟨16⟩ 2)) (.i32_val 0),
            .extract_element (.bitcast (.arg 20) (vec_ty ⟨16⟩ 2)) (.i32_val 0)],
           [.extract_element (.bitcast (.arg 10) (vec_ty ⟨16⟩ 2)) (.i32_val 1),
            .extract_element (.bitcast (.arg 20) (vec_ty ⟨16⟩ 2)) (.i32_val 1)],
           [.extract_element (.bitcast (.arg 21) (vec_ty ⟨16⟩ 2)) (.i32_val 0)],
           [.extract_element (.bitcast (.arg 21) (vec_ty ⟨16⟩ 2)) (.i32_val 1)]] :=
  ⟨((matchAndRewrite_unpacks_by_first_operand (constPattern [.arg 100]) blockedThenDotOp
      (blockedTy 16) (.arg 1) rfl).2.2.1 rfl).trans (by decide),
    ((matchAndRewrite_unpacks_by_first_operand (constPattern [.arg 100]) dotThenBlockedOp
      (dotOpMmaTy 16) (.arg 0) rfl).2.2.2
      ⟨⟨16⟩, some (.DotOperandEncodingAttr .NvidiaMmaEncodingAttr), []⟩ rfl
      (by decide)).trans (by decide)⟩

/-- Counterexample to claim C15 as stated.  Unpacked by its own type each
operand holds two elements: the dot-operand one, lowered to one lane value,
is expanded to two, and the blocked one, lowered to two values, is passed
through.  `matchAndRewrite` expands the blocked operand to four values when
the dot-operand one comes first, and passes the dot-operand one through as
one value when the blocked one comes first. -/
theorem matchAndRewrite_unpacks_by_first_operand_counterexample :
    unpackI32 ((constPattern [.arg 100]).unpackLLElements (.arg 0)) (dotOpMmaTy 16)
        idConverter =
      .ok [.extract_element (.bitcast (.arg 10) (vec_ty ⟨16⟩ 2)) (.i32_val 0),
           .extract_element (.bitcast (.arg 10) (vec_ty ⟨16⟩ 2)) (.i32_val 1)] ∧
    passesThrough (blockedTy 16) = true ∧
    unpackI32 ((constPattern [.arg 100]).unpackLLElements (.arg 1)) (blockedTy 16)
        idConverter = .ok [.arg 20, .arg 21] ∧
    matchAndRewrite.groups (constPattern [.arg 100]) dotThenBlockedOp =
      .ok [[.extract_element (.bitcast (.arg 10) (vec_ty ⟨16⟩ 2)) (.i32_val 0),
            .extract_element (.bitcast (.arg 20) (vec_ty ⟨16⟩ 2)) (.i32_val 0)],
           [.extract_element (.bitcast (.arg 10) (vec_ty ⟨16⟩ 2)) (.i32_val 1),
            .extract_element (.bitcast (.arg 20) (vec_ty ⟨16⟩ 2)) (.i32_val 1)],
           [.extract_element (.bitcast (.arg 21) (vec_ty ⟨16⟩ 2)) (.i32_val 0)],
           [.extract_element (.bitcast (.arg 21) (vec_ty ⟨16⟩ 2)) (.i32_val 1)]] ∧
    matchAndRewrite.groups (constPattern [.arg 100]) blockedThenDotOp =
      .ok [[.arg 20, .arg 10]] := by
  decide

/-! ## The window handed to `createDestOps` -/

theorem calls_cons {σ : Type} (P : Pattern σ) (fuel : Nat) (st : σ) (g : List Value)
    (gs : List (List Value)) :
    ∃ rest, matchAndRewrite.calls P (fuel + 1) st (g :: gs) =
        (g :: gs, (P.createDestOps st (g :: gs)).1) :: rest ∧
      (rest = [] ∨
        rest = matchAndRewrite.calls P fuel (P.createDestOps st (g :: gs)).2
          ((g :: gs).drop (P.createDestOps st (g :: gs)).1.length)) := by
  rw [matchAndRewrite.calls]
  generalize (P.createDestOps st (g :: gs)).1 = curr
  by_cases h0 : curr.length = 0
  · exact ⟨[], by rw [if_pos h0], Or.inl rfl⟩
  by_cases h1 : curr.any (fun v => !v.toBool) = true
  · exact ⟨[], by rw [if_neg h0, if_pos h1], Or.inl rfl⟩
  by_cases h2 : (g :: gs).length < curr.length
  · exact ⟨[], by rw [if_neg h0, if_neg h1, if_pos h2], Or.inl rfl⟩
  · exact ⟨_, by rw [if_neg h0, if_neg h1, if_neg h2], Or.inr rfl⟩

theorem calls_window {σ : Type} (P : Pattern σ) : ∀ (fuel : Nat) (st : σ)
    (w : List (List Value)) (m : Nat) (w1 : List (List Value)) (r1 : List Value),
    (matchAndRewrite.calls P fuel st w)[m]? = some (w1, r1) →
    w1 = w.drop (((matchAndRewrite.calls P fuel st w).take m).flatMap Prod.snd).length := by
  intro fuel
  induction fuel with
  | zero =>
    intro st w m w1 r1 h
    cases w <;> simp [matchAndRewrite.calls] at h
  | succ fuel ih =>
    intro st w m w1 r1 h
    cases w with
    | nil => simp [matchAndRewrite.calls] at h
    | cons g gs =>
      obtain ⟨rest, hc, hrest⟩ := calls_cons P fuel st g gs
      rw [hc] at h ⊢
      cases m with
      | zero =>
        simp only [List.getElem?_cons_zero, Option.some.injEq, Prod.mk.injEq] at h
        rw [← h.1]
        simp
      | succ m =>
        rw [List.getElem?_cons_succ] at h
        rcases hrest with hnil | hrec
        · rw [hnil] at h; simp at h
        · rw [hrec] at h
          have e1 := ih _ _ m w1 r1 h
          rw [← hrec] at e1
          rw [e1, List.drop_drop, List.take_succ_cons, List.flatMap_cons, List.length_append]

theorem calls_cons_good {σ : Type} (P : Pattern σ) (fuel : Nat) (st : σ) (g : List Value)
    (gs : List (List Value)) (hne : (P.createDestOps st (g :: gs)).1 ≠ [])
    (hnull : Value.null ∉ (P.createDestOps st (g :: gs)).1)
    (hle : (P.createDestOps st (g :: gs)).1.length ≤ (g :: gs).length) :
    matchAndRewrite.calls P (fuel + 1) st (g :: gs) =
      (g :: gs, (P.createDestOps st (g :: gs)).1) ::
        matchAndRewrite.calls P fuel (P.createDestOps st (g :: gs)).2
          ((g :: gs).drop (P.createDestOps st (g :: gs)).1.length) := by
  rw [matchAndRewrite.calls]
  rw [if_neg (fun h => hne (List.length_eq_zero.mp h)),
    if_neg (fun h => hnull ((any_not_toBool _).mp h)), if_neg (by omega)]

theorem calls_total_length {σ : Type} (P : Pattern σ) : ∀ (fuel : Nat) (st : σ)
    (w : List (List Value)), w.length ≤ fuel →
    (∀ call ∈ matchAndRewrite.calls P fuel st w,
      call.2 ≠ [] ∧ Value.null ∉ call.2 ∧ call.2.length ≤ call.1.length) →
    ((matchAndRewrite.calls P fuel st w).flatMap Prod.snd).length = w.length := by
  intro fuel
  induction fuel with
  | zero =>
    intro st w hw _
    have : w = [] := List.length_eq_zero.mp (by omega)
    subst this
    simp [matchAndRewrite.calls]
  | succ fuel ih =>
    intro st w hw h
    cases w with
    | nil => simp [matchAndRewrite.calls]
    | cons g gs =>
      obtain ⟨rest, hc, _⟩ := calls_cons P fuel st g gs
      obtain ⟨hne, hnull, hle⟩ := h _ (by rw [hc]; exact List.mem_cons_self _ _)
      have hle2 : (P.createDestOps st (g :: gs)).1.length ≤ gs.length + 1 := hle
      have hpos : 0 < (P.createDestOps st (g :: gs)).1.length := List.length_pos.mpr hne
      have hgood := calls_cons_good P fuel st g gs hne hnull hle
      rw [hgood] at h ⊢
      clear hle
      have hw2 : gs.length + 1 ≤ fuel + 1 := hw
      have hrec2 := ih (P.createDestOps st (g :: gs)).2
        ((g :: gs).drop (P.createDestOps st (g :: gs)).1.length)
        (by rw [List.length_drop, List.length_cons]; omega)
        (fun call hcall => h call (List.mem_cons_of_mem _ hcall))
      rw [List.flatMap_cons, List.length_append, hrec2, List.length_drop, List.length_cons]
      show (P.createDestOps st (g :: gs)).1.length +
        (gs.length + 1 - (P.createDestOps st (g :: gs)).1.length) = gs.length + 1
      omega

theorem groups_ne_nil {σ : Type} (P : Pattern σ) (op : SourceOp) (groups : List (List Value))
    (hg : matchAndRewrite.groups P op = .ok groups) : groups ≠ [] := by
  unfold matchAndRewrite.groups at hg
  cases hrun : matchAndRewrite.operandLoop P op op.operands [] with
  | ok all =>
    rw [hrun] at hg
    simp only [] at hg
    by_cases h0 : all.length = 0
    · rw [if_pos h0] at hg
      cases hg
      simp
    · rw [if_neg h0] at hg
      cases hg
      exact fun h => h0 (by rw [h]; rfl)
  | ub => rw [hrun] at hg; cases hg
  | timeout => rw [hrun] at hg; cases hg

/-- Claim C16 (forward-advancing window).  The first invocation of
`createDestOps` gets the full list of operand groups, and every invocation
gets the suffix of that list past as many groups as the invocations before it
returned results.  If every invocation returns at least one and at most as
many results as groups remain, none of them null, the loop terminates with
the concatenation of the results in call order, whose length is the number
of operand groups. -/
theorem matchAndRewrite_forward_window {σ : Type} (P : Pattern σ) (op : SourceOp) (st : σ)
    (groups : List (List Value)) (hg : matchAndRewrite.groups P op = .ok groups) :
    (∃ rest, matchAndRewrite.trace P op st =
      (groups, (P.createDestOps st groups).1) :: rest) ∧
    (∀ m w r, (matchAndRewrite.trace P op st)[m]? = some (w, r) →
      w = groups.drop
        (((matchAndRewrite.trace P op st).take m).flatMap Prod.snd).length) ∧
    ((∀ call ∈ matchAndRewrite.trace P op st,
        1 ≤ call.2.length ∧ call.2.length ≤ call.1.length ∧ Value.null ∉ call.2) →
      matchAndRewrite.destLoop P groups.length st groups [] =
        .ok (some ((matchAndRewrite.trace P op st).flatMap Prod.snd)) ∧
      ((matchAndRewrite.trace P op st).flatMap Prod.snd).length = groups.length ∧
      matchAndRewrite P op st =
        matchAndRewrite.finish P op (op.results.headD .null)
          ((matchAndRewrite.trace P op st).flatMap Prod.snd)) := by
  have htrace : matchAndRewrite.trace P op st =
      matchAndRewrite.calls P groups.length st groups := by
    unfold matchAndRewrite.trace
    rw [hg]
  refine ⟨?_, ?_, ?_⟩
  · rw [htrace]
    have hne := groups_ne_nil P op groups hg
    cases hgs : groups with
    | nil => exact absurd hgs hne
    | cons g gs =>
      obtain ⟨rest, hc, _⟩ := calls_cons P gs.length st g gs
      exact ⟨rest, hc⟩
  · intro m w r h
    rw [htrace] at h ⊢
    exact calls_window P groups.length st groups m w r h
  · intro h
    have h2 : ∀ call ∈ matchAndRewrite.trace P op st,
        call.2 ≠ [] ∧ Value.null ∉ call.2 ∧ call.2.length ≤ call.1.length :=
      fun call hc => ⟨fun hnil => by have := (h call hc).1; rw [hnil] at this; simp at this,
        (h call hc).2.2, (h call hc).2.1⟩
    refine ⟨?_, ?_, matchAndRewrite_eq_finish P op st groups hg h2⟩
    · rw [htrace] at h2 ⊢
      have := (destLoop_calls P groups.length st groups [] (Nat.le_refl _)).2 h2
      rw [this, List.nil_append]
    · rw [htrace] at h2 ⊢
      exact calls_total_length P groups.length st groups (Nat.le_refl _) h2

/-- Witness for claim C16: with two operand groups and a transformation that
returns one result per invocation, `createDestOps` is invoked on both groups
and then on the second alone, and the two results are collected. -/
theorem matchAndRewrite_forward_window_witness :
    matchAndRewrite.groups (constPattern [.arg 100]) unaryOp = .ok [[.arg 20], [.arg 21]] ∧
    matchAndRewrite.trace (constPattern [.arg 100]) unaryOp () =
      [([[.arg 20], [.arg 21]], [.arg 100]), ([[.arg 21]], [.arg 100])] ∧
    matchAndRewrite.destLoop (constPattern [.arg 100]) 2 () [[.arg 20], [.arg 21]] [] =
      .ok (some [.arg 100, .arg 100]) :=
  ⟨by decide, by decide,
    ((matchAndRewrite_forward_window (constPattern [.arg 100]) unaryOp ()
      [[.arg 20], [.arg 21]] (by decide)).2.2 (by decide)).1.trans (by decide)⟩

/-! ## Totality and idempotence of `maybeDeduplicate` -/

theorem applyPermutation_ok {α : Type} (vec : List α) : ∀ (order : List Nat),
    (∀ i ∈ order, i < vec.length) → ∃ r, applyPermutation vec order = .ok r := by
  intro order
  induction order with
  | nil => intro _; exact ⟨[], rfl⟩
  | cons i rest ih =>
    intro h
    obtain ⟨r, hr⟩ := ih (fun j hj => h j (List.mem_cons_of_mem _ hj))
    have hi : i < vec.length := h i (List.mem_cons_self _ _)
    refine ⟨vec[i] :: r, ?_⟩
    rw [applyPermutation, hr, List.getElem?_eq_getElem hi]

theorem permute_ok (enc : Attribute) (e : List Nat) (c : List Int)
    (hl : e.length = c.length)
    (hperm : 1 < e.length → ∀ i ∈ getOrder enc, i < e.length) :
    maybeDeduplicate.permute enc e c = .ok none ∨
      ∃ es cs, maybeDeduplicate.permute enc e c = .ok (some (es, cs)) := by
  unfold maybeDeduplicate.permute
  simp only []
  by_cases hr : e.length > 1
  · rw [if_pos hr]
    by_cases ho : e.length ≠ (getOrder enc).length
    · rw [if_pos ho]
      exact Or.inl rfl
    · rw [if_neg ho]
      obtain ⟨es, hes⟩ := applyPermutation_ok e (getOrder enc) (hperm hr)
      obtain ⟨cs, hcs⟩ := applyPermutation_ok c (getOrder enc)
        (fun i hi => by rw [← hl]; exact hperm hr i hi)
      rw [hes, hcs]
      exact Or.inr ⟨es, cs, rfl⟩
  · rw [if_neg hr]
    exact Or.inr ⟨e, c, rfl⟩

theorem gates_total (op : SourceOp) (vals : List Value)
    (hsize : ∀ rt enc, op.results.head? = some (.tensor rt) → rt.encoding = some enc →
      ∀ s ∈ getSizePerThread enc, s ≠ 0)
    (hperm : ∀ rt enc, op.results.head? = some (.tensor rt) → rt.encoding = some enc →
      1 < (getElemsPerThread rt).length →
      (getOrder enc).Perm (List.range (getElemsPerThread rt).length)) :
    maybeDeduplicate.gates op vals = .ok none ∨
      ∃ es cs, maybeDeduplicate.gates op vals = .ok (some (es, cs)) := by
  rcases gates_eq op vals with h | ⟨rt, enc, ai, _, hres, henc, _, _, _, hls, hlc, hg⟩
  · exact Or.inl h
  · have hhead : op.results.head? = some (.tensor rt) := by rw [hres]; rfl
    rw [hg]
    rcases clamp_no_fault (getElemsPerThread rt) (getSizePerThread enc) ai.constancy false
      (hsize rt enc hhead henc) with hc | ⟨c', h', hc⟩
    · rw [hc]
      exact Or.inl rfl
    · rw [hc]
      simp only []
      cases h' with
      | false => exact Or.inl rfl
      | true =>
        obtain ⟨hl', _⟩ := clamp_facts _ _ _ _ _ _ hc hls hlc
        exact permute_ok enc (getElemsPerThread rt) c' hl'.symm (fun hr i hi => by
          have := (hperm rt enc hhead henc hr).mem_iff.mp hi
          exact List.mem_range.mp this)

/-- Claim C17 (total and soft).  For every op, analysis result and input
sequence `vals`, with the axis order a permutation of the dimensions and no
size-per-thread entry 0, `maybeDeduplicate` returns a sequence `out` of the
length of `vals`, and every `out[i]` is `vals[r i]` for an index
`r i ≤ i < |vals|`: no read is out of bounds and nothing fails. -/
theorem maybeDeduplicate_total_soft (op : SourceOp) (vals : List Value)
    (hsize : ∀ rt enc, op.results.head? = some (.tensor rt) → rt.encoding = some enc →
      ∀ s ∈ getSizePerThread enc, s ≠ 0)
    (hperm : ∀ rt enc, op.results.head? = some (.tensor rt) → rt.encoding = some enc →
      1 < (getElemsPerThread rt).length →
      (getOrder enc).Perm (List.range (getElemsPerThread rt).length)) :
    ∃ (out : List Value) (r : Nat → Nat), maybeDeduplicate op vals = .ok out ∧
      out.length = vals.length ∧
      ∀ i, i < vals.length → r i ≤ i ∧ r i < vals.length ∧ out[i]? = vals[r i]? := by
  rcases gates_total op vals hsize hperm with h | ⟨es, cs, h⟩
  · exact ⟨vals, id, maybeDeduplicate_of_gates_none op vals h, rfl,
      fun i hi => ⟨Nat.le_refl _, hi, rfl⟩⟩
  · obtain ⟨out, hrun, hlen, hget⟩ := maybeDeduplicate_of_gates op vals es cs h
    exact ⟨out, representative es (cs.map Int.toNat), hrun, hlen,
      fun i hi => ⟨(hget i hi).2, Nat.lt_of_le_of_lt (hget i hi).2 hi, (hget i hi).1⟩⟩

/-- Witness for claim C17: the rank-2 op with axis order `[1, 0]` and eight
values. -/
theorem maybeDeduplicate_total_soft_witness :
    ∃ (out : List Value) (r : Nat → Nat),
      maybeDeduplicate (blocked2x4 [1, 0]) args8 = .ok out ∧
      out.length = args8.length ∧
      ∀ i, i < args8.length → r i ≤ i ∧ r i < args8.length ∧ out[i]? = args8[r i]? :=
  maybeDeduplicate_total_soft (blocked2x4 [1, 0]) args8
    (fun rt enc h1 h2 => by
      cases h1
      cases h2
      decide)
    (fun rt enc h1 h2 _ => by
      cases h1
      cases h2
      decide)

theorem representative_idem : ∀ (es cn : List Nat) (i : Nat),
    representative es cn (representative es cn i) = representative es cn i := by
  intro es
  induction es with
  | nil => intro cn i; simp [representative]
  | cons e es ih =>
    intro cn i
    cases cn with
    | nil => simp [representative]
    | cons c cn =>
      simp only [representative]
      have ihR := ih cn (i / e)
      generalize representative es cn (i / e) = R at ihR ⊢
      have hq : i % e / c * c / c * c = i % e / c * c := by
        rcases Nat.eq_zero_or_pos c with hc | hc
        · subst hc; simp
        · rw [Nat.mul_div_cancel _ hc]
      rcases Nat.eq_zero_or_pos e with he | he
      · subst he
        simp only [Nat.mod_zero, Nat.zero_mul, Nat.add_zero, Nat.div_zero] at hq ⊢
        exact hq
      · have ha : i % e / c * c < e :=
          Nat.lt_of_le_of_lt (Nat.div_mul_le_self _ _) (Nat.mod_lt _ he)
        rw [Nat.add_mul_mod_self_left, Nat.mod_eq_of_lt ha, Nat.add_mul_div_left _ _ he,
          Nat.div_eq_of_lt ha, Nat.zero_add, ihR, hq]

theorem gates_congr_length (op : SourceOp) (vals vals2 : List Value)
    (h : vals2.length = vals.length) :
    maybeDeduplicate.gates op vals2 = maybeDeduplicate.gates op vals := by
  unfold maybeDeduplicate.gates
  rw [h]

theorem maybeDeduplicate_twice (op : SourceOp) (vals out : List Value)
    (hrun : maybeDeduplicate op vals = .ok out) : maybeDeduplicate op out = .ok out := by
  cases hg : maybeDeduplicate.gates op vals with
  | ok o =>
    cases o with
    | none =>
      have := maybeDeduplicate_of_gates_none op vals hg
      rw [hrun] at this
      cases this
      exact hrun
    | some p =>
      obtain ⟨es, cs⟩ := p
      obtain ⟨out1, hrun1, hlen1, hget1⟩ := maybeDeduplicate_of_gates op vals es cs hg
      rw [hrun] at hrun1
      cases hrun1
      obtain ⟨out2, hrun2, hlen2, hget2⟩ := maybeDeduplicate_of_gates op out es cs
        ((gates_congr_length op vals out hlen1).trans hg)
      rw [hrun2]
      congr 1
      apply List.ext_getElem?
      intro i
      by_cases hi : i < vals.length
      · have hr := (hget1 i hi).2
        rw [(hget2 i (by omega)).1,
          (hget1 _ (Nat.lt_of_le_of_lt hr hi)).1, representative_idem, (hget1 i hi).1]
      · rw [List.getElem?_eq_none (by omega), List.getElem?_eq_none (by omega)]
  | ub =>
    unfold maybeDeduplicate at hrun
    rw [hg] at hrun
    cases hrun
  | timeout =>
    unfold maybeDeduplicate at hrun
    rw [hg] at hrun
    cases hrun

/-- Claim C18 (idempotence).  For every op and input sequence, what
`maybeDeduplicate` returns is returned unchanged by a second application, and
the representative-index map satisfies `r (r i) = r i`.  With the axis order a
permutation of the dimensions and no size-per-thread entry 0, both
applications return. -/
theorem maybeDeduplicate_idempotent (op : SourceOp) (vals : List Value) :
    (∀ out, maybeDeduplicate op vals = .ok out → maybeDeduplicate op out = .ok out) ∧
    (∀ (es cn : List Nat) (i : Nat),
      representative es cn (representative es cn i) = representative es cn i) ∧
    ((∀ rt enc, op.results.head? = some (.tensor rt) → rt.encoding = some enc →
        ∀ s ∈ getSizePerThread enc, s ≠ 0) →
      (∀ rt enc, op.results.head? = some (.tensor rt) → rt.encoding = some enc →
        1 < (getElemsPerThread rt).length →
        (getOrder enc).Perm (List.range (getElemsPerThread rt).length)) →
      ∃ out, maybeDeduplicate op vals = .ok out ∧ maybeDeduplicate op out = .ok out) := by
  refine ⟨fun out h => maybeDeduplicate_twice op vals out h, representative_idem, ?_⟩
  intro hsize hperm
  rcases gates_total op vals hsize hperm with h | ⟨es, cs, h⟩
  · exact ⟨vals, maybeDeduplicate_of_gates_none op vals h,
      maybeDeduplicate_of_gates_none op vals h⟩
  · obtain ⟨out, hrun, _, _⟩ := maybeDeduplicate_of_gates op vals es cs h
    exact ⟨out, hrun, maybeDeduplicate_twice op vals out hrun⟩

/-- Witness for claim C18: eight values with constancy 4 are deduplicated to
`arg 0` and `arg 4`, four times each, and a second application returns the
same sequence. -/
theorem maybeDeduplicate_idempotent_witness :
    maybeDeduplicate (blocked8 4 8) args8 =
      .ok [.arg 0, .arg 0, .arg 0, .arg 0, .arg 4, .arg 4, .arg 4, .arg 4] ∧
    maybeDeduplicate (blocked8 4 8)
        [.arg 0, .arg 0, .arg 0, .arg 0, .arg 4, .arg 4, .arg 4, .arg 4] =
      .ok [.arg 0, .arg 0, .arg 0, .arg 0, .arg 4, .arg 4, .arg 4, .arg 4] :=
  ⟨by decide, (maybeDeduplicate_idempotent (blocked8 4 8) args8).1 _ (by decide)⟩

/-! ## Operations without operands -/

theorem groups_of_no_operands {σ : Type} (P : Pattern σ) (op : SourceOp)
    (hops : op.operands = []) : matchAndRewrite.groups P op = .ok [[]] := by
  unfold matchAndRewrite.groups
  rw [hops]
  rfl

theorem reorder_of_no_operands {σ : Type} (P : Pattern σ) (op : SourceOp)
    (hops : op.operands = []) (resultTy : MlirType) (resultVals : List Value) :
    matchAndRewrite.reorder P op resultTy resultVals = resultVals := by
  unfold matchAndRewrite.reorder
  rw [hops]
  rfl

/-- Claim C19 (zero-operand operations).  For an op without operands,
`createDestOps` is presented with exactly one operand group, the empty one,
and `reorderValues` is not applied.  If that invocation returns one non-null
result `v`, it is the only invocation, and `maybeDeduplicate` is handed
exactly `[v]`. -/
theorem matchAndRewrite_zero_operands {σ : Type} (P : Pattern σ) (op : SourceOp) (st : σ)
    (hops : op.operands = []) :
    matchAndRewrite.groups P op = .ok [[]] ∧
    (∃ rest, matchAndRewrite.trace P op st = ([[]], (P.createDestOps st [[]]).1) :: rest) ∧
    (∀ resultTy resultVals, matchAndRewrite.reorder P op resultTy resultVals = resultVals) ∧
    (∀ v, (P.createDestOps st [[]]).1 = [v] → v ≠ .null →
      matchAndRewrite.trace P op st = [([[]], [v])] ∧
      matchAndRewrite P op st =
        match maybeDeduplicate op [v] with
        | .ok resultVals =>
          match packI32 (resultVals.length + 1) resultVals (op.results.headD .null)
              P.typeConverter with
          | .ok resultVals =>
            .ok (.success (P.packLLElements resultVals (op.results.headD .null)))
          | .ub => .ub
          | .timeout => .timeout
        | .ub => .ub
        | .timeout => .timeout) := by
  have hg := groups_of_no_operands P op hops
  have htrace : matchAndRewrite.trace P op st = matchAndRewrite.calls P 1 st [[]] := by
    unfold matchAndRewrite.trace
    rw [hg]
    rfl
  refine ⟨hg, ?_, reorder_of_no_operands P op hops, ?_⟩
  · rw [htrace]
    obtain ⟨rest, hc, _⟩ := calls_cons P 0 st [] []
    exact ⟨rest, hc⟩
  · intro v hv hnull
    have hcalls : matchAndRewrite.trace P op st = [([[]], [v])] := by
      rw [htrace, calls_cons_good P 0 st [] [] (by rw [hv]; simp)
        (by rw [hv]; simpa using fun h => hnull h.symm) (by rw [hv]; simp), hv]
      simp [matchAndRewrite.calls]
    refine ⟨hcalls, ?_⟩
    rw [matchAndRewrite_eq_finish P op st [[]] hg (by
      rw [hcalls]
      intro call hcall
      rw [List.mem_singleton] at hcall
      subst hcall
      exact ⟨by simp, by simpa using fun h => hnull h.symm, by simp⟩), hcalls]
    unfold matchAndRewrite.finish
    rw [reorder_of_no_operands P op hops]
    rfl

/-- Witness for claim C19: an op without operands whose one invocation of
`createDestOps` returns `arg 100` is replaced by `arg 100`. -/
theorem matchAndRewrite_zero_operands_witness :
    matchAndRewrite.trace (constPattern [.arg 100]) (blocked8 4 8) () =
      [([[]], [.arg 100])] ∧
    matchAndRewrite (constPattern [.arg 100]) (blocked8 4 8) () =
      .ok (.success (.arg 100)) :=
  ⟨((matchAndRewrite_zero_operands (constPattern [.arg 100]) (blocked8 4 8) () rfl).2.2.2
      (.arg 100) rfl (by decide)).1,
    ((matchAndRewrite_zero_operands (constPattern [.arg 100]) (blocked8 4 8) () rfl).2.2.2
      (.arg 100) rfl (by decide)).2.trans (by decide)⟩

/-! ## Packing, then unpacking -/

theorem splitBits_joinBits (w : Nat) : ∀ (es : List Nat), (∀ x ∈ es, x < 2 ^ w) →
    splitBits w (joinBits w es) es.length = es := by
  intro es
  induction es with
  | nil => intro _; rfl
  | cons x es ih =>
    intro h
    have hx : x < 2 ^ w := h x (List.mem_cons_self _ _)
    have hpos : 0 < 2 ^ w := Nat.two_pow_pos w
    rw [List.length_cons, joinBits, splitBits, Nat.add_mul_mod_self_left,
      Nat.mod_eq_of_lt hx, Nat.add_mul_div_left _ _ hpos, Nat.div_eq_of_lt hx, Nat.zero_add,
      ih (fun y hy => h y (List.mem_cons_of_mem _ hy))]

/-- Claim C20 (reverse round trip).  On the dot-operand/MMA layout with an
element width `w` that divides 32 (8 and 16 among them) and `k = 32 / w`, for
every sequence `ys` of `w`-bit element values whose length is a multiple of
`k`, `packI32` returns, given fuel for `|ys| / k + 1` turns, `unpackI32` of
its result returns a sequence of the length of `ys`, and its `i`-th value
holds the same content as `ys[i]`. -/
theorem unpackI32_packI32_roundtrip (fuel : Nat) (ys : List Value) (T : MlirType)
    (tc : LLVMTypeConverter) (rt : RankedTensorType) (w : Nat)
    (h : subElementTensor T = some rt)
    (hw : (tc.convertType rt.elementType).bitWidth = w) (hw0 : 0 < w) (hdvd : w ∣ 32)
    (hlen : 32 / w ∣ ys.length) (hfuel : ys.length / (32 / w) < fuel) :
    ∃ ps us, packI32 fuel ys T tc = .ok ps ∧ unpackI32 ps T tc = .ok us ∧
      us.length = ys.length ∧
      ∀ (env : Env),
        (∀ i, i < ys.length →
          ∃ y, y < 2 ^ w ∧ (ys[i]?).bind (Value.eval env) = some (.int w y)) →
        ∀ i, i < ys.length →
          (us[i]?).bind (Value.eval env) = (ys[i]?).bind (Value.eval env) := by
  have hk32 : 32 / w * w = 32 := Nat.div_mul_cancel hdvd
  have hk : 0 < 32 / w := Nat.div_pos (Nat.le_of_dvd (by decide) hdvd) hw0
  obtain ⟨ps, hps, hpl, hpget⟩ := packI32_chunks fuel ys T tc rt w h hw hw0 hlen hfuel
  obtain ⟨us, hus, hul, huget⟩ := unpackI32_subElement ps T tc rt h (by omega)
  rw [hw] at hul huget
  have hlen2 : ps.length * (32 / w) = ys.length := by
    rw [hpl]
    exact Nat.div_mul_cancel hlen
  refine ⟨ps, us, hps, hus, by rw [hul, hlen2], fun env hval i hi => ?_⟩
  have him : i / (32 / w) < ps.length := by
    rw [hpl]
    exact Nat.div_lt_div_of_lt_of_dvd hlen hi
  have hjk : i % (32 / w) < 32 / w := Nat.mod_lt _ hk
  have hsplit : i / (32 / w) * (32 / w) + i % (32 / w) = i := Nat.div_add_mod' i (32 / w)
  obtain ⟨vec, hvec, hsem⟩ := hpget (i / (32 / w)) him
  have hu := huget (i / (32 / w)) (i % (32 / w)) hjk
  rw [hsplit, hvec, Option.map_some'] at hu
  have hchunk : ∀ j, j < 32 / w → i / (32 / w) * (32 / w) + j < ys.length := by
    intro j hj
    have : (i / (32 / w) + 1) * (32 / w) ≤ ps.length * (32 / w) :=
      Nat.mul_le_mul_right _ him
    rw [hlen2, Nat.add_mul, Nat.one_mul] at this
    omega
  obtain ⟨Y, hY⟩ : ∃ Y : Nat → Nat, ∀ j, j < 32 / w → Y j < 2 ^ w ∧
      (ys[i / (32 / w) * (32 / w) + j]?).bind (Value.eval env) = some (.int w (Y j)) := by
    refine ⟨fun j =>
      match (ys[i / (32 / w) * (32 / w) + j]?).bind (Value.eval env) with
      | some (.int _ y) => y
      | _ => 0, fun j hj => ?_⟩
    obtain ⟨y, hylt, hyv⟩ := hval _ (hchunk j hj)
    simp only [hyv]
    exact ⟨hylt, trivial⟩
  have hpack := (hsem env Y (fun j hj => (hY j hj).2)).2 hk32
  have hex := eval_extract_bitcast env (Value.bitcast vec i32_ty) _
    (tc.convertType rt.elementType) (32 / w) (i % (32 / w)) hpack (by rw [hw]; exact hk32) hjk
  rw [hw] at hex
  have hsj := splitBits_joinBits w ((List.range (32 / w)).map Y) (by
    intro x hx
    obtain ⟨j, hj, hjx⟩ := List.mem_map.mp hx
    rw [← hjx]
    exact (hY j (List.mem_range.mp hj)).1)
  rw [List.length_map, List.length_range] at hsj
  have hyi := (hY (i % (32 / w)) hjk).2
  rw [hsplit] at hyi
  rw [hu, Option.some_bind, hex, hsj, hyi, List.getD_eq_getElem?_getD, List.getElem?_map,
    List.getElem?_range hjk]
  rfl

/-- Witness for claim C20: four 16-bit values are packed into two lane values
and unpacked again; under `halfEnv` the four values unpacked hold the
contents 0, 1, 2 and 3 of the four values packed. -/
theorem unpackI32_packI32_roundtrip_witness :
    ∃ ps us, packI32 3 [.arg 0, .arg 1, .arg 2, .arg 3] (dotOpMmaTy 16) idConverter = .ok ps ∧
      unpackI32 ps (dotOpMmaTy 16) idConverter = .ok us ∧ us.length = 4 ∧
      ∀ i, i < 4 →
        (us[i]?).bind (Value.eval halfEnv) = some (.int 16 i) := by
  obtain ⟨ps, us, hps, hus, hlen, hval⟩ :=
    unpackI32_packI32_roundtrip 3 [.arg 0, .arg 1, .arg 2, .arg 3] (dotOpMmaTy 16) idConverter
      ⟨⟨16⟩, some (.DotOperandEncodingAttr .NvidiaMmaEncodingAttr), []⟩ 16 rfl rfl
      (by decide) (by decide) (by decide) (by decide)
  refine ⟨ps, us, hps, hus, hlen, fun i hi => ?_⟩
  have hi4 : i < 4 := hi
  rw [hval halfEnv (fun j hj => by
    have hj4 : j < 4 := hj
    interval_cases j
    · exact ⟨0, by decide, rfl⟩
    · exact ⟨1, by decide, rfl⟩
    · exact ⟨2, by decide, rfl⟩
    · exact ⟨3, by decide, rfl⟩) i hi]
  interval_cases i <;> rfl

/-! ## Failure and success of `matchAndRewrite` -/

theorem unpackI32_returns (xs : List Value) (T : MlirType) (tc : LLVMTypeConverter)
    (h : passesThrough T = true ∨
      ∃ rt, subElementTensor T = some rt ∧ (tc.convertType rt.elementType).bitWidth ≠ 0) :
    ∃ out, unpackI32 xs T tc = .ok out := by
  rcases h with h | ⟨rt, hrt, hw⟩
  · exact ⟨xs, unpackI32_passthrough xs T tc h⟩
  · obtain ⟨out, hout, _⟩ := unpackI32_subElement xs T tc rt hrt hw
    exact ⟨out, hout⟩

theorem operandLoop_ok {σ : Type} (P : Pattern σ) (op : SourceOp) (argTy : MlirType)
    (v0 : Value) (hhead : op.operands.head? = some (argTy, v0))
    (hret : ∀ xs, ∃ out, unpackI32 xs argTy P.typeConverter = .ok out) :
    ∀ (operands : List (MlirType × Value)) (all : List (List Value)),
      ∃ gs, matchAndRewrite.operandLoop P op operands all = .ok gs := by
  intro operands
  induction operands with
  | nil => intro all; exact ⟨all, rfl⟩
  | cons operand rest ih =>
    intro all
    obtain ⟨out, hout⟩ := hret (P.unpackLLElements operand.2)
    rw [matchAndRewrite.operandLoop, hhead]
    simp only []
    rw [hout]
    exact ih _

theorem groups_ok {σ : Type} (P : Pattern σ) (op : SourceOp)
    (harg : ∀ argTy v0, op.operands.head? = some (argTy, v0) →
      passesThrough argTy = true ∨
        ∃ rt, subElementTensor argTy = some rt ∧
          (P.typeConverter.convertType rt.elementType).bitWidth ≠ 0) :
    ∃ groups, matchAndRewrite.groups P op = .ok groups := by
  cases hops : op.operands with
  | nil => exact ⟨[[]], groups_of_no_operands P op hops⟩
  | cons a rest =>
    obtain ⟨argTy, v0⟩ := a
    have hhead : op.operands.head? = some (argTy, v0) := by rw [hops]; rfl
    obtain ⟨gs, hgs⟩ := operandLoop_ok P op argTy v0 hhead
      (fun xs => unpackI32_returns xs argTy P.typeConverter (harg argTy v0 hhead))
      op.operands []
    unfold matchAndRewrite.groups
    rw [hgs]
    simp only []
    by_cases h0 : gs.length = 0
    · rw [if_pos h0]; exact ⟨_, rfl⟩
    · rw [if_neg h0]; exact ⟨_, rfl⟩

theorem gates_total_blocked (op : SourceOp) (vals : List Value)
    (hsize : ∀ rt enc, op.results.head? = some (.tensor rt) → rt.encoding = some enc →
      enc.isBlockedOrSlice = true → ∀ s ∈ getSizePerThread enc, s ≠ 0)
    (hperm : ∀ rt enc, op.results.head? = some (.tensor rt) → rt.encoding = some enc →
      enc.isBlockedOrSlice = true → 1 < (getElemsPerThread rt).length →
      (getOrder enc).Perm (List.range (getElemsPerThread rt).length)) :
    maybeDeduplicate.gates op vals = .ok none ∨
      ∃ es cs, maybeDeduplicate.gates op vals = .ok (some (es, cs)) := by
  rcases gates_eq op vals with h | ⟨rt, enc, ai, _, hres, henc, hblk, _, _, hls, hlc, hg⟩
  · exact Or.inl h
  · have hhead : op.results.head? = some (.tensor rt) := by rw [hres]; rfl
    rw [hg]
    rcases clamp_no_fault (getElemsPerThread rt) (getSizePerThread enc) ai.constancy false
      (hsize rt enc hhead henc hblk) with hc | ⟨c', h', hc⟩
    · rw [hc]
      exact Or.inl rfl
    · rw [hc]
      simp only []
      cases h' with
      | false => exact Or.inl rfl
      | true =>
        obtain ⟨hl', _⟩ := clamp_facts _ _ _ _ _ _ hc hls hlc
        exact permute_ok enc (getElemsPerThread rt) c' hl'.symm (fun hr i hi => by
          have := (hperm rt enc hhead henc hblk hr).mem_iff.mp hi
          exact List.mem_range.mp this)

theorem maybeDeduplicate_returns (op : SourceOp) (vals : List Value)
    (hsize : ∀ rt enc, op.results.head? = some (.tensor rt) → rt.encoding = some enc →
      enc.isBlockedOrSlice = true → ∀ s ∈ getSizePerThread enc, s ≠ 0)
    (hperm : ∀ rt enc, op.results.head? = some (.tensor rt) → rt.encoding = some enc →
      enc.isBlockedOrSlice = true → 1 < (getElemsPerThread rt).length →
      (getOrder enc).Perm (List.range (getElemsPerThread rt).length)) :
    ∃ d, maybeDeduplicate op vals = .ok d ∧ d.length = vals.length := by
  rcases gates_total_blocked op vals hsize hperm with h | ⟨es, cs, h⟩
  · exact ⟨vals, maybeDeduplicate_of_gates_none op vals h, rfl⟩
  · obtain ⟨out, hrun, hlen, _⟩ := maybeDeduplicate_of_gates op vals es cs h
    exact ⟨out, hrun, hlen⟩

theorem packI32_returns (d : List Value) (T : MlirType) (tc : LLVMTypeConverter)
    (h : passesThrough T = true ∨
      ∃ rt, subElementTensor T = some rt ∧ 0 < (tc.convertType rt.elementType).bitWidth ∧
        32 / (tc.convertType rt.elementType).bitWidth ∣ d.length) :
    ∃ p, packI32 (d.length + 1) d T tc = .ok p := by
  rcases h with h | ⟨rt, hrt, hw, hdvd⟩
  · exact ⟨d, packI32_passthrough _ d T tc h⟩
  · obtain ⟨p, hp, _⟩ := packI32_chunks (d.length + 1) d T tc rt _ hrt rfl hw hdvd
      (Nat.lt_succ_of_le (Nat.div_le_self _ _))
    exact ⟨p, hp⟩

/-- Claim C9 (lowering failure), as amended.  `matchAndRewrite` returns
failure exactly when some invocation of `createDestOps` returns an empty
sequence or one containing a null handle.  It returns success, having
replaced the op by the packed results, when no invocation does, every
invocation returns at most as many results as groups remain, and the steps
around the loop are within their domain: the type of operand 0 is not a
dot-operand/MMA tensor or has a non-zero element width; a blocked or slice
result layout has no size-per-thread entry 0 and an axis order that is a
permutation of the dimensions; and the result type is not a dot-operand/MMA
tensor, or has an element width `w > 0` with `32 / w` dividing the number of
values to pack. -/
theorem matchAndRewrite_failure {σ : Type} (P : Pattern σ) (op : SourceOp) (st : σ) :
    (matchAndRewrite P op st = .ok .failure ↔
      ∃ call ∈ matchAndRewrite.trace P op st, call.2 = [] ∨ Value.null ∈ call.2) ∧
    ((∀ call ∈ matchAndRewrite.trace P op st,
        call.2 ≠ [] ∧ Value.null ∉ call.2 ∧ call.2.length ≤ call.1.length) →
      (∀ argTy v0, op.operands.head? = some (argTy, v0) →
        passesThrough argTy = true ∨
          ∃ rt, subElementTensor argTy = some rt ∧
            (P.typeConverter.convertType rt.elementType).bitWidth ≠ 0) →
      (∀ rt enc, op.results.head? = some (.tensor rt) → rt.encoding = some enc →
        enc.isBlockedOrSlice = true → ∀ s ∈ getSizePerThread enc, s ≠ 0) →
      (∀ rt enc, op.results.head? = some (.tensor rt) → rt.encoding = some enc →
        enc.isBlockedOrSlice = true → 1 < (getElemsPerThread rt).length →
        (getOrder enc).Perm (List.range (getElemsPerThread rt).length)) →
      (passesThrough (op.results.headD .null) = true ∨
        ∃ rt, subElementTensor (op.results.headD .null) = some rt ∧
          0 < (P.typeConverter.convertType rt.elementType).bitWidth ∧
          32 / (P.typeConverter.convertType rt.elementType).bitWidth ∣
            (matchAndRewrite.reorder P op (op.results.headD .null)
              ((matchAndRewrite.trace P op st).flatMap Prod.snd)).length) →
      ∃ d p,
        maybeDeduplicate op (matchAndRewrite.reorder P op (op.results.headD .null)
          ((matchAndRewrite.trace P op st).flatMap Prod.snd)) = .ok d ∧
        packI32 (d.length + 1) d (op.results.headD .null) P.typeConverter = .ok p ∧
        matchAndRewrite P op st =
          .ok (.success (P.packLLElements p (op.results.headD .null)))) := by
  refine ⟨matchAndRewrite_failure_iff P op st, fun h harg hsize hperm hres => ?_⟩
  obtain ⟨groups, hg⟩ := groups_ok P op harg
  obtain ⟨d, hd, hdl⟩ := maybeDeduplicate_returns op
    (matchAndRewrite.reorder P op (op.results.headD .null)
      ((matchAndRewrite.trace P op st).flatMap Prod.snd)) hsize hperm
  obtain ⟨p, hp⟩ := packI32_returns d (op.results.headD .null) P.typeConverter (by
    rcases hres with hres | ⟨rt, hrt, hw, hdvd⟩
    · exact Or.inl hres
    · exact Or.inr ⟨rt, hrt, hw, by rw [hdl]; exact hdvd⟩)
  refine ⟨d, p, hd, hp, ?_⟩
  rw [matchAndRewrite_eq_finish P op st groups hg h]
  unfold matchAndRewrite.finish
  rw [hd]
  simp only []
  rw [hp]

/-- Witness for claim C9: on a one-operand op whose operand unpacks to two values,
a callback returning one value per call gives success after two calls; one
returning nothing, or a null handle, gives failure. -/
theorem matchAndRewrite_failure_witness :
    (∃ view, matchAndRewrite (constPattern [.arg 100]) unaryOp () = .ok (.success view)) ∧
    matchAndRewrite (constPattern [.arg 100]) unaryOp () = .ok (.success (.arg 100)) ∧
    matchAndRewrite.trace (constPattern [.arg 100]) unaryOp () =
      [([[.arg 20], [.arg 21]], [.arg 100]), ([[.arg 21]], [.arg 100])] ∧
    matchAndRewrite (constPattern []) unaryOp () = .ok .failure ∧
    matchAndRewrite (constPattern [.arg 100, .null]) unaryOp () = .ok .failure := by
  refine ⟨?_, by decide, by decide, ?_, ?_⟩
  · obtain ⟨d, p, _, _, h⟩ := (matchAndRewrite_failure (constPattern [.arg 100]) unaryOp ()).2
      (by decide)
      (fun argTy v0 h => by
        cases h
        exact Or.inl rfl)
      (fun rt enc h1 h2 _ => by
        cases h1
        cases h2
        decide)
      (fun rt enc h1 h2 _ _ => by
        cases h1
        cases h2
        decide)
      (Or.inl rfl)
    exact ⟨_, h⟩
  · exact (matchAndRewrite_failure (constPattern []) unaryOp ()).1.mpr
      ⟨([[.arg 20], [.arg 21]], []), by decide, Or.inl rfl⟩
  · exact (matchAndRewrite_failure (constPattern [.arg 100, .null]) unaryOp ()).1.mpr
      ⟨([[.arg 20], [.arg 21]], [.arg 100, .null]), by decide, Or.inr (by decide)⟩

/-- Counterexample to claim C9 as stated.  On an op whose operand and result
have a dot-operand type with 64-bit elements the one invocation of
`createDestOps` returns one non-null result for the one group, and
`matchAndRewrite` does not return: the loop of `packI32` does not advance,
whatever the fuel.  On an op with a 16-bit dot-operand result and one value
to pack the one invocation is as good, and `packI32` reads past the end of
its input. -/
theorem matchAndRewrite_failure_counterexample :
    (matchAndRewrite.trace (constPattern [.arg 100]) wideOp () = [([[]], [.arg 100])] ∧
      (∀ fuel, packI32 fuel [.arg 100] (dotOpMmaTy 64) idConverter = .timeout) ∧
      matchAndRewrite (constPattern [.arg 100]) wideOp () = .timeout) ∧
    (matchAndRewrite.trace (constPattern [.arg 100]) oddOp () =
        [([[.arg 10]], [.arg 100])] ∧
      (∀ fuel, packI32 (fuel + 1) [.arg 100] (dotOpMmaTy 16) idConverter = .ub) ∧
      matchAndRewrite (constPattern [.arg 100]) oddOp () = .ub) := by
  refine ⟨⟨by decide, fun fuel => ?_, by decide⟩, by decide, fun fuel => ?_, by decide⟩
  · have e : packI32 fuel [.arg 100] (dotOpMmaTy 64) idConverter =
        packI32.loop [.arg 100] ⟨64⟩ 0 fuel 0 [] := by
      simp [packI32, dotOpMmaTy, isDotOperandOfNvidiaMma, idConverter]
    rw [e]
    exact packI32_loop_zero_width _ _ 0 (by decide) fuel []
  · simp [packI32, dotOpMmaTy, isDotOperandOfNvidiaMma, idConverter, packI32.loop,
      packI32.inner]

end Triton
